import Mathlib

/-!
# Shortest paths and range-constrained routing over a CSR graph

A shallow embedding of `dijkstra/dijkstra.go` and `dijkstra/stationDijkstra.go`.

* Node ids and slice indices are natural numbers; a pointer `&g.Nodes[i]` is
  represented by the index `i`.
* `int64` costs are integers; every addition the code performs is wrapped to
  64 bits by `wrap64`.
* A Go index expression that is out of range, and a loop that would not stop
  within the supplied fuel, are explicit outcomes of type `Run`.
-/

set_option autoImplicit false

namespace Dijkstra

/-! ## Data model (package `data`, seen through its uses) -/

/-- The largest `int64`, `math.MaxInt64`; the code's marker for "unreachable". -/
def MaxInt64 : Int := 9223372036854775807

/-- Two's-complement wrap-around of an integer into the `int64` range. -/
def wrap64 (x : Int) : Int := (x + 9223372036854775808) % 18446744073709551616 - 9223372036854775808

/-- A `data.Edge`: identity, start node id, end node id, cost. -/
structure Edge where
  ID : Int
  Start : Nat
  End : Nat
  Cost : Int
deriving DecidableEq, Repr

/-- A `data.Node`. Only the identity is modelled; the coordinates enter the
model through the distance function handed to the station selection. -/
structure Node where
  ID : Nat
deriving DecidableEq, Repr

/-- A `data.GraphProd`: nodes indexed by id, edges grouped by start node, and the
offset table delimiting each node's outgoing edges. -/
structure GraphProd where
  Nodes : List Node
  Edges : List Edge
  Offset : List Nat
deriving DecidableEq, Repr

/-- A `data.Item` of the frontier: the candidate edge and its accumulated cost. -/
structure Item where
  Value : Edge
  Priority : Int
deriving DecidableEq, Repr

/-- Outcome of running a piece of Go code: a normal return, a run-time panic
caused by an index out of range, or fuel exhausted before the loop stopped. -/
inductive Run (α : Type) where
  | ok (a : α)
  | indexOutOfRange
  | outOfFuel
deriving DecidableEq, Repr

/-! ## The min-priority frontier -/

/-- Modelled from the spec: `data.PriorityQueue` with `container/heap` is not part
of the sources. `heap.Pop` "returns the pair with smallest accumulated cost, breaking
ties arbitrarily"; here the frontier is a list and the earliest entry of least
priority is removed. -/
def popMin : List Item → Option (Item × List Item)
  | [] => none
  | x :: xs =>
    match popMin xs with
    | none => some (x, [])
    | some (m, rest) =>
      if x.Priority ≤ m.Priority then some (x, xs) else some (m, x :: rest)

/-- Modelled from the spec: `heap.Push` on the absent `data.PriorityQueue`; the
entry joins the frontier. -/
def push (pq : List Item) (it : Item) : List Item := it :: pq

/-- A way of popping the frontier: the entry removed and the entries that remain,
or `none` on an empty frontier. The functions below take it as a parameter, since
the order in which the absent `data.PriorityQueue` breaks ties is not known;
`popMin` is one such way. -/
abbrev Pop := List Item → Option (Item × List Item)

/-! ## `CalcDijkstra` (dijkstra.go) -/

/-- The table entry every node starts with (dijkstra.go line 23). -/
def initEdge (startID : Nat) : Edge := ⟨-1, startID, startID, MaxInt64⟩

/-- The synthetic edge pushed for the start node (dijkstra.go line 30). -/
def startEdge (startID : Nat) : Edge := ⟨-1, startID, startID, 0⟩

/-- The relaxation loop, dijkstra.go lines 47-57: `cnt` iterations from index `i`. -/
def relax (g : GraphProd) (prevs : List Edge) (prio : Int) :
    Nat → Nat → List Item → Run (List Item)
  | _, 0, pq => Run.ok pq
  | i, cnt + 1, pq =>
    match g.Edges[i]? with
    | none => Run.indexOutOfRange
    | some e =>
      match prevs[e.End]? with
      | none => Run.indexOutOfRange
      | some pe =>
        let p := wrap64 (prio + e.Cost)
        relax g prevs prio (i + 1) cnt (if p < pe.Cost then push pq ⟨e, p⟩ else pq)

/-- The frontier loop, dijkstra.go lines 33-58. -/
def dijkstraLoop (pop : Pop) (g : GraphProd) : Nat → List Item → List Edge → Run (List Edge)
  | 0, _, _ => Run.outOfFuel
  | fuel + 1, pq, prevs =>
    match pop pq with
    | none => Run.ok prevs
    | some (item, rest) =>
      let currentEdge := item.Value
      match prevs[currentEdge.End]? with
      | none => Run.indexOutOfRange
      | some pe =>
        if item.Priority ≥ pe.Cost then dijkstraLoop pop g fuel rest prevs
        else
          let prevs1 := prevs.set currentEdge.End
            ⟨currentEdge.ID, currentEdge.Start, currentEdge.End, item.Priority⟩
          match g.Offset[currentEdge.End]?, g.Offset[currentEdge.End + 1]? with
          | some edgeBegin, some edgeEnd =>
            match relax g prevs1 item.Priority edgeBegin (edgeEnd - edgeBegin) rest with
            | Run.ok pq1 => dijkstraLoop pop g fuel pq1 prevs1
            | Run.indexOutOfRange => Run.indexOutOfRange
            | Run.outOfFuel => Run.outOfFuel
          | _, _ => Run.indexOutOfRange

/-- Modelled from the spec: `CalcDijkstraToMany` is not part of the sources; it is
the single-source part of `CalcDijkstra` (dijkstra.go lines 16-58), returning the
whole table. -/
def CalcDijkstraToMany (pop : Pop) (fuel : Nat) (g : GraphProd) (startID : Nat) :
    Run (List Edge) :=
  dijkstraLoop pop g fuel (push [] ⟨startEdge startID, 0⟩)
    (List.replicate g.Nodes.length (initEdge startID))

/-- The loop of the path reconstruction, dijkstra.go lines 70-74. -/
def wayLoop (prevs : List Edge) (startID : Nat) : Nat → Edge → List Nat → Run (List Nat)
  | 0, _, _ => Run.outOfFuel
  | fuel + 1, edge, optWay =>
    if edge.End = startID then Run.ok optWay
    else
      match prevs[edge.Start]? with
      | none => Run.indexOutOfRange
      | some e1 => wayLoop prevs startID fuel e1 (optWay ++ [edge.Start])

/-- The error values the two files create with `errors.New`, the failure of `Pop`
on an empty snapshot stack (whose text is not in the sources), and the invariant
violation a path reconstruction reports when it does not stop within node count
steps. -/
inductive Err where
  | noWayFound
  | noMoreReachableStations
  | noGoodStationFound
  | emptyStack
  | invariantViolation
deriving DecidableEq, Repr

/-- What `CalcDijkstra` returns: cost, node sequence (`none` for a nil slice) and
error (`none` for nil). -/
structure DijkstraResult where
  cost : Int
  way : Option (List Nat)
  err : Option Err
deriving DecidableEq, Repr

/-- The path reconstruction, dijkstra.go lines 62-76, on a given table. The table
has one entry per node of the graph, so an index is in range for `g.Nodes` exactly
when it is in range for the table. -/
def reconstruct (fuel : Nat) (prevs : List Edge) (startID targetID : Nat) : Run DijkstraResult :=
  match prevs[targetID]? with
  | none => Run.indexOutOfRange
  | some edge =>
    if edge.Cost = MaxInt64 then Run.ok ⟨MaxInt64, none, some Err.noWayFound⟩
    else if edge.End < prevs.length then
      match wayLoop prevs startID fuel edge [edge.End] with
      | Run.ok optWay => Run.ok ⟨edge.Cost, some optWay, none⟩
      | Run.indexOutOfRange => Run.indexOutOfRange
      | Run.outOfFuel => Run.outOfFuel
    else Run.indexOutOfRange

/-- The function `CalcDijkstra` of dijkstra.go. -/
def CalcDijkstra (pop : Pop) (fuel : Nat) (g : GraphProd) (startID targetID : Nat) :
    Run DijkstraResult :=
  match CalcDijkstraToMany pop fuel g startID with
  | Run.ok prevs => reconstruct fuel prevs startID targetID
  | Run.indexOutOfRange => Run.indexOutOfRange
  | Run.outOfFuel => Run.outOfFuel

/-! ## The range-constrained router (stationDijkstra.go) -/

/-- A `data.NodeRoute`: node sequence and accumulated cost. -/
structure NodeRoute where
  Route : List Nat
  TotalCost : Int
deriving DecidableEq, Repr

/-- A `data.Snapshot` of the router state. -/
structure Snapshot where
  PartialStart : Nat
  PartialRoute : NodeRoute
  Stations : List Nat
deriving DecidableEq, Repr

/-- The two limits read from `config.Config`. -/
structure Config where
  DijkstraMaxStations : Int
  DijkstraMaxstationsPerStep : Int
deriving DecidableEq, Repr

/-- What `CalcStationDijkstraSnapshots` returns; `none` stands for nil. -/
structure StationResult where
  route : Option NodeRoute
  stations : Option (List Nat)
  err : Option Err
deriving DecidableEq, Repr

/-- A path reconstruction `findWayToGoal(start, target, g, wayCostEdges)`: the
route it returns and its error. The function is not part of the sources, so the
router takes it as a parameter; every call site discards the error and reads the
route. -/
abbrev FindWay := Nat → Nat → GraphProd → List Edge → NodeRoute × Option Err

/-- Modelled from the spec: `findWayToGoal` is not part of the sources. By the spec
it is the path reconstruction (the loop of dijkstra.go lines 62-76 run on the given
table) returning the node sequence with the target's table cost; it "must terminate
in at most (node count) steps" and otherwise "fail loudly", with "no partial results
on failure". The loop is given node count tests of its condition; when they do not
suffice, or an index is out of range, the result is an empty route with the error. -/
def findWayToGoal : FindWay := fun startID targetID _ wayCostEdges =>
  match reconstruct wayCostEdges.length wayCostEdges startID targetID with
  | Run.ok r => (⟨r.way.getD [], r.cost⟩, r.err)
  | Run.indexOutOfRange => (⟨[], 0⟩, some Err.invariantViolation)
  | Run.outOfFuel => (⟨[], 0⟩, some Err.invariantViolation)

/-- The function `goalReachable`, stationDijkstra.go lines 273-279. -/
def goalReachable (goalID : Nat) (wayCostEdges : List Edge) (rangeCm : Int) : Run Bool :=
  match wayCostEdges[goalID]? with
  | none => Run.indexOutOfRange
  | some e => Run.ok (if e.Cost > rangeCm then false else true)

/-- Table cost at a position that is known to be in range. -/
def costAt (wayCostEdges : List Edge) (i : Nat) : Int :=
  match wayCostEdges[i]? with
  | some e => e.Cost
  | none => MaxInt64

/-- An entry of `distTable`: node id and straight-line distance to the target. -/
structure IdDist (D : Type) where
  id : Nat
  dist : D
deriving DecidableEq, Repr

/-- The comparator handed to `sort.Slice`, stationDijkstra.go lines 219-230. Both
arguments are positions of the slice being sorted; the costs are read from
`wayCostEdges` at these positions. All four branches compare the distances unless
exactly one of the two costs is below the range. -/
def lessFn {D : Type} [LinearOrder D] (wayCostEdges : List Edge) (rangeCm : Int)
    (distTable : List (IdDist D)) (i j : Nat) : Bool :=
  match distTable[i]?, distTable[j]? with
  | some x, some y =>
    if costAt wayCostEdges i < rangeCm ∧ costAt wayCostEdges j < rangeCm then
      decide (x.dist < y.dist)
    else if costAt wayCostEdges i < rangeCm ∧ costAt wayCostEdges j ≥ rangeCm then true
    else if costAt wayCostEdges i ≥ rangeCm ∧ costAt wayCostEdges j < rangeCm then false
    else decide (x.dist < y.dist)
  | _, _ => false

/-- Exchange of the entries at positions `i` and `j`. -/
def swapAt {α : Type} (xs : List α) (i j : Nat) : List α :=
  match xs[i]?, xs[j]? with
  | some a, some b => (xs.set i b).set j a
  | _, _ => xs

/-- Inner loop of Go's insertion sort:
`for j := i; j > 0 && less(j, j-1); j-- { swap(j, j-1) }`. -/
def insertDown {α : Type} (less : List α → Nat → Nat → Bool) : Nat → List α → List α
  | 0, xs => xs
  | j + 1, xs => if less xs (j + 1) j then insertDown less j (swapAt xs (j + 1) j) else xs

/-- Outer loop of Go's insertion sort, from position `i` for `cnt` positions. -/
def insertionLoop {α : Type} (less : List α → Nat → Nat → Bool) : Nat → Nat → List α → List α
  | _, 0, xs => xs
  | i, cnt + 1, xs => insertionLoop less (i + 1) cnt (insertDown less i xs)

/-- Go's insertion sort, which is all `sort.Slice` does on a slice of at most 6
elements in every release of the library (at most 12 since Go 1.19); it calls the
comparator with positions of the slice as it stands. On longer slices `sort.Slice`
proceeds differently, so this function stands for it only on the example tables
below, none of which has more than 6 entries. -/
def insertionSort {α : Type} (less : List α → Nat → Nat → Bool) (xs : List α) : List α :=
  insertionLoop less 1 (xs.length - 1) xs

/-- A way of sorting the distance table with a comparator on positions: the call
`sort.Slice(distTable, less)`. The functions below take it as a parameter, since
what the library does depends on the length of the slice and on its release. -/
abbrev SortFn (D : Type) :=
  (List (IdDist D) → Nat → Nat → Bool) → List (IdDist D) → List (IdDist D)

/-- The selection loop of `getMinDistanceStations`, stationDijkstra.go lines 234-241. -/
def takeReachable {D : Type} (wayCostEdges : List Edge) (rangeCm : Int)
    (distTable : List (IdDist D)) : Nat → Nat → List Nat → Run (List Nat × Option Err)
  | _, 0, acc => Run.ok (acc, none)
  | i, cnt + 1, acc =>
    match distTable[i]? with
    | none => Run.indexOutOfRange
    | some x =>
      match wayCostEdges[x.id]? with
      | none => Run.indexOutOfRange
      | some e =>
        if e.Cost < rangeCm then takeReachable wayCostEdges rangeCm distTable (i + 1) cnt (acc ++ [x.id])
        else Run.ok (acc, some Err.noMoreReachableStations)

/-- The function `getMinDistanceStations`, stationDijkstra.go lines 203-245. `dist i`
stands for `CalcEuclidDist(nodes[i].Lat, nodes[i].Lon, target.Lat, target.Lon)`. The
parameter `stations` is the id set of `stations.Stations`; the body never reads it. -/
def getMinDistanceStations {D : Type} [LinearOrder D] (sort : SortFn D) (nodes : List Node)
    (dist : Nat → D) (wayCostEdges : List Edge) (_stations : List Nat) (rangeCm : Int)
    (count : Int) : Run (List Nat × Option Err) :=
  if wayCostEdges.length ≤ nodes.length then
    let distTable : List (IdDist D) :=
      (List.range wayCostEdges.length).map (fun i => ⟨i, dist i⟩)
    let sorted := sort (lessFn wayCostEdges rangeCm) distTable
    takeReachable wayCostEdges rangeCm sorted 0 count.toNat []
  else Run.indexOutOfRange

/-- Modelled from the spec: `data.Stack` is not part of the sources; it is "a
last-in-first-out store of Snapshots". The stack is a list and `Push` puts the copy
of the state in front. -/
def stackPush (stack : List Snapshot) (snap : Snapshot) : List Snapshot := snap :: stack

/-- Modelled from the spec: `Pop` of the absent `data.Stack` "removes and returns
the most recent entry or signals an empty-stack failure" (`none`). -/
def stackPop : List Snapshot → Option (Snapshot × List Snapshot)
  | [] => none
  | snap :: stack => some (snap, stack)

/-- The loop over the selected candidates, stationDijkstra.go lines 179-196. The
table `wayCostEdges` is the one computed at the top of the round; `partialStart`
moves on with every candidate. The write-only `blacklist` is left out. -/
def visitBatch (findWay : FindWay) (g : GraphProd) (wayCostEdges : List Edge) :
    List Nat → Nat → NodeRoute → List Nat → List Snapshot →
    Run (Nat × NodeRoute × List Nat × List Snapshot)
  | [], partialStart, route, stations, stack => Run.ok (partialStart, route, stations, stack)
  | node :: rest, partialStart, route, stations, stack =>
    if node < g.Nodes.length then
      let partialRoute := (findWay partialStart node g wayCostEdges).1
      let route1 : NodeRoute :=
        ⟨route.Route ++ (partialRoute.Route.drop 1).reverse,
         wrap64 (route.TotalCost + partialRoute.TotalCost)⟩
      let stations1 := stations ++ [node]
      visitBatch findWay g wayCostEdges rest node route1 stations1
        (stackPush stack ⟨node, route1, stations1⟩)
    else Run.indexOutOfRange

/-- The main loop of `CalcStationDijkstraSnapshots`, stationDijkstra.go lines 128-198.
`rounds` bounds the number of passes through the loop body, `fuel` the frontier loop
of each single-source computation. -/
def stationLoop {D : Type} [LinearOrder D] (pop : Pop) (sort : SortFn D) (findWay : FindWay)
    (fuel : Nat) (g : GraphProd) (dist : Nat → D)
    (gasStations : List Nat) (targetID : Nat) (rangeCm : Int) (config : Config) :
    Nat → Nat → NodeRoute → List Nat → List Snapshot → Int → Run StationResult
  | 0, _, _, _, _, _ => Run.outOfFuel
  | rounds + 1, partialStart, route, stations, stack, counter =>
    match CalcDijkstraToMany pop fuel g partialStart with
    | Run.indexOutOfRange => Run.indexOutOfRange
    | Run.outOfFuel => Run.outOfFuel
    | Run.ok wayCostEdges =>
      match wayCostEdges[targetID]? with
      | none => Run.indexOutOfRange
      | some te =>
        if te.Cost = MaxInt64 then Run.ok ⟨none, none, some Err.noWayFound⟩
        else if goalReachable targetID wayCostEdges rangeCm = Run.ok true then
          let partialRoute := (findWay partialStart targetID g wayCostEdges).1
          Run.ok ⟨some ⟨route.Route ++ partialRoute.Route.reverse,
            wrap64 (route.TotalCost + partialRoute.TotalCost)⟩, some stations, none⟩
        else if counter + 1 > config.DijkstraMaxStations then
          Run.ok ⟨none, some stations, some Err.noWayFound⟩
        else
          match getMinDistanceStations sort g.Nodes dist wayCostEdges gasStations rangeCm
              config.DijkstraMaxstationsPerStep with
          | Run.indexOutOfRange => Run.indexOutOfRange
          | Run.outOfFuel => Run.outOfFuel
          | Run.ok (minStations, _) =>
            if minStations.length ≤ 0 then
              match stackPop stack with
              | none => Run.ok ⟨none, none, some Err.emptyStack⟩
              | some (snap, stack1) =>
                stationLoop pop sort findWay fuel g dist gasStations targetID rangeCm config
                  rounds snap.PartialStart snap.PartialRoute snap.Stations stack1 (counter + 1)
            else
              match visitBatch findWay g wayCostEdges minStations partialStart route stations
                  stack with
              | Run.ok (partialStart1, route1, stations1, stack1) =>
                stationLoop pop sort findWay fuel g dist gasStations targetID rangeCm config
                  rounds partialStart1 route1 stations1 stack1 (counter + 1)
              | Run.indexOutOfRange => Run.indexOutOfRange
              | Run.outOfFuel => Run.outOfFuel

/-- The function `CalcStationDijkstraSnapshots`, stationDijkstra.go lines 112-200. -/
def CalcStationDijkstraSnapshots {D : Type} [LinearOrder D] (pop : Pop) (sort : SortFn D)
    (findWay : FindWay) (fuel rounds : Nat) (g : GraphProd) (dist : Nat → D)
    (gasStations : List Nat) (startID targetID : Nat) (rangeCm : Int) (config : Config) :
    Run StationResult :=
  stationLoop pop sort findWay fuel g dist gasStations targetID rangeCm config rounds startID
    ⟨[], 0⟩ [] [] 0

/-! ## Specification vocabulary -/

/-- What the frontier's pop must do, whatever its way of breaking ties: it fails
only on an empty frontier, it removes one entry and keeps the others, and the entry
it removes has the least priority. -/
structure PopSpec (pop : Pop) : Prop where
  none_iff : ∀ pq, pop pq = none ↔ pq = []
  perm : ∀ pq it rest, pop pq = some (it, rest) → pq.Perm (it :: rest)
  least : ∀ pq it rest, pop pq = some (it, rest) → ∀ x ∈ pq, it.Priority ≤ x.Priority

/-- What `sort.Slice` does whatever the comparator answers and whatever the length
of the slice: it only exchanges entries, so the sorted slice is a rearrangement of
the slice it was given. -/
structure SortSpec {D : Type} (sort : SortFn D) : Prop where
  perm : ∀ less xs, (sort less xs).Perm xs

/-- What is taken for granted of `findWayToGoal`: on a table with one entry per node
on which the reconstruction loop of dijkstra.go lines 62-76, started at the target,
reaches `start` within node count tests of its condition, the route returned holds
the node sequence of that loop and the target's table cost. Of other calls nothing
is assumed but that they return. -/
structure FindWaySpec (findWay : FindWay) : Prop where
  chain : ∀ (s t : Nat) (g : GraphProd) (prevs : List Edge) (c : Int) (way : List Nat),
    prevs.length = g.Nodes.length →
    reconstruct prevs.length prevs s t = Run.ok ⟨c, some way, none⟩ →
    (findWay s t g prevs).1 = ⟨way, c⟩

/-- Entry `u` of the offset table (0 beyond its end). -/
def offAt (g : GraphProd) (u : Nat) : Nat := g.Offset.getD u 0

/-- The CSR invariants of a `GraphProd`: the offset table has node count + 1
entries, starts at 0, ends at the edge count and is non-decreasing; the edges in the
slice `Offset[u] .. Offset[u+1]` start at `u`; every edge ends at a node of the
graph. -/
def WF (g : GraphProd) : Prop :=
  g.Offset.length = g.Nodes.length + 1 ∧
  offAt g 0 = 0 ∧
  offAt g g.Nodes.length = g.Edges.length ∧
  (∀ u ∈ List.range g.Nodes.length, offAt g u ≤ offAt g (u + 1)) ∧
  (∀ u ∈ List.range g.Nodes.length, ∀ i ∈ List.range g.Edges.length,
    offAt g u ≤ i → i < offAt g (u + 1) → (g.Edges[i]?).map Edge.Start = some u) ∧
  (∀ e ∈ g.Edges, e.End < g.Nodes.length)

instance (g : GraphProd) : Decidable (WF g) := by
  unfold WF; infer_instance

/-- Every edge cost is non-negative. -/
def NonNeg (g : GraphProd) : Prop := ∀ e ∈ g.Edges, 0 ≤ e.Cost

instance (g : GraphProd) : Decidable (NonNeg g) := by
  unfold NonNeg; infer_instance

/-- Predicate `IsWalk g a es b`: the edges `es` are edges of `g` and lead, one after the
other, from node `a` to node `b`. -/
def IsWalk (g : GraphProd) : Nat → List Edge → Nat → Prop
  | a, [], b => a = b
  | a, e :: es, b => e ∈ g.Edges ∧ e.Start = a ∧ IsWalk g e.End es b

instance decIsWalk (g : GraphProd) : (a : Nat) → (es : List Edge) → (b : Nat) →
    Decidable (IsWalk g a es b)
  | a, [], b => by unfold IsWalk; infer_instance
  | a, e :: es, b => by
    unfold IsWalk
    have := decIsWalk g e.End es b
    infer_instance

/-- Sum of the edge costs of a walk, as an unbounded integer. -/
def walkCost (es : List Edge) : Int := (es.map Edge.Cost).sum

/-- No path sum reaches the `int64` maximum: every walk from `s` of at most node
count edges (a path extended by one edge, which is what a relaxation adds up)
has a cost sum below `MaxInt64`. -/
def NoOverflow (g : GraphProd) (s : Nat) : Prop :=
  ∀ es t, IsWalk g s es t → es.length ≤ g.Nodes.length → walkCost es < MaxInt64

/-- Predicate `JoinedBy g seq es`: each neighbouring pair `a, b` of `seq` is joined by the
corresponding edge of `es`, an edge of `g` leading from `b` to `a`. -/
def JoinedBy (g : GraphProd) : List Nat → List Edge → Prop
  | [_], [] => True
  | a :: b :: rest, e :: es => e ∈ g.Edges ∧ e.Start = b ∧ e.End = a ∧ JoinedBy g (b :: rest) es
  | _, _ => False

/-- Predicate `Tree g s prevs v es`: the table `prevs` holds, for `v`, the last edge of the
walk `es` from `s` to `v` with the accumulated cost of `es`, and so on back to the
entry of `s`, which holds the synthetic start edge. -/
inductive Tree (g : GraphProd) (s : Nat) (prevs : List Edge) : Nat → List Edge → Prop where
  | root : prevs[s]? = some (startEdge s) → Tree g s prevs s []
  | step {u : Nat} {es : List Edge} (e : Edge) : Tree g s prevs u es → e ∈ g.Edges →
      e.Start = u → e.End ≠ s →
      prevs[e.End]? = some ⟨e.ID, e.Start, e.End, walkCost es + e.Cost⟩ →
      Tree g s prevs e.End (es ++ [e])

/-- Weighted count of the nodes whose table entry is still the initial one. -/
def wsum (s n : Nat) (w : Nat → Nat) (prevs : List Edge) : Nat :=
  Finset.sum (Finset.range n) (fun u => if prevs[u]? = some (initEdge s) then w u else 0)

/-- Number of nodes not yet committed. -/
def uncommitted (g : GraphProd) (s : Nat) (prevs : List Edge) : Nat :=
  wsum s g.Nodes.length (fun _ => 1) prevs

/-- Number of edges leaving nodes not yet committed: the pushes still possible. -/
def pending (g : GraphProd) (s : Nat) (prevs : List Edge) : Nat :=
  wsum s g.Nodes.length (fun u => offAt g (u + 1) - offAt g u) prevs

/-- The part of the loop invariant of `dijkstraLoop` that does not mention the
relaxation in progress. -/
structure Base (g : GraphProd) (s : Nat) (pq : List Item) (prevs : List Edge) : Prop where
  len : prevs.length = g.Nodes.length
  start : prevs[s]? = some (startEdge s)
  tree : ∀ (v : Nat) (e : Edge), prevs[v]? = some e → e ≠ initEdge s →
    ∃ es, Tree g s prevs v es ∧ es.length + uncommitted g s prevs < g.Nodes.length
  item : ∀ it ∈ pq, it.Value ∈ g.Edges ∧ ∃ pu, prevs[it.Value.Start]? = some pu ∧
    pu ≠ initEdge s ∧ it.Priority = pu.Cost + it.Value.Cost
  mono : ∀ it ∈ pq, ∀ (v : Nat) (e : Edge), prevs[v]? = some e → e ≠ initEdge s → e.Cost ≤ it.Priority

/-- Frontier completeness: every edge leaving a committed node either ends at a
committed node whose cost it cannot improve, or is covered by a frontier entry. For
the node `v` under relaxation only the edges at positions below `k` are required. -/
def Closed (g : GraphProd) (s : Nat) (pq : List Item) (prevs : List Edge) (v k : Nat) : Prop :=
  ∀ (u : Nat) (pu : Edge), prevs[u]? = some pu → pu ≠ initEdge s →
    ∀ (i : Nat) (e : Edge), g.Edges[i]? = some e → e.Start = u → (u = v → i < k) →
      ∃ pv, prevs[e.End]? = some pv ∧
        ((pv ≠ initEdge s ∧ pv.Cost ≤ pu.Cost + e.Cost) ∨
          ∃ it ∈ pq, it.Value.End = e.End ∧ it.Priority ≤ pu.Cost + e.Cost)

/-- Predicate `Legs g R a stations t route`: the node sequence `route` leads from `a`
through the stations, in their order, to `t`, and splits into one leg per station
and a last leg to `t`; each leg follows a walk of `g` whose edge costs sum to at
most `R`. A leg contributes the start nodes of its edges; the last leg also
contributes `t`. -/
def Legs (g : GraphProd) (R : Int) : Nat → List Nat → Nat → List Nat → Prop
  | a, [], t, route =>
    ∃ fs, IsWalk g a fs t ∧ walkCost fs ≤ R ∧ route = fs.map Edge.Start ++ [t]
  | a, c :: stations, t, route =>
    ∃ fs rest, IsWalk g a fs c ∧ walkCost fs ≤ R ∧ route = fs.map Edge.Start ++ rest ∧
      Legs g R c stations t rest

/-- Predicate `LegsTo g R a stations cur route`: the legs built so far, ending at the
current position `cur` (the last station, or `a` when there is none). -/
def LegsTo (g : GraphProd) (R : Int) : Nat → List Nat → Nat → List Nat → Prop
  | a, [], cur, route => cur = a ∧ route = []
  | a, c :: stations, cur, route =>
    ∃ fs rest, IsWalk g a fs c ∧ walkCost fs ≤ R ∧ route = fs.map Edge.Start ++ rest ∧
      LegsTo g R c stations cur rest

/-- The invariant of the router's main loop: the live state and every snapshot on
the stack consist of legs within the range, and every position is a node. -/
def RouterInv (g : GraphProd) (R : Int) (s : Nat) (partialStart : Nat) (route : NodeRoute)
    (stations : List Nat) (stack : List Snapshot) : Prop :=
  partialStart < g.Nodes.length ∧ LegsTo g R s stations partialStart route.Route ∧
  ∀ snap ∈ stack, snap.PartialStart < g.Nodes.length ∧
    LegsTo g R s snap.Stations snap.PartialStart snap.PartialRoute.Route

/-- The value is an `int64`. -/
def InInt64 (x : Int) : Prop := -9223372036854775808 ≤ x ∧ x ≤ MaxInt64

/-- The shape of the table that holds whatever the edge costs are: an entry is the
initial one, or it sits at the index of its own end node, has a cost below
`MaxInt64`, and the entry of its start node is not the initial one either. -/
structure Shape (g : GraphProd) (s : Nat) (pq : List Item) (prevs : List Edge) : Prop where
  len : prevs.length = g.Nodes.length
  ent : ∀ (v : Nat) (e : Edge), prevs[v]? = some e → e = initEdge s ∨
    (e.End = v ∧ e.Cost < MaxInt64 ∧ ∃ pu, prevs[e.Start]? = some pu ∧ pu ≠ initEdge s)
  rng : ∀ (v : Nat) (e : Edge), prevs[v]? = some e → e.Cost ≤ MaxInt64
  itm : ∀ it ∈ pq, it.Value.Start = it.Value.End ∨
    ∃ pu, prevs[it.Value.Start]? = some pu ∧ pu ≠ initEdge s

/-! ## Example inputs -/

/-- The spec's example graph: A=0, B=1, C=2, D=3. -/
def exampleGraph : GraphProd :=
  ⟨[⟨0⟩, ⟨1⟩, ⟨2⟩, ⟨3⟩],
   [⟨0, 0, 1, 5⟩, ⟨1, 0, 2, 3⟩, ⟨2, 1, 3, 5⟩, ⟨3, 2, 3, 3⟩],
   [0, 2, 3, 4, 4]⟩


/-- A road 0 → 1 → 2 whose edge costs 2^62 and 2^62 - 1 sum to exactly the `int64`
maximum. -/
def sentinelGraph : GraphProd :=
  ⟨[⟨0⟩, ⟨1⟩, ⟨2⟩],
   [⟨0, 0, 1, 4611686018427387904⟩, ⟨1, 1, 2, 4611686018427387903⟩],
   [0, 1, 2, 2]⟩

/-- A road 0 → 1 → 2 → 3 with costs 3, 3 and 5. -/
def chainGraph : GraphProd :=
  ⟨[⟨0⟩, ⟨1⟩, ⟨2⟩, ⟨3⟩], [⟨0, 0, 1, 3⟩, ⟨1, 1, 2, 3⟩, ⟨2, 2, 3, 5⟩], [0, 1, 2, 3, 3]⟩

/-- Straight-line distances to node 3 used with `chainGraph`. -/
def chainDist (i : Nat) : Nat := [9, 1, 2, 0].getD i 0

/-- Start 0, station 1 (0 → 1 costs 3, 1 → 3 costs 4), target 3, and a dead-end
node 2 (0 → 2 costs 1) that is no station. -/
def detourGraph : GraphProd :=
  ⟨[⟨0⟩, ⟨1⟩, ⟨2⟩, ⟨3⟩], [⟨0, 0, 1, 3⟩, ⟨1, 0, 2, 1⟩, ⟨2, 1, 3, 4⟩], [0, 2, 3, 3, 3]⟩

/-- Straight-line distances to node 3 used with `detourGraph`. -/
def detourDist (i : Nat) : Nat := [10, 5, 2, 0].getD i 0

/-- The table `CalcDijkstraToMany` computes on `detourGraph` from node 0. -/
def detourTable : List Edge :=
  [⟨-1, 0, 0, 0⟩, ⟨0, 0, 1, 3⟩, ⟨1, 0, 2, 1⟩, ⟨2, 1, 3, 7⟩]

/-- Three nodes and the single edge 1 → 2 of cost 2. -/
def pairGraph : GraphProd := ⟨[⟨0⟩, ⟨1⟩, ⟨2⟩], [⟨0, 1, 2, 2⟩], [0, 0, 1, 1]⟩

/-- The table `CalcDijkstraToMany` computes on `pairGraph` from node 1: node 0 is
unreachable, node 1 costs 0, node 2 costs 2. -/
def pairTable : List Edge := [⟨-1, 1, 1, MaxInt64⟩, ⟨-1, 1, 1, 0⟩, ⟨0, 1, 2, 2⟩]

/-- Straight-line distances to the target used with `pairTable`. -/
def pairDist (i : Nat) : Nat := [1, 5, 3].getD i 0

/-- A road 0 → 1 → 2 whose two edges cost 2^62 each. -/
def overflowGraph : GraphProd :=
  ⟨[⟨0⟩, ⟨1⟩, ⟨2⟩],
   [⟨0, 0, 1, 4611686018427387904⟩, ⟨1, 1, 2, 4611686018427387904⟩],
   [0, 1, 2, 2]⟩

/-- The edge 0 → 1 of cost 5 beside the road 0 → 2 → 3 → 1 with costs 2^62, 2^62
and 0. -/
def wrapGraph : GraphProd :=
  ⟨[⟨0⟩, ⟨1⟩, ⟨2⟩, ⟨3⟩],
   [⟨0, 0, 1, 5⟩, ⟨1, 0, 2, 4611686018427387904⟩, ⟨2, 2, 3, 4611686018427387904⟩, ⟨3, 3, 1, 0⟩],
   [0, 2, 2, 3, 4]⟩

/-- Start 0, stations 1 and 2 (0 → 1 costs 3, 0 → 2 costs 4), target 3; the target
is 10 away from station 1 and 4 away from station 2. -/
def backtrackGraph : GraphProd :=
  ⟨[⟨0⟩, ⟨1⟩, ⟨2⟩, ⟨3⟩],
   [⟨0, 0, 1, 3⟩, ⟨1, 0, 2, 4⟩, ⟨2, 1, 3, 10⟩, ⟨3, 2, 3, 4⟩],
   [0, 2, 3, 4, 4]⟩

/-- Straight-line distances to node 3 that put node 2 before node 1. -/
def backtrackDist (i : Nat) : Nat := [9, 2, 1, 0].getD i 0

/-! ## The router on Go's representation of slices

`route.Route` and `stations` are Go slices: a header (backing array, length,
capacity) that `append` extends in place while the capacity allows. A snapshot
(stationDijkstra.go line 192) copies the headers, not the arrays, so a snapshot and
the live route may share a backing array. The definitions below repeat the router
with the slices made explicit. -/

/-- A Go slice header: the address of the backing array (its index in the heap),
the length and the capacity. -/
structure Slice where
  arr : Nat
  len : Nat
  cap : Nat
deriving DecidableEq, Repr

/-- The backing arrays allocated so far, by address; a cell holds a node id. -/
abbrev Heap := List (List Nat)

/-- The elements of a slice: the first `len` cells of its backing array. -/
def readSlice (heap : Heap) (s : Slice) : List Nat := (heap.getD s.arr []).take s.len

/-- The slice `make([]T, 0)`: length 0, capacity 0. -/
def makeSlice : Slice := ⟨0, 0, 0⟩

/-- Go's `append(s, x)`. If the length is below the capacity, `x` is written into
the backing array of `s` right after its last element and the array stays shared
with every other header pointing to it. Otherwise a new array is allocated, of a
capacity the run time chooses (`grow`, at least the new length), and the elements
are copied. -/
def goAppend (grow : Nat → Nat) (heap : Heap) (s : Slice) (x : Nat) : Heap × Slice :=
  if s.len < s.cap then
    (heap.set s.arr ((heap.getD s.arr []).set s.len x), ⟨s.arr, s.len + 1, s.cap⟩)
  else
    (heap ++ [readSlice heap s ++ x :: List.replicate (max (grow s.cap) (s.len + 1) - (s.len + 1)) 0],
      ⟨heap.length, s.len + 1, max (grow s.cap) (s.len + 1)⟩)

/-- The loops `for i := ... { route.Route = append(route.Route, partialRoute.Route[i]) }`,
stationDijkstra.go lines 148-151 and 185-187, given the elements in the order in
which they are appended. -/
def appendAll (grow : Nat → Nat) : Heap → Slice → List Nat → Heap × Slice
  | heap, s, [] => (heap, s)
  | heap, s, x :: xs => appendAll grow (goAppend grow heap s x).1 (goAppend grow heap s x).2 xs

/-- A `data.NodeRoute` as stored: the header of `Route`, and `TotalCost`. -/
structure NodeRouteM where
  Route : Slice
  TotalCost : Int
deriving DecidableEq, Repr

/-- A `data.Snapshot` as stored: the position, a copy of the `NodeRoute` struct and
the header of `Stations`. -/
structure SnapshotM where
  PartialStart : Nat
  PartialRoute : NodeRouteM
  Stations : Slice
deriving DecidableEq, Repr

/-- What a stored snapshot holds, read through the heaps as they stand. -/
def readSnapshot (routeHeap stationHeap : Heap) (m : SnapshotM) : Snapshot :=
  ⟨m.PartialStart, ⟨readSlice routeHeap m.PartialRoute.Route, m.PartialRoute.TotalCost⟩,
    readSlice stationHeap m.Stations⟩

/-- An entry of the snapshot stack: the snapshot as stored, and beside it a record
of what the snapshot held at the moment it was pushed. The record is kept for the
statements about the stack; the router never reads it. -/
structure Pushed where
  snap : SnapshotM
  seen : Snapshot
deriving DecidableEq, Repr

/-- The variables of `CalcStationDijkstraSnapshots` between two passes of its main
loop, with the backing arrays of the route slices and of the station slices. The two
kinds of array are kept in separate heaps: a `[]*data.Node` and a `[]data.Node` never
share a backing array. The variable `route` points to a `data.NodeRoute` that nothing
else refers to (the one made at line 118, or the field of a snapshot taken off the
stack), so the struct itself is held as a value. -/
structure RouterM where
  routeHeap : Heap
  stationHeap : Heap
  partialStart : Nat
  route : NodeRouteM
  stations : Slice
  stack : List Pushed
  counter : Int
deriving DecidableEq, Repr

/-- The live route of a state, read through the heap. -/
def RouterM.readRoute (st : RouterM) : NodeRoute :=
  ⟨readSlice st.routeHeap st.route.Route, st.route.TotalCost⟩

/-- The live station list of a state, read through the heap. -/
def RouterM.readStations (st : RouterM) : List Nat := readSlice st.stationHeap st.stations

/-- The state at the entry of the main loop, stationDijkstra.go lines 114-126. -/
def initM (startID : Nat) : RouterM := ⟨[], [], startID, ⟨makeSlice, 0⟩, makeSlice, [], 0⟩

/-- The loop over the selected candidates, stationDijkstra.go lines 179-196, on
slices. -/
def visitBatchM (grow : Nat → Nat) (findWay : FindWay) (g : GraphProd)
    (wayCostEdges : List Edge) : List Nat → RouterM → Run RouterM
  | [], st => Run.ok st
  | node :: rest, st =>
    if node < g.Nodes.length then
      let partialRoute := (findWay st.partialStart node g wayCostEdges).1
      let r := appendAll grow st.routeHeap st.route.Route (partialRoute.Route.drop 1).reverse
      let route1 : NodeRouteM := ⟨r.2, wrap64 (st.route.TotalCost + partialRoute.TotalCost)⟩
      let s := goAppend grow st.stationHeap st.stations node
      let snapshot : SnapshotM := ⟨node, route1, s.2⟩
      visitBatchM grow findWay g wayCostEdges rest
        ⟨r.1, s.1, node, route1, s.2, ⟨snapshot, readSnapshot r.1 s.1 snapshot⟩ :: st.stack,
          st.counter⟩
    else Run.indexOutOfRange

/-- One pass through the body of the main loop, stationDijkstra.go lines 130-196, on
slices: either the state for the next pass or the values returned. -/
def roundM {D : Type} [LinearOrder D] (grow : Nat → Nat) (pop : Pop) (sort : SortFn D)
    (findWay : FindWay) (fuel : Nat) (g : GraphProd) (dist : Nat → D) (gasStations : List Nat)
    (targetID : Nat) (rangeCm : Int) (config : Config) (st : RouterM) :
    Run (RouterM ⊕ StationResult) :=
  match CalcDijkstraToMany pop fuel g st.partialStart with
  | Run.indexOutOfRange => Run.indexOutOfRange
  | Run.outOfFuel => Run.outOfFuel
  | Run.ok wayCostEdges =>
    match wayCostEdges[targetID]? with
    | none => Run.indexOutOfRange
    | some te =>
      if te.Cost = MaxInt64 then Run.ok (Sum.inr ⟨none, none, some Err.noWayFound⟩)
      else if goalReachable targetID wayCostEdges rangeCm = Run.ok true then
        let partialRoute := (findWay st.partialStart targetID g wayCostEdges).1
        let r := appendAll grow st.routeHeap st.route.Route partialRoute.Route.reverse
        Run.ok (Sum.inr ⟨some ⟨readSlice r.1 r.2,
          wrap64 (st.route.TotalCost + partialRoute.TotalCost)⟩,
          some (readSlice st.stationHeap st.stations), none⟩)
      else if st.counter + 1 > config.DijkstraMaxStations then
        Run.ok (Sum.inr ⟨none, some (readSlice st.stationHeap st.stations), some Err.noWayFound⟩)
      else
        match getMinDistanceStations sort g.Nodes dist wayCostEdges gasStations rangeCm
            config.DijkstraMaxstationsPerStep with
        | Run.indexOutOfRange => Run.indexOutOfRange
        | Run.outOfFuel => Run.outOfFuel
        | Run.ok (minStations, _) =>
          if minStations.length ≤ 0 then
            match st.stack with
            | [] => Run.ok (Sum.inr ⟨none, none, some Err.emptyStack⟩)
            | top :: stack1 =>
              Run.ok (Sum.inl ⟨st.routeHeap, st.stationHeap, top.snap.PartialStart,
                top.snap.PartialRoute, top.snap.Stations, stack1, st.counter + 1⟩)
          else
            match visitBatchM grow findWay g wayCostEdges minStations
                ⟨st.routeHeap, st.stationHeap, st.partialStart, st.route, st.stations, st.stack,
                  st.counter + 1⟩ with
            | Run.ok st1 => Run.ok (Sum.inl st1)
            | Run.indexOutOfRange => Run.indexOutOfRange
            | Run.outOfFuel => Run.outOfFuel

/-- The main loop of `CalcStationDijkstraSnapshots` on slices; `rounds` bounds the
number of passes. -/
def stationLoopM {D : Type} [LinearOrder D] (grow : Nat → Nat) (pop : Pop) (sort : SortFn D)
    (findWay : FindWay) (fuel : Nat) (g : GraphProd) (dist : Nat → D) (gasStations : List Nat)
    (targetID : Nat) (rangeCm : Int) (config : Config) : Nat → RouterM → Run StationResult
  | 0, _ => Run.outOfFuel
  | rounds + 1, st =>
    match roundM grow pop sort findWay fuel g dist gasStations targetID rangeCm config st with
    | Run.ok (Sum.inl st1) =>
      stationLoopM grow pop sort findWay fuel g dist gasStations targetID rangeCm config rounds
        st1
    | Run.ok (Sum.inr res) => Run.ok res
    | Run.indexOutOfRange => Run.indexOutOfRange
    | Run.outOfFuel => Run.outOfFuel

/-- The function `CalcStationDijkstraSnapshots` on slices. -/
def CalcStationDijkstraSnapshotsM {D : Type} [LinearOrder D] (grow : Nat → Nat) (pop : Pop)
    (sort : SortFn D) (findWay : FindWay) (fuel rounds : Nat) (g : GraphProd) (dist : Nat → D)
    (gasStations : List Nat) (startID targetID : Nat) (rangeCm : Int) (config : Config) :
    Run StationResult :=
  stationLoopM grow pop sort findWay fuel g dist gasStations targetID rangeCm config rounds
    (initM startID)

/-- The states the main loop passes through, from the entry state on. -/
inductive Reach {D : Type} [LinearOrder D] (grow : Nat → Nat) (pop : Pop) (sort : SortFn D)
    (findWay : FindWay) (fuel : Nat) (g : GraphProd) (dist : Nat → D) (gasStations : List Nat)
    (startID targetID : Nat) (rangeCm : Int) (config : Config) : RouterM → Prop where
  | entry : Reach grow pop sort findWay fuel g dist gasStations startID targetID rangeCm config
      (initM startID)
  | pass {st st1 : RouterM} :
      Reach grow pop sort findWay fuel g dist gasStations startID targetID rangeCm config st →
      roundM grow pop sort findWay fuel g dist gasStations targetID rangeCm config st =
        Run.ok (Sum.inl st1) →
      Reach grow pop sort findWay fuel g dist gasStations startID targetID rangeCm config st1

/-- A slice header fits the heap: the length is within the capacity, and a slice of
positive capacity points to an allocated array of exactly that capacity. -/
def SliceOK (heap : Heap) (s : Slice) : Prop :=
  s.len ≤ s.cap ∧ (0 < s.cap → s.arr < heap.length ∧ (heap.getD s.arr []).length = s.cap)

/-- Slice `t` does not reach beyond slice `s` where they share a backing array. -/
def Below (t s : Slice) : Prop := t.arr = s.arr → t.len ≤ s.len

/-- The invariant of the snapshot stack: every header fits its heap, every entry
reads as recorded when it was pushed, and along the list that starts with the live
state and goes down the stack no slice reaches beyond one that comes before it. -/
structure StackInv (st : RouterM) : Prop where
  route : SliceOK st.routeHeap st.route.Route
  stations : SliceOK st.stationHeap st.stations
  entry : ∀ e ∈ st.stack, SliceOK st.routeHeap e.snap.PartialRoute.Route ∧
    SliceOK st.stationHeap e.snap.Stations ∧
    readSnapshot st.routeHeap st.stationHeap e.snap = e.seen
  chain : List.Pairwise
    (fun a b : SnapshotM => Below b.PartialRoute.Route a.PartialRoute.Route ∧
      Below b.Stations a.Stations)
    (⟨st.partialStart, st.route, st.stations⟩ :: st.stack.map Pushed.snap)

/-- A road 0 → 1 → 2 → 3 → 4 → 5 with costs 1, 1, 1, 1 and 10: from node 4 the last
node is 10 away. -/
def deadEndGraph : GraphProd :=
  ⟨[⟨0⟩, ⟨1⟩, ⟨2⟩, ⟨3⟩, ⟨4⟩, ⟨5⟩],
   [⟨0, 0, 1, 1⟩, ⟨1, 1, 2, 1⟩, ⟨2, 2, 3, 1⟩, ⟨3, 3, 4, 1⟩, ⟨4, 4, 5, 10⟩],
   [0, 1, 2, 3, 4, 5, 5]⟩

/-- Straight-line distances to node 5 used with `deadEndGraph`: node 3 is nearest,
then node 4. -/
def deadEndDist (i : Nat) : Nat := [5, 4, 3, 1, 2, 0].getD i 0

/-- The state of the router on `deadEndGraph` (start 0, target 5, range 5, two
candidates per step, growth by doubling) after its first pass, which visits the
nodes 3 and 4: the live route and both snapshots on the stack share the backing
array at address 2. -/
def deadEndState1 : RouterM :=
  ⟨[[0], [0, 1], [0, 1, 2, 3]], [[3], [3, 4]], 4, ⟨⟨2, 4, 4⟩, 7⟩, ⟨1, 2, 2⟩,
    [⟨⟨4, ⟨⟨2, 4, 4⟩, 7⟩, ⟨1, 2, 2⟩⟩, ⟨4, ⟨[0, 1, 2, 3], 7⟩, [3, 4]⟩⟩,
     ⟨⟨3, ⟨⟨2, 3, 4⟩, 3⟩, ⟨0, 1, 1⟩⟩, ⟨3, ⟨[0, 1, 2], 3⟩, [3]⟩⟩], 1⟩

/-- The state of the same run after its second pass, which finds no candidate at
node 4 and takes the snapshot of node 4 off the stack. -/
def deadEndState2 : RouterM :=
  ⟨[[0], [0, 1], [0, 1, 2, 3]], [[3], [3, 4]], 4, ⟨⟨2, 4, 4⟩, 7⟩, ⟨1, 2, 2⟩,
    [⟨⟨3, ⟨⟨2, 3, 4⟩, 3⟩, ⟨0, 1, 1⟩⟩, ⟨3, ⟨[0, 1, 2], 3⟩, [3]⟩⟩], 2⟩

/-- The state after the third pass, which takes the snapshot of node 3 off the
stack: the live route is the first three cells of the array at address 2. -/
def deadEndState3 : RouterM :=
  ⟨[[0], [0, 1], [0, 1, 2, 3]], [[3], [3, 4]], 3, ⟨⟨2, 3, 4⟩, 3⟩, ⟨0, 1, 1⟩, [], 3⟩

/-- The state after the fourth pass, which visits the nodes 3 and 4 from node 3:
the leg to node 4 is written into the fourth cell of the array at address 2. -/
def deadEndState4 : RouterM :=
  ⟨[[0], [0, 1], [0, 1, 2, 3]], [[3], [3, 4], [3, 3], [3, 3, 4, 0]], 4, ⟨⟨2, 4, 4⟩, 4⟩,
    ⟨3, 3, 4⟩,
    [⟨⟨4, ⟨⟨2, 4, 4⟩, 4⟩, ⟨3, 3, 4⟩⟩, ⟨4, ⟨[0, 1, 2, 3], 4⟩, [3, 3, 4]⟩⟩,
     ⟨⟨3, ⟨⟨2, 3, 4⟩, 3⟩, ⟨2, 2, 2⟩⟩, ⟨3, ⟨[0, 1, 2], 3⟩, [3, 3]⟩⟩], 4⟩

/-- The state after the fifth pass, which again takes the snapshot of node 4 off
the stack. -/
def deadEndState5 : RouterM :=
  ⟨[[0], [0, 1], [0, 1, 2, 3]], [[3], [3, 4], [3, 3], [3, 3, 4, 0]], 4, ⟨⟨2, 4, 4⟩, 4⟩,
    ⟨3, 3, 4⟩,
    [⟨⟨3, ⟨⟨2, 3, 4⟩, 3⟩, ⟨2, 2, 2⟩⟩, ⟨3, ⟨[0, 1, 2], 3⟩, [3, 3]⟩⟩], 5⟩

/-! ## The frontier loop with a log of what it did -/

/-- A log of the frontier loop: the table entries written (node id and cost), in
the order of writing, and the number of entries pushed onto the frontier. The log is
kept for the statements about the loop; the code keeps none. -/
structure LoopLog where
  commits : List (Nat × Int)
  pushes : Nat
deriving DecidableEq, Repr

/-- The frontier loop, dijkstra.go lines 33-58, keeping the log: a pass that writes
`prevs[currentEdge.End]` (line 43) adds the node and its cost to `commits`, and the
entries the relaxation loop has pushed (line 55), by which the frontier has grown,
are added to `pushes`. -/
def dijkstraLoopLog (pop : Pop) (g : GraphProd) :
    Nat → List Item → List Edge → LoopLog → Run (List Edge × LoopLog)
  | 0, _, _, _ => Run.outOfFuel
  | fuel + 1, pq, prevs, log =>
    match pop pq with
    | none => Run.ok (prevs, log)
    | some (item, rest) =>
      let currentEdge := item.Value
      match prevs[currentEdge.End]? with
      | none => Run.indexOutOfRange
      | some pe =>
        if item.Priority ≥ pe.Cost then dijkstraLoopLog pop g fuel rest prevs log
        else
          let prevs1 := prevs.set currentEdge.End
            ⟨currentEdge.ID, currentEdge.Start, currentEdge.End, item.Priority⟩
          match g.Offset[currentEdge.End]?, g.Offset[currentEdge.End + 1]? with
          | some edgeBegin, some edgeEnd =>
            match relax g prevs1 item.Priority edgeBegin (edgeEnd - edgeBegin) rest with
            | Run.ok pq1 =>
              dijkstraLoopLog pop g fuel pq1 prevs1
                ⟨log.commits ++ [(currentEdge.End, item.Priority)],
                  log.pushes + (pq1.length - rest.length)⟩
            | Run.indexOutOfRange => Run.indexOutOfRange
            | Run.outOfFuel => Run.outOfFuel
          | _, _ => Run.indexOutOfRange

/-- The single-source part of `CalcDijkstra` (dijkstra.go lines 16-58) keeping the
log; the push of the start edge (line 31) is the first push. -/
def CalcDijkstraToManyLog (pop : Pop) (fuel : Nat) (g : GraphProd) (startID : Nat) :
    Run (List Edge × LoopLog) :=
  dijkstraLoopLog pop g fuel (push [] ⟨startEdge startID, 0⟩)
    (List.replicate g.Nodes.length (initEdge startID)) ⟨[], 1⟩

/-- The invariant of the log: no node was written twice, every node written holds
in the table the cost that was written, and the pushes made so far together with the
pushes still possible do not exceed 1 + edge count. -/
structure LogInv (g : GraphProd) (s : Nat) (prevs : List Edge) (log : LoopLog) : Prop where
  nodup : (log.commits.map Prod.fst).Nodup
  held : ∀ vc ∈ log.commits, ∃ e, prevs[vc.1]? = some e ∧ e ≠ initEdge s ∧ e.Cost = vc.2
  bound : log.pushes + pending g s prevs ≤ 1 + g.Edges.length

/-- Two nodes on a cycle 0 → 1 → 0 whose two edges cost 2^62 each. -/
def cycleGraph : GraphProd :=
  ⟨[⟨0⟩, ⟨1⟩],
   [⟨0, 0, 1, 4611686018427387904⟩, ⟨1, 1, 0, 4611686018427387904⟩],
   [0, 1, 2]⟩

/-- Node 0 with a self-loop of cost 0, on the cycle 0 → 1 → 0 with costs 2 and 3. -/
def loopGraph : GraphProd :=
  ⟨[⟨0⟩, ⟨1⟩], [⟨0, 0, 0, 0⟩, ⟨1, 0, 1, 2⟩, ⟨2, 1, 0, 3⟩], [0, 2, 3]⟩

/-! ## `getMinDistanceStation` (stationDijkstra.go) -/

/-- The loop of `getMinDistanceStation`, stationDijkstra.go lines 254-264, over the
keys of `stations.Stations` in the order in which `range` yields them; the state is
`minStation` and `minDistance`. -/
def minStationLoop {D : Type} [LinearOrder D] (nodes : List Node) (dist : Nat → D)
    (wayCostEdges : List Edge) (rangeCm : Int) : List Nat → Int → D → Run (Int × D)
  | [], minStation, minDistance => Run.ok (minStation, minDistance)
  | stationID :: rest, minStation, minDistance =>
    if stationID < nodes.length then
      match wayCostEdges[stationID]? with
      | none => Run.indexOutOfRange
      | some e =>
        if e.Cost < rangeCm ∧ dist stationID < minDistance then
          minStationLoop nodes dist wayCostEdges rangeCm rest stationID (dist stationID)
        else minStationLoop nodes dist wayCostEdges rangeCm rest minStation minDistance
    else Run.indexOutOfRange

/-- The function `getMinDistanceStation`, stationDijkstra.go lines 247-271.
`stations.Stations` is a map keyed by node id (its keys are assigned to the `int64`
variable `minStation`); `stations` lists its keys in the order of one iteration,
which Go leaves unspecified. `dist i` stands for the straight-line distance of node
`i` to the target and `maxFloat` for `math.MaxFloat64`. -/
def getMinDistanceStation {D : Type} [LinearOrder D] (nodes : List Node) (dist : Nat → D)
    (maxFloat : D) (wayCostEdges : List Edge) (stations : List Nat) (rangeCm : Int) :
    Run (Int × Option Err) :=
  match minStationLoop nodes dist wayCostEdges rangeCm stations (-1) maxFloat with
  | Run.ok (minStation, _) =>
    if minStation = -1 then Run.ok (-1, some Err.noGoodStationFound)
    else Run.ok (minStation, none)
  | Run.indexOutOfRange => Run.indexOutOfRange
  | Run.outOfFuel => Run.outOfFuel

/-! ## In-bounds indexing -/

/-- The invariants of the offset table alone: it has node count + 1 entries, starts
at 0, ends at the edge count and is non-decreasing. -/
def CSR (g : GraphProd) : Prop :=
  g.Offset.length = g.Nodes.length + 1 ∧
  offAt g 0 = 0 ∧
  offAt g g.Nodes.length = g.Edges.length ∧
  (∀ u ∈ List.range g.Nodes.length, offAt g u ≤ offAt g (u + 1))

instance (g : GraphProd) : Decidable (CSR g) := by
  unfold CSR; infer_instance

/-- Every edge ends at a node of the graph. -/
def EndsValid (g : GraphProd) : Prop := ∀ e ∈ g.Edges, e.End < g.Nodes.length

instance (g : GraphProd) : Decidable (EndsValid g) := by
  unfold EndsValid; infer_instance

/-- Every edge starts at a node of the graph. -/
def StartsValid (g : GraphProd) : Prop := ∀ e ∈ g.Edges, e.Start < g.Nodes.length

instance (g : GraphProd) : Decidable (StartsValid g) := by
  unfold StartsValid; infer_instance

/-- The start and end node of every table entry and of every frontier entry is a
node of the graph, and the table has one entry per node. -/
structure Safe (g : GraphProd) (pq : List Item) (prevs : List Edge) : Prop where
  len : prevs.length = g.Nodes.length
  tab : ∀ e ∈ prevs, e.Start < g.Nodes.length ∧ e.End < g.Nodes.length
  itm : ∀ it ∈ pq, it.Value.Start < g.Nodes.length ∧ it.Value.End < g.Nodes.length

/-- The distance of the costs of a table from the least `int64`, summed over the
table: every write of the frontier loop (dijkstra.go line 43) lowers a cost, so it
lowers this sum. -/
def costPotential (prevs : List Edge) : Nat :=
  (prevs.map (fun e => (e.Cost + 9223372036854775808).toNat)).sum

/-- A number of passes that the frontier loop of `CalcDijkstra` never exceeds on the
graph `g`, whatever the edge costs are: the table can be written at most
`node count * (2^64 - 1)` times, and each write pushes at most `edge count` entries. -/
def ssspFuel (g : GraphProd) : Nat :=
  (g.Edges.length + 1) * (g.Nodes.length * 18446744073709551615) + 2

/-! ## The frontier -/

theorem popMin_eq_none {pq : List Item} : popMin pq = none ↔ pq = [] := by
  cases pq with
  | nil => simp [popMin]
  | cons x xs =>
    simp only [popMin]
    cases popMin xs with
    | none => simp
    | some p => obtain ⟨m, rest⟩ := p; by_cases h : x.Priority ≤ m.Priority <;> simp [h]

theorem popMin_perm : ∀ {pq : List Item} {it : Item} {rest : List Item},
    popMin pq = some (it, rest) → pq.Perm (it :: rest)
  | [], _, _, h => by simp [popMin] at h
  | x :: xs, it, rest, h => by
    simp only [popMin] at h
    cases hp : popMin xs with
    | none =>
      rw [hp] at h
      have hx : xs = [] := popMin_eq_none.mp hp
      simp at h
      obtain ⟨h1, h2⟩ := h
      subst h1; subst h2; subst hx
      exact List.Perm.refl _
    | some p =>
      obtain ⟨m, r⟩ := p
      rw [hp] at h
      by_cases hle : x.Priority ≤ m.Priority
      · simp [hle] at h
        obtain ⟨h1, h2⟩ := h
        subst h1; subst h2
        exact List.Perm.refl _
      · simp [hle] at h
        obtain ⟨h1, h2⟩ := h
        subst h1; subst h2
        have ih := popMin_perm hp
        exact (List.Perm.cons x ih).trans (List.Perm.swap _ _ _)

theorem popMin_min : ∀ {pq : List Item} {it : Item} {rest : List Item},
    popMin pq = some (it, rest) → ∀ x ∈ pq, it.Priority ≤ x.Priority
  | [], _, _, h => by simp [popMin] at h
  | x :: xs, it, rest, h => by
    simp only [popMin] at h
    cases hp : popMin xs with
    | none =>
      rw [hp] at h
      have hx : xs = [] := popMin_eq_none.mp hp
      simp at h
      obtain ⟨h1, _⟩ := h
      subst h1; subst hx
      intro y hy
      simp at hy
      subst hy
      exact le_refl _
    | some p =>
      obtain ⟨m, r⟩ := p
      rw [hp] at h
      have ih := popMin_min hp
      by_cases hle : x.Priority ≤ m.Priority
      · simp [hle] at h
        obtain ⟨h1, _⟩ := h
        subst h1
        intro y hy
        rcases List.mem_cons.mp hy with rfl | hy
        · exact le_refl _
        · exact le_trans hle (ih y hy)
      · simp [hle] at h
        obtain ⟨h1, _⟩ := h
        subst h1
        intro y hy
        rcases List.mem_cons.mp hy with rfl | hy
        · exact le_of_lt (not_le.mp hle)
        · exact ih y hy

theorem popMin_spec : PopSpec popMin :=
  ⟨fun _ => popMin_eq_none, fun _ _ _ h => popMin_perm h, fun _ _ _ h => popMin_min h⟩

theorem PopSpec.single {pop : Pop} (hps : PopSpec pop) (x : Item) : pop [x] = some (x, []) := by
  cases h : pop [x] with
  | none =>
    have := (hps.none_iff [x]).mp h
    simp at this
  | some p =>
    obtain ⟨it, rest⟩ := p
    have hperm := hps.perm _ _ _ h
    have hlen := hperm.length_eq
    simp only [List.length_cons, List.length_nil] at hlen
    have hrest : rest = [] := List.eq_nil_of_length_eq_zero (by omega)
    subst hrest
    have : x ∈ [it] := hperm.subset (List.mem_singleton_self x)
    rw [List.mem_singleton] at this
    rw [this]

theorem wrap64_eq {x : Int} (h1 : -9223372036854775808 ≤ x) (h2 : x ≤ 9223372036854775807) :
    wrap64 x = x := by
  unfold wrap64; omega

theorem wrap64_range (x : Int) : -9223372036854775808 ≤ wrap64 x ∧ wrap64 x ≤ MaxInt64 := by
  unfold wrap64 MaxInt64; omega

/-! ## Walks and the predecessor tree -/

theorem initEdge_ne_startEdge (s : Nat) : startEdge s ≠ initEdge s := by
  intro h
  have : (startEdge s).Cost = (initEdge s).Cost := by rw [h]
  simp [startEdge, initEdge, MaxInt64] at this

theorem walkCost_append (es fs : List Edge) : walkCost (es ++ fs) = walkCost es + walkCost fs := by
  simp [walkCost]

theorem walkCost_single (e : Edge) : walkCost [e] = e.Cost := by
  simp [walkCost]

theorem IsWalk.snoc {g : GraphProd} : ∀ {a : Nat} {es : List Edge} {b : Nat} {e : Edge},
    IsWalk g a es b → e ∈ g.Edges → e.Start = b → IsWalk g a (es ++ [e]) e.End
  | a, [], b, e, h, he, hs => by
    simp only [IsWalk] at h
    subst h
    exact ⟨he, hs, rfl⟩
  | a, f :: fs, b, e, h, he, hs => by
    obtain ⟨h1, h2, h3⟩ := h
    exact ⟨h1, h2, IsWalk.snoc h3 he hs⟩

theorem IsWalk.mem {g : GraphProd} : ∀ {a : Nat} {es : List Edge} {b : Nat},
    IsWalk g a es b → ∀ e ∈ es, e ∈ g.Edges
  | _, [], _, _, e, he => by simp at he
  | _, f :: fs, _, h, e, he => by
    obtain ⟨h1, _, h3⟩ := h
    rcases List.mem_cons.mp he with rfl | he
    · exact h1
    · exact IsWalk.mem h3 e he

theorem walkCost_nonneg {g : GraphProd} (hn : NonNeg g) : ∀ {es : List Edge},
    (∀ e ∈ es, e ∈ g.Edges) → 0 ≤ walkCost es
  | [], _ => by simp [walkCost]
  | f :: fs, h => by
    have h1 : 0 ≤ f.Cost := hn f (h f (List.mem_cons_self _ _))
    have h2 : 0 ≤ walkCost fs := walkCost_nonneg hn (fun e he => h e (List.mem_cons_of_mem _ he))
    simp only [walkCost, List.map_cons, List.sum_cons] at h2 ⊢
    omega

theorem Tree.entry {g : GraphProd} {s : Nat} {prevs : List Edge} {v : Nat} {es : List Edge}
    (h : Tree g s prevs v es) :
    ∃ pe, prevs[v]? = some pe ∧ pe ≠ initEdge s ∧ pe.End = v ∧ pe.Cost = walkCost es := by
  cases h with
  | root h0 => exact ⟨startEdge s, h0, initEdge_ne_startEdge s, rfl, by simp [startEdge, walkCost]⟩
  | step e ht he hs hne hp =>
    refine ⟨_, hp, ?_, rfl, ?_⟩
    · intro hc
      have : e.End = s := by
        have := congrArg Edge.End hc
        simpa [initEdge] using this
      exact hne this
    · simp [walkCost_append, walkCost_single]

theorem Tree.walk {g : GraphProd} {s : Nat} {prevs : List Edge} {v : Nat} {es : List Edge}
    (h : Tree g s prevs v es) : IsWalk g s es v := by
  induction h with
  | root _ => simp [IsWalk]
  | step e _ he hs _ _ ih => exact IsWalk.snoc ih he hs

theorem Tree.set {g : GraphProd} {s : Nat} {prevs : List Edge} {v : Nat} {es : List Edge}
    (h : Tree g s prevs v es) {w : Nat} (x : Edge) (hw : prevs[w]? = some (initEdge s)) :
    Tree g s (prevs.set w x) v es := by
  induction h with
  | root h0 =>
    refine Tree.root ?_
    have hne : w ≠ s := by
      intro hc; subst hc
      rw [h0] at hw
      exact initEdge_ne_startEdge _ (Option.some.inj hw)
    rw [List.getElem?_set_ne hne]; exact h0
  | step e ht he hs hne hp ih =>
    refine Tree.step e ih he hs hne ?_
    have hne2 : w ≠ e.End := by
      intro hc; subst hc
      rw [hp] at hw
      have := congrArg Edge.End (Option.some.inj hw)
      simp [initEdge] at this
      exact hne this
    rw [List.getElem?_set_ne hne2]; exact hp

/-! ## Counting the nodes not yet committed -/

theorem wsum_set {s n : Nat} (w : Nat → Nat) {prevs : List Edge} {v : Nat} {x : Edge}
    (hv : v < n) (hlen : prevs.length = n) (hinit : prevs[v]? = some (initEdge s))
    (hx : x ≠ initEdge s) :
    wsum s n w (prevs.set v x) + w v = wsum s n w prevs := by
  unfold wsum
  have hmem : v ∈ Finset.range n := Finset.mem_range.mpr hv
  rw [← Finset.add_sum_erase _ _ hmem, ← Finset.add_sum_erase (Finset.range n) _ hmem]
  have h1 : (prevs.set v x)[v]? = some x := by
    rw [List.getElem?_set_self (by omega)]
  have h2 : ∀ u ∈ (Finset.range n).erase v,
      (if (prevs.set v x)[u]? = some (initEdge s) then w u else 0) =
      (if prevs[u]? = some (initEdge s) then w u else 0) := by
    intro u hu
    have hne : v ≠ u := fun hc => (Finset.mem_erase.mp hu).1 hc.symm
    rw [List.getElem?_set_ne hne]
  rw [Finset.sum_congr rfl h2, h1, hinit]
  have : ¬ (some x = some (initEdge s)) := fun hc => hx (Option.some.inj hc)
  simp [this]
  omega

theorem wsum_replicate (s n : Nat) (w : Nat → Nat) :
    wsum s n w (List.replicate n (initEdge s)) = Finset.sum (Finset.range n) w := by
  unfold wsum
  apply Finset.sum_congr rfl
  intro u hu
  have : u < n := Finset.mem_range.mp hu
  simp [List.getElem?_replicate, this]

/-! ## Consequences of the CSR invariants -/

theorem WF.off_get {g : GraphProd} (h : WF g) {u : Nat} (hu : u ≤ g.Nodes.length) :
    g.Offset[u]? = some (offAt g u) := by
  have hl := h.1
  have hlt : u < g.Offset.length := by omega
  simp [offAt, List.getD, List.getElem?_eq_getElem hlt]

theorem WF.off_mono {g : GraphProd} (h : WF g) {u : Nat} (hu : u < g.Nodes.length) :
    offAt g u ≤ offAt g (u + 1) :=
  h.2.2.2.1 u (List.mem_range.mpr hu)

theorem WF.off_le_edges {g : GraphProd} (h : WF g) :
    ∀ (k u : Nat), u + k = g.Nodes.length → offAt g u ≤ g.Edges.length
  | 0, u, hk => by
    have : u = g.Nodes.length := by omega
    rw [this, h.2.2.1]
  | k + 1, u, hk => by
    have h1 := h.off_mono (u := u) (by omega)
    have h2 := WF.off_le_edges h k (u + 1) (by omega)
    omega

theorem WF.slice {g : GraphProd} (h : WF g) {u i : Nat} (hu : u < g.Nodes.length)
    (h1 : offAt g u ≤ i) (h2 : i < offAt g (u + 1)) :
    ∃ e, g.Edges[i]? = some e ∧ e.Start = u := by
  have hle := h.off_le_edges (g.Nodes.length - (u + 1)) (u + 1) (by omega)
  have hi : i < g.Edges.length := by omega
  have := h.2.2.2.2.1 u (List.mem_range.mpr hu) i (List.mem_range.mpr hi) h1 h2
  rw [List.getElem?_eq_getElem hi] at this ⊢
  simp only [Option.map_some', Option.some.injEq] at this
  exact ⟨_, rfl, this⟩

theorem WF.find_slice {g : GraphProd} (h : WF g) {i : Nat} :
    ∀ k, k ≤ g.Nodes.length → i < offAt g k →
      ∃ u, u < k ∧ offAt g u ≤ i ∧ i < offAt g (u + 1)
  | 0, _, hi => by
    rw [h.2.1] at hi
    omega
  | k + 1, hk, hi => by
    by_cases hlt : i < offAt g k
    · obtain ⟨u, hu, h1, h2⟩ := WF.find_slice h k (by omega) hlt
      exact ⟨u, by omega, h1, h2⟩
    · exact ⟨k, by omega, by omega, hi⟩

/-- Every edge lies in the slice of its start node: the slices cover the edge
array, and the edges of a slice start at its node. -/
theorem WF.edge_pos {g : GraphProd} (h : WF g) {i : Nat} {e : Edge} (he : g.Edges[i]? = some e) :
    e.Start < g.Nodes.length ∧ offAt g e.Start ≤ i ∧ i < offAt g (e.Start + 1) := by
  have hi : i < g.Edges.length := by
    by_contra hc
    rw [List.getElem?_eq_none (by omega)] at he
    exact Option.noConfusion he
  obtain ⟨u, hu, h1, h2⟩ := h.find_slice g.Nodes.length (le_refl _) (by rw [h.2.2.1]; exact hi)
  obtain ⟨e1, he1, hs⟩ := h.slice hu h1 h2
  rw [he] at he1
  have : e = e1 := Option.some.inj he1
  subst this
  rw [hs]
  exact ⟨hu, h1, h2⟩

theorem WF.end_lt {g : GraphProd} (h : WF g) {e : Edge} (he : e ∈ g.Edges) :
    e.End < g.Nodes.length :=
  h.2.2.2.2.2 e he

theorem WF.degree_sum {g : GraphProd} (h : WF g) :
    ∀ m, m ≤ g.Nodes.length →
      Finset.sum (Finset.range m) (fun u => offAt g (u + 1) - offAt g u) = offAt g m
  | 0, _ => by simp [h.2.1]
  | m + 1, hm => by
    rw [Finset.sum_range_succ, WF.degree_sum h m (by omega)]
    have := h.off_mono (u := m) (by omega)
    omega

theorem mem_of_getElem? {α : Type} {l : List α} {i : Nat} {a : α} (h : l[i]? = some a) : a ∈ l := by
  rw [List.getElem?_eq_some] at h
  obtain ⟨hi, rfl⟩ := h
  exact List.getElem_mem _

theorem getElem?_of_lt {prevs : List Edge} {n v : Nat} (hlen : prevs.length = n) (hv : v < n) :
    ∃ e, prevs[v]? = some e :=
  ⟨prevs[v], List.getElem?_eq_getElem (by omega)⟩

/-! ## The relaxation loop keeps the invariant -/

theorem Base.push {g : GraphProd} {s : Nat} {pq : List Item} {prevs : List Edge}
    (hb : Base g s pq prevs) {it : Item} (h1 : it.Value ∈ g.Edges)
    (h2 : ∃ pu, prevs[it.Value.Start]? = some pu ∧ pu ≠ initEdge s ∧
      it.Priority = pu.Cost + it.Value.Cost)
    (h3 : ∀ (v : Nat) (e : Edge), prevs[v]? = some e → e ≠ initEdge s → e.Cost ≤ it.Priority) :
    Base g s (push pq it) prevs where
  len := hb.len
  start := hb.start
  tree := hb.tree
  item := by
    intro x hx
    rcases List.mem_cons.mp hx with rfl | hx
    · exact ⟨h1, h2⟩
    · exact hb.item x hx
  mono := by
    intro x hx
    rcases List.mem_cons.mp hx with rfl | hx
    · exact h3
    · exact hb.mono x hx

theorem Closed.weaken {g : GraphProd} {s : Nat} {pq pq1 : List Item} {prevs : List Edge}
    {v k : Nat} (hc : Closed g s pq prevs v k) (hsub : ∀ it ∈ pq, it ∈ pq1) :
    Closed g s pq1 prevs v k := by
  intro u pu hu hpu i e he hs hk
  obtain ⟨pv, hpv, h⟩ := hc u pu hu hpu i e he hs hk
  refine ⟨pv, hpv, ?_⟩
  rcases h with h | ⟨it, hit, h⟩
  · exact Or.inl h
  · exact Or.inr ⟨it, hsub it hit, h⟩

/-- The accumulated cost of a committed node plus the cost of an edge leaving it
is the cost of a walk of at most node count edges: it neither wraps nor is negative. -/
theorem Base.sum_bound {g : GraphProd} {s : Nat} {pq : List Item} {prevs : List Edge}
    (hn : NonNeg g) (hno : NoOverflow g s) (hb : Base g s pq prevs)
    {u : Nat} {pu e : Edge} (hu : prevs[u]? = some pu) (hpu : pu ≠ initEdge s)
    (he : e ∈ g.Edges) (hs : e.Start = u) :
    0 ≤ pu.Cost ∧ 0 ≤ pu.Cost + e.Cost ∧ pu.Cost + e.Cost < MaxInt64 := by
  obtain ⟨es, ht, hlen⟩ := hb.tree u pu hu hpu
  obtain ⟨pe, hpe, _, _, hcost⟩ := ht.entry
  rw [hu] at hpe
  have hpe2 : pu = pe := Option.some.inj hpe
  subst hpe2
  have hw : IsWalk g s (es ++ [e]) e.End := IsWalk.snoc ht.walk he hs
  have h1 : walkCost (es ++ [e]) < MaxInt64 := hno _ _ hw (by simp; omega)
  have h2 : 0 ≤ walkCost es := walkCost_nonneg hn ht.walk.mem
  have h3 : 0 ≤ e.Cost := hn e he
  rw [walkCost_append, walkCost_single] at h1
  rw [hcost]
  omega

theorem relax_inv {g : GraphProd} {s : Nat} (hwf : WF g) (hn : NonNeg g)
    (hno : NoOverflow g s) {prevs : List Edge} {v : Nat} {nv : Edge}
    (hv : v < g.Nodes.length) (hnv : prevs[v]? = some nv) (hne : nv ≠ initEdge s)
    (hmax : ∀ (w : Nat) (e : Edge), prevs[w]? = some e → e ≠ initEdge s → e.Cost ≤ nv.Cost) :
    ∀ (cnt i : Nat) (pq : List Item), i + cnt = offAt g (v + 1) → offAt g v ≤ i →
      Base g s pq prevs → Closed g s pq prevs v i →
      ∃ pq1, relax g prevs nv.Cost i cnt pq = Run.ok pq1 ∧ Base g s pq1 prevs ∧
        Closed g s pq1 prevs v (offAt g (v + 1)) ∧ pq1.length ≤ pq.length + cnt
  | 0, i, pq, hi, _, hb, hc => by
    have : i = offAt g (v + 1) := by omega
    subst this
    exact ⟨pq, rfl, hb, hc, by omega⟩
  | cnt + 1, i, pq, hi, hlo, hb, hc => by
    obtain ⟨e, he, hes⟩ := hwf.slice hv hlo (by omega)
    have hemem : e ∈ g.Edges := mem_of_getElem? he
    obtain ⟨pe, hpe⟩ := getElem?_of_lt hb.len (hwf.end_lt hemem)
    obtain ⟨h0, h1, h2⟩ := hb.sum_bound hn hno hnv hne hemem hes
    have hwrap : wrap64 (nv.Cost + e.Cost) = nv.Cost + e.Cost :=
      wrap64_eq (by omega) (by unfold MaxInt64 at h2; omega)
    simp only [relax, he, hpe, hwrap]
    by_cases hlt : nv.Cost + e.Cost < pe.Cost
    · simp only [hlt, if_true]
      have hb1 : Base g s (push pq ⟨e, nv.Cost + e.Cost⟩) prevs := by
        refine hb.push hemem ⟨nv, ?_, hne, rfl⟩ ?_
        · simp only [hes]; exact hnv
        · intro w x hw hx
          have := hmax w x hw hx
          have h3 : 0 ≤ e.Cost := hn e hemem
          simp only
          omega
      have hc1 : Closed g s (push pq ⟨e, nv.Cost + e.Cost⟩) prevs v (i + 1) := by
        intro u pu hu hpu j e1 he1 hs1 hk
        by_cases hcase : u = v ∧ j = i
        · obtain ⟨huv, hji⟩ := hcase
          subst huv; subst hji
          rw [he] at he1
          have : e = e1 := Option.some.inj he1
          subst this
          rw [hnv] at hu
          have : nv = pu := Option.some.inj hu
          subst this
          exact ⟨pe, hpe, Or.inr ⟨⟨e, nv.Cost + e.Cost⟩, List.mem_cons_self _ _, rfl, le_refl _⟩⟩
        · have hk1 : u = v → j < i := by
            intro huv
            have := hk huv
            have : j ≠ i := fun hji => hcase ⟨huv, hji⟩
            omega
          exact (hc.weaken (fun it hit => List.mem_cons_of_mem _ hit)) u pu hu hpu j e1 he1 hs1 hk1
      obtain ⟨pq1, hr, hb2, hc2, hl⟩ :=
        relax_inv hwf hn hno hv hnv hne hmax cnt (i + 1) _ (by omega) (by omega) hb1 hc1
      refine ⟨pq1, hr, hb2, hc2, ?_⟩
      simp only [push, List.length_cons] at hl
      omega
    · simp only [hlt, if_false]
      have hc1 : Closed g s pq prevs v (i + 1) := by
        intro u pu hu hpu j e1 he1 hs1 hk
        by_cases hcase : u = v ∧ j = i
        · obtain ⟨huv, hji⟩ := hcase
          subst huv; subst hji
          rw [he] at he1
          have : e = e1 := Option.some.inj he1
          subst this
          rw [hnv] at hu
          have : nv = pu := Option.some.inj hu
          subst this
          refine ⟨pe, hpe, Or.inl ⟨?_, by omega⟩⟩
          intro hinit
          rw [hinit] at hlt
          simp only [initEdge] at hlt
          omega
        · have hk1 : u = v → j < i := by
            intro huv
            have := hk huv
            have : j ≠ i := fun hji => hcase ⟨huv, hji⟩
            omega
          exact hc u pu hu hpu j e1 he1 hs1 hk1
      obtain ⟨pq1, hr, hb2, hc2, hl⟩ :=
        relax_inv hwf hn hno hv hnv hne hmax cnt (i + 1) pq (by omega) (by omega) hb hc1
      exact ⟨pq1, hr, hb2, hc2, by omega⟩

/-! ## One pass through the frontier loop -/

theorem Closed.full {g : GraphProd} {s : Nat} (hwf : WF g) {pq : List Item} {prevs : List Edge}
    {v : Nat} (hc : Closed g s pq prevs v (offAt g (v + 1))) (w : Nat) :
    Closed g s pq prevs w g.Edges.length := by
  intro u pu hu hpu i e he hs _
  refine hc u pu hu hpu i e he hs ?_
  intro huv
  have := (hwf.edge_pos he).2.2
  rw [hs, huv] at this
  exact this

theorem discard_inv {pop : Pop} (hps : PopSpec pop) {g : GraphProd} {s : Nat} {pq rest : List Item} {prevs : List Edge}
    {it : Item} {pe : Edge} (hb : Base g s pq prevs)
    (hc : Closed g s pq prevs 0 g.Edges.length) (hpop : pop pq = some (it, rest))
    (hpe : prevs[it.Value.End]? = some pe) (hne : pe ≠ initEdge s) :
    pe.Cost ≤ it.Priority ∧ Base g s rest prevs ∧ Closed g s rest prevs 0 g.Edges.length := by
  have hperm := hps.perm _ _ _ hpop
  have hsub : ∀ x ∈ rest, x ∈ pq := fun x hx => hperm.symm.subset (List.mem_cons_of_mem _ hx)
  have hit : it ∈ pq := hperm.symm.subset (List.mem_cons_self _ _)
  have hle : pe.Cost ≤ it.Priority := hb.mono it hit _ pe hpe hne
  refine ⟨hle, ⟨hb.len, hb.start, hb.tree, fun x hx => hb.item x (hsub x hx),
    fun x hx => hb.mono x (hsub x hx)⟩, ?_⟩
  intro u pu hu hpu i e he hs hk
  obtain ⟨pv, hpv, h⟩ := hc u pu hu hpu i e he hs hk
  refine ⟨pv, hpv, ?_⟩
  rcases h with h | ⟨x, hx, hxe, hxp⟩
  · exact Or.inl h
  · rcases List.mem_cons.mp (hperm.subset hx) with rfl | hx1
    · rw [hxe, hpv] at hpe
      have : pv = pe := Option.some.inj hpe
      subst this
      exact Or.inl ⟨hne, le_trans hle hxp⟩
    · exact Or.inr ⟨x, hx1, hxe, hxp⟩

theorem commit_inv {pop : Pop} (hps : PopSpec pop) {g : GraphProd} {s : Nat} (hwf : WF g) {pq rest : List Item}
    {prevs : List Edge} {it : Item} (hb : Base g s pq prevs)
    (hc : Closed g s pq prevs 0 g.Edges.length) (hpop : pop pq = some (it, rest))
    (hinit : prevs[it.Value.End]? = some (initEdge s)) :
    (⟨it.Value.ID, it.Value.Start, it.Value.End, it.Priority⟩ : Edge) ≠ initEdge s ∧
    Base g s rest
      (prevs.set it.Value.End ⟨it.Value.ID, it.Value.Start, it.Value.End, it.Priority⟩) ∧
    Closed g s rest
      (prevs.set it.Value.End ⟨it.Value.ID, it.Value.Start, it.Value.End, it.Priority⟩)
      it.Value.End (offAt g it.Value.End) ∧
    (∀ (w : Nat) (e : Edge),
      (prevs.set it.Value.End ⟨it.Value.ID, it.Value.Start, it.Value.End, it.Priority⟩)[w]? =
        some e → e ≠ initEdge s → e.Cost ≤ it.Priority) := by
  have hperm := hps.perm _ _ _ hpop
  have hmin := hps.least _ _ _ hpop
  have hsub : ∀ x ∈ rest, x ∈ pq := fun x hx => hperm.symm.subset (List.mem_cons_of_mem _ hx)
  have hit : it ∈ pq := hperm.symm.subset (List.mem_cons_self _ _)
  obtain ⟨hval, pu, hpu, hpune, hprio⟩ := hb.item it hit
  have hvn : it.Value.End < g.Nodes.length := hwf.end_lt hval
  have hvl : it.Value.End < prevs.length := by rw [hb.len]; exact hvn
  have hvs : it.Value.End ≠ s := by
    intro h
    rw [h, hb.start] at hinit
    exact initEdge_ne_startEdge s (Option.some.inj hinit)
  have hnv : (⟨it.Value.ID, it.Value.Start, it.Value.End, it.Priority⟩ : Edge) ≠ initEdge s := by
    intro h
    have := congrArg Edge.End h
    simp only [initEdge] at this
    exact hvs this
  have hself : (prevs.set it.Value.End
      ⟨it.Value.ID, it.Value.Start, it.Value.End, it.Priority⟩)[it.Value.End]? =
      some ⟨it.Value.ID, it.Value.Start, it.Value.End, it.Priority⟩ :=
    List.getElem?_set_self hvl
  have hunc : uncommitted g s (prevs.set it.Value.End
      ⟨it.Value.ID, it.Value.Start, it.Value.End, it.Priority⟩) + 1 = uncommitted g s prevs :=
    wsum_set (fun _ => 1) hvn hb.len hinit hnv
  refine ⟨hnv, ⟨?_, ?_, ?_, ?_, ?_⟩, ?_, ?_⟩
  · rw [List.length_set]; exact hb.len
  · rw [List.getElem?_set_ne hvs]; exact hb.start
  · intro w e hw he
    by_cases hwv : it.Value.End = w
    · subst hwv
      obtain ⟨es, ht, hlen⟩ := hb.tree _ pu hpu hpune
      obtain ⟨pe, hpe, _, _, hcost⟩ := ht.entry
      rw [hpu] at hpe
      have : pu = pe := Option.some.inj hpe
      subst this
      refine ⟨es ++ [it.Value], Tree.step it.Value (ht.set _ hinit) hval rfl hvs ?_, ?_⟩
      · rw [hself, hprio, hcost]
      · simp only [List.length_append, List.length_singleton]
        omega
    · rw [List.getElem?_set_ne hwv] at hw
      obtain ⟨es, ht, hlen⟩ := hb.tree w e hw he
      exact ⟨es, ht.set _ hinit, by omega⟩
  · intro x hx
    obtain ⟨h1, qu, hqu, hqune, hq⟩ := hb.item x (hsub x hx)
    refine ⟨h1, qu, ?_, hqune, hq⟩
    have hne : it.Value.End ≠ x.Value.Start := by
      intro h
      rw [h, hqu] at hinit
      exact hqune (Option.some.inj hinit)
    rw [List.getElem?_set_ne hne]; exact hqu
  · intro x hx w e hw he
    by_cases hwv : it.Value.End = w
    · subst hwv
      rw [hself] at hw
      have : e = ⟨it.Value.ID, it.Value.Start, it.Value.End, it.Priority⟩ :=
        (Option.some.inj hw).symm
      subst this
      exact hmin x (hsub x hx)
    · rw [List.getElem?_set_ne hwv] at hw
      exact hb.mono x (hsub x hx) w e hw he
  · intro u qu hu hqu i e he hs hk
    by_cases huv : u = it.Value.End
    · exfalso
      have h1 := hk huv
      have h2 := (hwf.edge_pos he).2.1
      rw [hs, huv] at h2
      omega
    · rw [List.getElem?_set_ne (fun h => huv h.symm)] at hu
      obtain ⟨pv, hpv, h⟩ := hc u qu hu hqu i e he hs
        (fun _ => by
          have := mem_of_getElem? he
          rw [List.getElem?_eq_some] at he
          exact he.1)
      by_cases hev : it.Value.End = e.End
      · refine ⟨_, by rw [← hev]; exact hself, Or.inl ⟨hnv, ?_⟩⟩
        rw [← hev, hinit] at hpv
        have hpv2 : pv = initEdge s := (Option.some.inj hpv).symm
        rcases h with h | ⟨x, hx, _, hxp⟩
        · exact absurd hpv2 h.1
        · exact le_trans (hmin x hx) hxp
      · refine ⟨pv, by rw [List.getElem?_set_ne hev]; exact hpv, ?_⟩
        rcases h with h | ⟨x, hx, hxe, hxp⟩
        · exact Or.inl h
        · rcases List.mem_cons.mp (hperm.subset hx) with rfl | hx1
          · exact absurd hxe hev
          · exact Or.inr ⟨x, hx1, hxe, hxp⟩
  · intro w e hw he
    by_cases hwv : it.Value.End = w
    · subst hwv
      rw [hself] at hw
      have : e = ⟨it.Value.ID, it.Value.Start, it.Value.End, it.Priority⟩ :=
        (Option.some.inj hw).symm
      subst this
      exact le_refl _
    · rw [List.getElem?_set_ne hwv] at hw
      exact hb.mono it hit w e hw he

/-! ## The frontier loop runs to completion -/

theorem loop_inv {pop : Pop} (hps : PopSpec pop) {g : GraphProd} {s : Nat} (hwf : WF g) (hn : NonNeg g) (hno : NoOverflow g s) :
    ∀ (fuel : Nat) (pq : List Item) (prevs : List Edge), Base g s pq prevs →
      Closed g s pq prevs 0 g.Edges.length → pq.length + pending g s prevs < fuel →
      ∃ prevs1, dijkstraLoop pop g fuel pq prevs = Run.ok prevs1 ∧ Base g s [] prevs1 ∧
        Closed g s [] prevs1 0 g.Edges.length
  | 0, _, _, _, _, hf => by omega
  | fuel + 1, pq, prevs, hb, hc, hf => by
    cases hpop : pop pq with
    | none =>
      have : pq = [] := (hps.none_iff _).mp hpop
      subst this
      exact ⟨prevs, by simp [dijkstraLoop, hpop], hb, hc⟩
    | some p =>
      obtain ⟨it, rest⟩ := p
      have hperm := hps.perm _ _ _ hpop
      have hlen : pq.length = rest.length + 1 := by
        rw [hperm.length_eq]; simp
      have hit : it ∈ pq := hperm.symm.subset (List.mem_cons_self _ _)
      obtain ⟨hval, pu, hpu, hpune, hprio⟩ := hb.item it hit
      have hvn : it.Value.End < g.Nodes.length := hwf.end_lt hval
      obtain ⟨pe, hpe⟩ := getElem?_of_lt hb.len hvn
      by_cases hinit : pe = initEdge s
      · subst hinit
        obtain ⟨_, _, hlt⟩ := hb.sum_bound hn hno hpu hpune hval rfl
        rw [← hprio] at hlt
        have hnot : ¬ (it.Priority ≥ (initEdge s).Cost) := by
          simp only [initEdge]; omega
        obtain ⟨hnv, hb1, hc1, hmax⟩ := commit_inv hps hwf hb hc hpop hpe
        have hself : (prevs.set it.Value.End
            ⟨it.Value.ID, it.Value.Start, it.Value.End, it.Priority⟩)[it.Value.End]? =
            some ⟨it.Value.ID, it.Value.Start, it.Value.End, it.Priority⟩ :=
          List.getElem?_set_self (by rw [hb.len]; exact hvn)
        have hmono := hwf.off_mono hvn
        obtain ⟨pq1, hr, hb2, hc2, hl⟩ := relax_inv hwf hn hno hvn hself hnv hmax
          (offAt g (it.Value.End + 1) - offAt g it.Value.End) (offAt g it.Value.End) rest
          (by omega) (le_refl _) hb1 hc1
        have hpend : pending g s (prevs.set it.Value.End
            ⟨it.Value.ID, it.Value.Start, it.Value.End, it.Priority⟩) +
            (offAt g (it.Value.End + 1) - offAt g it.Value.End) = pending g s prevs :=
          wsum_set _ hvn hb.len hpe hnv
        obtain ⟨prevs2, hrun, hb3, hc3⟩ := loop_inv hps hwf hn hno fuel pq1 _ hb2
          (hc2.full hwf 0) (by omega)
        refine ⟨prevs2, ?_, hb3, hc3⟩
        simp only [dijkstraLoop, hpop, hpe, hnot, if_false, hwf.off_get (le_of_lt hvn),
          hwf.off_get (Nat.succ_le_of_lt hvn)]
        simp only at hr
        rw [hr]
        exact hrun
      · obtain ⟨hle, hb1, hc1⟩ := discard_inv hps hb hc hpop hpe hinit
        obtain ⟨prevs2, hrun, hb3, hc3⟩ := loop_inv hps hwf hn hno fuel rest prevs hb1 hc1 (by omega)
        refine ⟨prevs2, ?_, hb3, hc3⟩
        have hge : it.Priority ≥ pe.Cost := hle
        simp only [dijkstraLoop, hpop, hpe, hge, if_true]
        exact hrun

/-- The state after the first pass: the start node is committed with cost 0. -/
theorem first_inv {g : GraphProd} {s : Nat} (hwf : WF g) (hs : s < g.Nodes.length) :
    Base g s [] ((List.replicate g.Nodes.length (initEdge s)).set s (startEdge s)) ∧
    Closed g s [] ((List.replicate g.Nodes.length (initEdge s)).set s (startEdge s)) s
      (offAt g s) ∧
    (∀ (w : Nat) (e : Edge),
      ((List.replicate g.Nodes.length (initEdge s)).set s (startEdge s))[w]? = some e →
        e ≠ initEdge s → e.Cost ≤ (startEdge s).Cost) := by
  have hself : ((List.replicate g.Nodes.length (initEdge s)).set s (startEdge s))[s]? =
      some (startEdge s) := List.getElem?_set_self (by simp; exact hs)
  have hother : ∀ (w : Nat) (e : Edge),
      ((List.replicate g.Nodes.length (initEdge s)).set s (startEdge s))[w]? = some e →
      e ≠ initEdge s → w = s ∧ e = startEdge s := by
    intro w e hw he
    by_cases hws : s = w
    · subst hws
      rw [hself] at hw
      exact ⟨rfl, (Option.some.inj hw).symm⟩
    · rw [List.getElem?_set_ne hws, List.getElem?_replicate] at hw
      split at hw
      · exact absurd (Option.some.inj hw).symm he
      · exact Option.noConfusion hw
  have hunc : uncommitted g s ((List.replicate g.Nodes.length (initEdge s)).set s (startEdge s))
      + 1 = uncommitted g s (List.replicate g.Nodes.length (initEdge s)) :=
    wsum_set (fun _ => 1) hs (by simp) (by simp [List.getElem?_replicate, hs])
      (initEdge_ne_startEdge s)
  have hall : uncommitted g s (List.replicate g.Nodes.length (initEdge s)) = g.Nodes.length := by
    unfold uncommitted
    rw [wsum_replicate]
    simp
  refine ⟨⟨by simp, hself, ?_, ?_, ?_⟩, ?_, ?_⟩
  · intro w e hw he
    obtain ⟨rfl, rfl⟩ := hother w e hw he
    exact ⟨[], Tree.root hself, by simp only [List.length_nil]; omega⟩
  · intro it hit; simp at hit
  · intro it hit; simp at hit
  · intro u pu hu hpu i e he hse hk
    obtain ⟨rfl, rfl⟩ := hother u pu hu hpu
    exfalso
    have h1 := hk rfl
    have h2 := (hwf.edge_pos he).2.1
    rw [hse] at h2
    omega
  · intro w e hw he
    obtain ⟨rfl, rfl⟩ := hother w e hw he
    exact le_refl _

/-- Under the CSR invariants, with non-negative costs and no overflow, the
single-source computation returns, and its table satisfies the invariant with an
empty frontier. -/
theorem sssp_inv {pop : Pop} (hps : PopSpec pop) {g : GraphProd} {s : Nat} (hwf : WF g) (hn : NonNeg g) (hno : NoOverflow g s)
    (hs : s < g.Nodes.length) (fuel : Nat) (hf : g.Edges.length + 2 ≤ fuel) :
    ∃ prevs, CalcDijkstraToMany pop fuel g s = Run.ok prevs ∧ Base g s [] prevs ∧
      Closed g s [] prevs 0 g.Edges.length := by
  obtain ⟨hb, hc, hmax⟩ := first_inv hwf hs
  have hself : ((List.replicate g.Nodes.length (initEdge s)).set s (startEdge s))[s]? =
      some (startEdge s) := List.getElem?_set_self (by simp; exact hs)
  have hmono := hwf.off_mono hs
  obtain ⟨pq1, hr, hb2, hc2, hl⟩ := relax_inv hwf hn hno hs hself (initEdge_ne_startEdge s) hmax
    (offAt g (s + 1) - offAt g s) (offAt g s) [] (by omega) (le_refl _) hb hc
  have hpend : pending g s ((List.replicate g.Nodes.length (initEdge s)).set s (startEdge s)) +
      (offAt g (s + 1) - offAt g s) = pending g s (List.replicate g.Nodes.length (initEdge s)) :=
    wsum_set _ hs (by simp) (by simp [List.getElem?_replicate, hs]) (initEdge_ne_startEdge s)
  have hall : pending g s (List.replicate g.Nodes.length (initEdge s)) = g.Edges.length := by
    unfold pending
    rw [wsum_replicate, hwf.degree_sum _ (le_refl _), hwf.2.2.1]
  obtain ⟨fuel1, rfl⟩ : ∃ k, fuel = k + 1 := ⟨fuel - 1, by omega⟩
  simp only [List.length_nil] at hl
  obtain ⟨prevs2, hrun, hb3, hc3⟩ := loop_inv hps hwf hn hno fuel1 pq1 _ hb2 (hc2.full hwf 0) (by omega)
  refine ⟨prevs2, ?_, hb3, hc3⟩
  have hget : (List.replicate g.Nodes.length (initEdge s))[s]? = some (initEdge s) := by
    simp [List.getElem?_replicate, hs]
  have hnot : ¬ ((0 : Int) ≥ (initEdge s).Cost) := by simp [initEdge, MaxInt64]
  simp only [startEdge] at hr
  simp only [CalcDijkstraToMany, dijkstraLoop, push, hps.single, startEdge, hget, hnot, if_false,
    hwf.off_get (le_of_lt hs), hwf.off_get (Nat.succ_le_of_lt hs)]
  rw [hr]
  exact hrun

/-! ## Reading the final table -/

theorem closed_walk {g : GraphProd} {s : Nat} {prevs : List Edge}
    (hc : Closed g s [] prevs 0 g.Edges.length) :
    ∀ (es : List Edge) (u t : Nat) (pu : Edge), prevs[u]? = some pu → pu ≠ initEdge s →
      IsWalk g u es t →
      ∃ pt, prevs[t]? = some pt ∧ pt ≠ initEdge s ∧ pt.Cost ≤ pu.Cost + walkCost es
  | [], u, t, pu, hu, hpu, hw => by
    simp only [IsWalk] at hw
    subst hw
    exact ⟨pu, hu, hpu, by simp [walkCost]⟩
  | e :: es, u, t, pu, hu, hpu, hw => by
    obtain ⟨he, hs, hrest⟩ := hw
    obtain ⟨i, hi, hget⟩ := List.getElem_of_mem he
    have hget2 : g.Edges[i]? = some e := by rw [List.getElem?_eq_getElem hi, hget]
    obtain ⟨pv, hpv, h⟩ := hc u pu hu hpu i e hget2 hs (fun _ => hi)
    rcases h with ⟨hne, hle⟩ | ⟨it, hit, _⟩
    · obtain ⟨pt, hpt, hptne, hptle⟩ := closed_walk hc es e.End t pv hpv hne hrest
      refine ⟨pt, hpt, hptne, ?_⟩
      simp only [walkCost, List.map_cons, List.sum_cons] at hptle ⊢
      omega
    · simp at hit

theorem wayLoop_tree {g : GraphProd} {s : Nat} {prevs : List Edge} {v : Nat} {es : List Edge}
    (ht : Tree g s prevs v es) :
    ∀ (fuel : Nat) (acc : List Nat) (pe : Edge), prevs[v]? = some pe → es.length < fuel →
      wayLoop prevs s fuel pe acc = Run.ok (acc ++ (es.map Edge.Start).reverse) := by
  induction ht with
  | root h0 =>
    intro fuel acc pe hpe hf
    obtain ⟨f, rfl⟩ : ∃ k, fuel = k + 1 := ⟨fuel - 1, by omega⟩
    rw [h0] at hpe
    have : pe = startEdge s := (Option.some.inj hpe).symm
    subst this
    simp [wayLoop, startEdge]
  | step e ht he hs hne hp ih =>
    intro fuel acc pe hpe hf
    obtain ⟨f, rfl⟩ : ∃ k, fuel = k + 1 := ⟨fuel - 1, by simp at hf; omega⟩
    rw [hp] at hpe
    have : pe = ⟨e.ID, e.Start, e.End, _⟩ := (Option.some.inj hpe).symm
    subst this
    obtain ⟨pu, hpu, _, _, _⟩ := ht.entry
    have hpu2 : prevs[e.Start]? = some pu := by rw [hs]; exact hpu
    simp only [wayLoop, hne, if_false, hpu2]
    rw [ih f (acc ++ [e.Start]) pu hpu (by simp at hf; omega)]
    simp [hs]

theorem Tree.joined {g : GraphProd} {s : Nat} {prevs : List Edge} {v : Nat} {es : List Edge}
    (ht : Tree g s prevs v es) : JoinedBy g (v :: (es.map Edge.Start).reverse) es.reverse := by
  induction ht with
  | root _ => simp [JoinedBy]
  | step e ht he hs _ _ ih =>
    simp only [List.map_append, List.map_cons, List.map_nil, List.reverse_append,
      List.reverse_cons, List.reverse_nil, List.nil_append, List.singleton_append, JoinedBy]
    refine ⟨he, trivial, trivial, ?_⟩
    rw [hs]
    exact ih

theorem walkCost_reverse (es : List Edge) : walkCost es.reverse = walkCost es := by
  simp [walkCost, List.sum_reverse]

/-- What `CalcDijkstra` does on a well-formed graph with non-negative costs and no
overflow: either the target is not reachable and the error is returned, or the
table holds a walk to the target which is returned backwards together with its
cost, and no walk to the target is cheaper. -/
theorem CalcDijkstra_cases {pop : Pop} (hps : PopSpec pop) {g : GraphProd} {s t : Nat} (hwf : WF g) (hn : NonNeg g)
    (hno : NoOverflow g s) (hs : s < g.Nodes.length) (ht : t < g.Nodes.length) {fuel : Nat}
    (hf : g.Edges.length + g.Nodes.length + 2 ≤ fuel) :
    ((¬ ∃ es, IsWalk g s es t) ∧
      CalcDijkstra pop fuel g s t = Run.ok ⟨MaxInt64, none, some Err.noWayFound⟩) ∨
    (∃ prevs es, Tree g s prevs t es ∧ es.length < g.Nodes.length ∧
      CalcDijkstra pop fuel g s t =
        Run.ok ⟨walkCost es, some (t :: (es.map Edge.Start).reverse), none⟩ ∧
      ∀ fs, IsWalk g s fs t → walkCost es ≤ walkCost fs) := by
  obtain ⟨prevs, hrun, hb, hc⟩ := sssp_inv hps hwf hn hno hs fuel (by omega)
  obtain ⟨pt, hpt⟩ := getElem?_of_lt hb.len ht
  have hstart : (startEdge s).Cost = 0 := rfl
  by_cases hinit : pt = initEdge s
  · left
    subst hinit
    constructor
    · rintro ⟨es, hw⟩
      obtain ⟨pt, hpt2, hne, _⟩ := closed_walk hc es s t _ hb.start (initEdge_ne_startEdge s) hw
      rw [hpt] at hpt2
      exact hne (Option.some.inj hpt2).symm
    · simp [CalcDijkstra, hrun, reconstruct, hpt, initEdge]
  · right
    obtain ⟨es, htree, hlen⟩ := hb.tree t pt hpt hinit
    obtain ⟨pe, hpe, _, hend, hcost⟩ := htree.entry
    rw [hpt] at hpe
    have : pt = pe := Option.some.inj hpe
    subst this
    have hlt : walkCost es < MaxInt64 := hno es t htree.walk (by omega)
    refine ⟨prevs, es, htree, by omega, ?_, ?_⟩
    · have hne : pt.Cost ≠ MaxInt64 := by rw [hcost]; omega
      have hway := wayLoop_tree htree fuel [pt.End] pt hpt (by omega)
      have hendlt : pt.End < prevs.length := by rw [hend, hb.len]; exact ht
      simp only [CalcDijkstra, hrun, reconstruct, hpt, hne, if_false, hendlt, if_true, hway]
      simp [hend, hcost]
    · intro fs hw
      obtain ⟨pt2, hpt2, _, hle⟩ := closed_walk hc fs s t _ hb.start (initEdge_ne_startEdge s) hw
      rw [hpt] at hpt2
      have : pt = pt2 := Option.some.inj hpt2
      subst this
      rw [hstart, hcost] at hle
      omega

/-! ## More fuel never changes a result -/

theorem dijkstraLoop_mono (pop : Pop) (g : GraphProd) :
    ∀ (f f2 : Nat) (pq : List Item) (prevs r : List Edge), f ≤ f2 →
      dijkstraLoop pop g f pq prevs = Run.ok r → dijkstraLoop pop g f2 pq prevs = Run.ok r
  | 0, _, _, _, _, _, h => by simp [dijkstraLoop] at h
  | f + 1, f2, pq, prevs, r, hle, h => by
    obtain ⟨k, rfl⟩ : ∃ k, f2 = k + 1 := ⟨f2 - 1, by omega⟩
    have hk : f ≤ k := by omega
    cases hpop : pop pq with
    | none =>
      simp only [dijkstraLoop, hpop] at h ⊢
      exact h
    | some p =>
      obtain ⟨it, rest⟩ := p
      cases hpe : prevs[it.Value.End]? with
      | none => simp [dijkstraLoop, hpop, hpe] at h
      | some pe =>
        by_cases hge : it.Priority ≥ pe.Cost
        · simp only [dijkstraLoop, hpop, hpe, hge, if_true] at h ⊢
          exact dijkstraLoop_mono pop g f k _ _ _ hk h
        · cases ho1 : g.Offset[it.Value.End]? with
          | none => simp [dijkstraLoop, hpop, hpe, hge, ho1] at h
          | some b =>
            cases ho2 : g.Offset[it.Value.End + 1]? with
            | none => simp [dijkstraLoop, hpop, hpe, hge, ho1, ho2] at h
            | some c =>
              simp only [dijkstraLoop, hpop, hpe, hge, if_false, ho1, ho2] at h ⊢
              cases hr : relax g (prevs.set it.Value.End
                  ⟨it.Value.ID, it.Value.Start, it.Value.End, it.Priority⟩)
                  it.Priority b (c - b) rest with
              | ok pq1 =>
                simp only [hr] at h ⊢
                exact dijkstraLoop_mono pop g f k _ _ _ hk h
              | indexOutOfRange => simp [hr] at h
              | outOfFuel => simp [hr] at h

theorem wayLoop_mono (prevs : List Edge) (s : Nat) :
    ∀ (f f2 : Nat) (e : Edge) (acc r : List Nat), f ≤ f2 →
      wayLoop prevs s f e acc = Run.ok r → wayLoop prevs s f2 e acc = Run.ok r
  | 0, _, _, _, _, _, h => by simp [wayLoop] at h
  | f + 1, f2, e, acc, r, hle, h => by
    obtain ⟨k, rfl⟩ : ∃ k, f2 = k + 1 := ⟨f2 - 1, by omega⟩
    have hk : f ≤ k := by omega
    by_cases hend : e.End = s
    · simp only [wayLoop, hend, if_true] at h ⊢
      exact h
    · cases hp : prevs[e.Start]? with
      | none => simp [wayLoop, hend, hp] at h
      | some e1 =>
        simp only [wayLoop, hend, if_false, hp] at h ⊢
        exact wayLoop_mono prevs s f k _ _ _ hk h

theorem reconstruct_mono {prevs : List Edge} {s t f f2 : Nat} {r : DijkstraResult}
    (hle : f ≤ f2) (h : reconstruct f prevs s t = Run.ok r) :
    reconstruct f2 prevs s t = Run.ok r := by
  unfold reconstruct at h ⊢
  cases hp : prevs[t]? with
  | none => rw [hp] at h; exact Run.noConfusion h
  | some e =>
    rw [hp] at h
    simp only at h ⊢
    by_cases hc : e.Cost = MaxInt64
    · simp only [hc, if_true] at h ⊢
      exact h
    · by_cases hl : e.End < prevs.length
      · simp only [hc, if_false, hl, if_true] at h ⊢
        cases hw : wayLoop prevs s f e [e.End] with
        | ok way =>
          rw [hw] at h
          rw [wayLoop_mono prevs s f f2 _ _ _ hle hw]
          exact h
        | indexOutOfRange => rw [hw] at h; exact Run.noConfusion h
        | outOfFuel => rw [hw] at h; exact Run.noConfusion h
      · simp [hc, hl] at h

theorem CalcDijkstra_mono {pop : Pop} {g : GraphProd} {s t f f2 : Nat} {r : DijkstraResult}
    (hle : f ≤ f2) (h : CalcDijkstra pop f g s t = Run.ok r) :
    CalcDijkstra pop f2 g s t = Run.ok r := by
  unfold CalcDijkstra at h ⊢
  cases hp : CalcDijkstraToMany pop f g s with
  | ok prevs =>
    rw [hp] at h
    have : CalcDijkstraToMany pop f2 g s = Run.ok prevs := dijkstraLoop_mono pop g f f2 _ _ _ hle hp
    rw [this]
    exact reconstruct_mono hle h
  | indexOutOfRange => rw [hp] at h; exact Run.noConfusion h
  | outOfFuel => rw [hp] at h; exact Run.noConfusion h

/-! ## Walk facts used by the claims -/

theorem IsWalk.target_lt {g : GraphProd} (hwf : WF g) : ∀ {a : Nat} {es : List Edge} {b : Nat},
    IsWalk g a es b → a < g.Nodes.length → b < g.Nodes.length
  | a, [], b, h, ha => by
    simp only [IsWalk] at h
    subst h; exact ha
  | a, e :: es, b, h, _ => by
    obtain ⟨h1, _, h3⟩ := h
    exact IsWalk.target_lt hwf h3 (hwf.end_lt h1)

theorem IsWalk.last_edge {g : GraphProd} : ∀ {a : Nat} {es : List Edge} {b : Nat},
    IsWalk g a es b → a ≠ b → ∃ e ∈ g.Edges, e.End = b
  | a, [], b, h, hab => by
    simp only [IsWalk] at h
    exact absurd h hab
  | a, e :: es, b, h, _ => by
    obtain ⟨h1, _, h3⟩ := h
    by_cases hb : e.End = b
    · exact ⟨e, h1, hb⟩
    · exact IsWalk.last_edge h3 hb

theorem IsWalk.cost_le {g : GraphProd} {B : Int} (hB : ∀ e ∈ g.Edges, e.Cost ≤ B) :
    ∀ {a : Nat} {es : List Edge} {b : Nat}, IsWalk g a es b → walkCost es ≤ es.length * B
  | _, [], _, _ => by simp [walkCost]
  | _, e :: es, _, h => by
    obtain ⟨h1, _, h3⟩ := h
    have ih := IsWalk.cost_le hB h3
    have he := hB e h1
    simp only [walkCost, List.map_cons, List.sum_cons, List.length_cons] at ih ⊢
    push_cast
    linarith

/-- A sufficient condition for `NoOverflow`: node count times a bound on the edge
costs stays below the `int64` maximum. -/
theorem noOverflow_of_bound (g : GraphProd) (s : Nat) (B : Int) (h0 : 0 ≤ B)
    (hB : ∀ e ∈ g.Edges, e.Cost ≤ B) (h : g.Nodes.length * B < MaxInt64) : NoOverflow g s := by
  intro es t hw hlen
  have h1 := IsWalk.cost_le hB hw
  have h2 : (es.length : Int) * B ≤ g.Nodes.length * B :=
    mul_le_mul_of_nonneg_right (by exact_mod_cast hlen) h0
  linarith

/-! ## Facts that hold whatever the edge costs are -/

theorem relax_range {g : GraphProd} {prevs : List Edge} {p : Int} :
    ∀ (cnt i : Nat) (pq pq1 : List Item), relax g prevs p i cnt pq = Run.ok pq1 →
      (∀ it ∈ pq, InInt64 it.Priority) → ∀ it ∈ pq1, InInt64 it.Priority
  | 0, _, pq, pq1, h, hpq => by
    simp only [relax] at h
    rw [← Run.ok.inj h]; exact hpq
  | cnt + 1, i, pq, pq1, h, hpq => by
    cases he : g.Edges[i]? with
    | none => simp [relax, he] at h
    | some e =>
      cases hpe : prevs[e.End]? with
      | none => simp [relax, he, hpe] at h
      | some pe =>
        simp only [relax, he, hpe] at h
        refine relax_range cnt (i + 1) _ pq1 h ?_
        intro it hit
        split at hit
        · rcases List.mem_cons.mp hit with rfl | hit
          · exact wrap64_range _
          · exact hpq it hit
        · exact hpq it hit

theorem loop_range {pop : Pop} (hps : PopSpec pop) {g : GraphProd} :
    ∀ (fuel : Nat) (pq : List Item) (prevs r : List Edge),
      (∀ e ∈ prevs, InInt64 e.Cost) → (∀ it ∈ pq, InInt64 it.Priority) →
      dijkstraLoop pop g fuel pq prevs = Run.ok r → ∀ e ∈ r, InInt64 e.Cost
  | 0, _, _, _, _, _, h => by simp [dijkstraLoop] at h
  | fuel + 1, pq, prevs, r, hprevs, hpq, h => by
    cases hpop : pop pq with
    | none =>
      simp only [dijkstraLoop, hpop] at h
      rw [← Run.ok.inj h]; exact hprevs
    | some p =>
      obtain ⟨it, rest⟩ := p
      have hperm := hps.perm _ _ _ hpop
      have hrest : ∀ x ∈ rest, InInt64 x.Priority :=
        fun x hx => hpq x (hperm.symm.subset (List.mem_cons_of_mem _ hx))
      have hit : InInt64 it.Priority := hpq it (hperm.symm.subset (List.mem_cons_self _ _))
      cases hpe : prevs[it.Value.End]? with
      | none => simp [dijkstraLoop, hpop, hpe] at h
      | some pe =>
        by_cases hge : it.Priority ≥ pe.Cost
        · simp only [dijkstraLoop, hpop, hpe, hge, if_true] at h
          exact loop_range hps fuel rest prevs r hprevs hrest h
        · cases ho1 : g.Offset[it.Value.End]? with
          | none => simp [dijkstraLoop, hpop, hpe, hge, ho1] at h
          | some b =>
            cases ho2 : g.Offset[it.Value.End + 1]? with
            | none => simp [dijkstraLoop, hpop, hpe, hge, ho1, ho2] at h
            | some c =>
              simp only [dijkstraLoop, hpop, hpe, hge, if_false, ho1, ho2] at h
              cases hr : relax g (prevs.set it.Value.End
                  ⟨it.Value.ID, it.Value.Start, it.Value.End, it.Priority⟩)
                  it.Priority b (c - b) rest with
              | ok pq1 =>
                simp only [hr] at h
                refine loop_range hps fuel pq1 _ r ?_ (relax_range _ _ _ _ hr hrest) h
                intro e he
                rcases List.mem_or_eq_of_mem_set he with he | rfl
                · exact hprevs e he
                · exact hit
              | indexOutOfRange => simp [hr] at h
              | outOfFuel => simp [hr] at h

/-- Every cost in a table returned by `CalcDijkstraToMany` is an `int64`. -/
theorem sssp_range {pop : Pop} (hps : PopSpec pop) {g : GraphProd} {s fuel : Nat} {prevs : List Edge}
    (h : CalcDijkstraToMany pop fuel g s = Run.ok prevs) : ∀ e ∈ prevs, InInt64 e.Cost := by
  refine loop_range hps fuel _ _ prevs ?_ ?_ h
  · intro e he
    rw [List.eq_of_mem_replicate he]
    simp [InInt64, initEdge, MaxInt64]
  · intro it hit
    simp only [push, List.mem_singleton] at hit
    subst hit
    simp [InInt64, MaxInt64]

theorem sssp_start_lt {pop : Pop} (hps : PopSpec pop) {g : GraphProd} {p fuel : Nat} {prevs : List Edge}
    (h : CalcDijkstraToMany pop fuel g p = Run.ok prevs) : p < g.Nodes.length := by
  by_contra hc
  have hnone : (List.replicate g.Nodes.length (initEdge p))[p]? = none :=
    List.getElem?_eq_none (by simp; omega)
  cases fuel with
  | zero => simp [CalcDijkstraToMany, dijkstraLoop] at h
  | succ f =>
    simp [CalcDijkstraToMany, dijkstraLoop, push, hps.single, startEdge] at h
    rw [List.getElem?_replicate] at h
    simp [show ¬ p < g.Nodes.length from hc] at h

theorem committed_set {s : Nat} {prevs : List Edge} {v u : Nat} {nv pu : Edge}
    (hv : v < prevs.length) (hnv : nv ≠ initEdge s) (hu : prevs[u]? = some pu)
    (hpu : pu ≠ initEdge s) : ∃ qu, (prevs.set v nv)[u]? = some qu ∧ qu ≠ initEdge s := by
  by_cases h : v = u
  · subst h
    exact ⟨nv, List.getElem?_set_self hv, hnv⟩
  · exact ⟨pu, by rw [List.getElem?_set_ne h]; exact hu, hpu⟩

theorem relax_shape {g : GraphProd} {s : Nat} (hwf : WF g) {prevs : List Edge} {p : Int}
    {v : Nat} {nv : Edge} (hv : v < g.Nodes.length) (hnv : prevs[v]? = some nv)
    (hne : nv ≠ initEdge s) :
    ∀ (cnt i : Nat) (pq pq1 : List Item), relax g prevs p i cnt pq = Run.ok pq1 →
      offAt g v ≤ i → i + cnt ≤ offAt g (v + 1) →
      (∀ it ∈ pq, it.Value.Start = it.Value.End ∨
        ∃ pu, prevs[it.Value.Start]? = some pu ∧ pu ≠ initEdge s) →
      ∀ it ∈ pq1, it.Value.Start = it.Value.End ∨
        ∃ pu, prevs[it.Value.Start]? = some pu ∧ pu ≠ initEdge s
  | 0, _, pq, pq1, h, _, _, hpq => by
    simp only [relax] at h
    rw [← Run.ok.inj h]; exact hpq
  | cnt + 1, i, pq, pq1, h, hlo, hhi, hpq => by
    obtain ⟨e, he, hes⟩ := hwf.slice hv hlo (by omega)
    cases hpe : prevs[e.End]? with
    | none => simp [relax, he, hpe] at h
    | some pe =>
      simp only [relax, he, hpe] at h
      refine relax_shape hwf hv hnv hne cnt (i + 1) _ pq1 h (by omega) (by omega) ?_
      intro it hit
      split at hit
      · rcases List.mem_cons.mp hit with rfl | hit
        · right
          exact ⟨nv, by simp only [hes]; exact hnv, hne⟩
        · exact hpq it hit
      · exact hpq it hit

theorem loop_shape {pop : Pop} (hps : PopSpec pop) {g : GraphProd} {s : Nat} (hwf : WF g) :
    ∀ (fuel : Nat) (pq : List Item) (prevs r : List Edge), Shape g s pq prevs →
      dijkstraLoop pop g fuel pq prevs = Run.ok r → Shape g s [] r
  | 0, _, _, _, _, h => by simp [dijkstraLoop] at h
  | fuel + 1, pq, prevs, r, hsh, h => by
    cases hpop : pop pq with
    | none =>
      simp only [dijkstraLoop, hpop] at h
      rw [← Run.ok.inj h]
      exact ⟨hsh.len, hsh.ent, hsh.rng, fun it hit => by simp at hit⟩
    | some p =>
      obtain ⟨it, rest⟩ := p
      have hperm := hps.perm _ _ _ hpop
      have hsub : ∀ x ∈ rest, x ∈ pq :=
        fun x hx => hperm.symm.subset (List.mem_cons_of_mem _ hx)
      have hit : it ∈ pq := hperm.symm.subset (List.mem_cons_self _ _)
      cases hpe : prevs[it.Value.End]? with
      | none => simp [dijkstraLoop, hpop, hpe] at h
      | some pe =>
        by_cases hge : it.Priority ≥ pe.Cost
        · simp only [dijkstraLoop, hpop, hpe, hge, if_true] at h
          exact loop_shape hps hwf fuel rest prevs r
            ⟨hsh.len, hsh.ent, hsh.rng, fun x hx => hsh.itm x (hsub x hx)⟩ h
        · cases ho1 : g.Offset[it.Value.End]? with
          | none => simp [dijkstraLoop, hpop, hpe, hge, ho1] at h
          | some b =>
            cases ho2 : g.Offset[it.Value.End + 1]? with
            | none => simp [dijkstraLoop, hpop, hpe, hge, ho1, ho2] at h
            | some c =>
              simp only [dijkstraLoop, hpop, hpe, hge, if_false, ho1, ho2] at h
              have hvl : it.Value.End < prevs.length := by
                by_contra hc
                rw [List.getElem?_eq_none (by omega)] at hpe
                exact Option.noConfusion hpe
              have hvn : it.Value.End < g.Nodes.length := by rw [← hsh.len]; exact hvl
              have hb : b = offAt g it.Value.End := by
                rw [hwf.off_get (le_of_lt hvn)] at ho1
                exact (Option.some.inj ho1).symm
              have hc : c = offAt g (it.Value.End + 1) := by
                rw [hwf.off_get (Nat.succ_le_of_lt hvn)] at ho2
                exact (Option.some.inj ho2).symm
              have hlt : it.Priority < MaxInt64 := by
                have := hsh.rng _ pe hpe
                omega
              have hnv : (⟨it.Value.ID, it.Value.Start, it.Value.End, it.Priority⟩ : Edge) ≠
                  initEdge s := by
                intro hc2
                have := congrArg Edge.Cost hc2
                simp only [initEdge] at this
                omega
              have hself : (prevs.set it.Value.End
                  ⟨it.Value.ID, it.Value.Start, it.Value.End, it.Priority⟩)[it.Value.End]? =
                  some ⟨it.Value.ID, it.Value.Start, it.Value.End, it.Priority⟩ :=
                List.getElem?_set_self hvl
              have hstart : ∃ qu, (prevs.set it.Value.End
                  ⟨it.Value.ID, it.Value.Start, it.Value.End, it.Priority⟩)[it.Value.Start]? =
                  some qu ∧ qu ≠ initEdge s := by
                rcases hsh.itm it hit with heq | ⟨pu, hpu, hpune⟩
                · have key : ∀ k, k = it.Value.End → (prevs.set it.Value.End
                      ⟨it.Value.ID, it.Value.Start, it.Value.End, it.Priority⟩)[k]? =
                      some ⟨it.Value.ID, it.Value.Start, it.Value.End, it.Priority⟩ := by
                    intro k hk
                    rw [hk]; exact hself
                  exact ⟨_, key _ heq, hnv⟩
                · exact committed_set hvl hnv hpu hpune
              have hsh1 : Shape g s rest (prevs.set it.Value.End
                  ⟨it.Value.ID, it.Value.Start, it.Value.End, it.Priority⟩) := by
                refine ⟨by rw [List.length_set]; exact hsh.len, ?_, ?_, ?_⟩
                · intro w e hw
                  by_cases hwv : it.Value.End = w
                  · subst hwv
                    rw [hself] at hw
                    rw [← Option.some.inj hw]
                    exact Or.inr ⟨rfl, hlt, hstart⟩
                  · rw [List.getElem?_set_ne hwv] at hw
                    rcases hsh.ent w e hw with h1 | ⟨h1, h2, pu, hpu, hpune⟩
                    · exact Or.inl h1
                    · exact Or.inr ⟨h1, h2, committed_set hvl hnv hpu hpune⟩
                · intro w e hw
                  by_cases hwv : it.Value.End = w
                  · subst hwv
                    rw [hself] at hw
                    rw [← Option.some.inj hw]
                    exact le_of_lt hlt
                  · rw [List.getElem?_set_ne hwv] at hw
                    exact hsh.rng w e hw
                · intro x hx
                  rcases hsh.itm x (hsub x hx) with h1 | ⟨pu, hpu, hpune⟩
                  · exact Or.inl h1
                  · exact Or.inr (committed_set hvl hnv hpu hpune)
              cases hr : relax g (prevs.set it.Value.End
                  ⟨it.Value.ID, it.Value.Start, it.Value.End, it.Priority⟩)
                  it.Priority b (c - b) rest with
              | ok pq1 =>
                simp only [hr] at h
                have hmono := hwf.off_mono hvn
                have hitm := relax_shape hwf hvn hself hnv (c - b) b rest pq1 hr
                  (by omega) (by omega) hsh1.itm
                exact loop_shape hps hwf fuel pq1 _ r ⟨hsh1.len, hsh1.ent, hsh1.rng, hitm⟩ h
              | indexOutOfRange => simp [hr] at h
              | outOfFuel => simp [hr] at h

/-- The table returned by `CalcDijkstraToMany` on a well-formed graph has the shape
described by `Shape`. -/
theorem sssp_shape {pop : Pop} (hps : PopSpec pop) {g : GraphProd} {s fuel : Nat} {prevs : List Edge} (hwf : WF g)
    (h : CalcDijkstraToMany pop fuel g s = Run.ok prevs) : Shape g s [] prevs := by
  refine loop_shape hps hwf fuel _ _ prevs ⟨by simp, ?_, ?_, ?_⟩ h
  · intro v e hv
    left
    exact List.eq_of_mem_replicate (mem_of_getElem? hv)
  · intro v e hv
    rw [List.eq_of_mem_replicate (mem_of_getElem? hv)]
    simp [initEdge]
  · intro it hit
    simp only [push, List.mem_singleton] at hit
    subst hit
    left; rfl

theorem wayLoop_ends {g : GraphProd} {s : Nat} {prevs : List Edge} (hsh : Shape g s [] prevs) :
    ∀ (fuel : Nat) (e : Edge) (acc way : List Nat), wayLoop prevs s fuel e acc = Run.ok way →
      prevs[e.End]? = some e → e ≠ initEdge s → acc.getLast? = some e.End → acc ≠ [] →
      way.getLast? = some s ∧ way.head? = acc.head?
  | 0, _, _, _, h, _, _, _, _ => by simp [wayLoop] at h
  | fuel + 1, e, acc, way, h, he, hne, hlast, hacc => by
    by_cases hend : e.End = s
    · simp only [wayLoop, hend, if_true] at h
      rw [← Run.ok.inj h, hlast, hend]
      exact ⟨rfl, rfl⟩
    · rcases hsh.ent _ e he with h1 | ⟨_, _, pu, hpu, hpune⟩
      · exact absurd h1 hne
      · simp only [wayLoop, hend, if_false, hpu] at h
        have hpuEnd : pu.End = e.Start := by
          rcases hsh.ent _ pu hpu with h1 | ⟨h1, _⟩
          · exact absurd h1 hpune
          · exact h1
        obtain ⟨h1, h2⟩ := wayLoop_ends hsh fuel pu (acc ++ [e.Start]) way h
          (by rw [hpuEnd]; exact hpu) hpune (by simp [hpuEnd]) (by simp)
        refine ⟨h1, ?_⟩
        rw [h2]
        cases acc with
        | nil => exact absurd rfl hacc
        | cons a as => rfl

/-! ## Claims about `CalcDijkstra` -/

/-- C1: on a graph satisfying the CSR invariants, with non-negative edge costs
and path sums below the `int64` maximum, and a target reachable from the start,
`CalcDijkstra` returns (given enough fuel for its loops) without error, and the cost
it returns is the minimum of the cost sums of all walks from start to target: some
walk has exactly this cost and no walk has a smaller one. -/
theorem C1_cost_is_minimum (pop : Pop) (hps : PopSpec pop) (g : GraphProd) (s t fuel : Nat) (hwf : WF g) (hn : NonNeg g)
    (hno : NoOverflow g s) (hs : s < g.Nodes.length) (hreach : ∃ es, IsWalk g s es t)
    (hf : g.Edges.length + g.Nodes.length + 2 ≤ fuel) :
    ∃ c way, CalcDijkstra pop fuel g s t = Run.ok ⟨c, some way, none⟩ ∧
      (∃ es, IsWalk g s es t ∧ walkCost es = c) ∧
      ∀ fs, IsWalk g s fs t → c ≤ walkCost fs := by
  obtain ⟨es0, hw0⟩ := hreach
  have ht : t < g.Nodes.length := IsWalk.target_lt hwf hw0 hs
  rcases CalcDijkstra_cases hps hwf hn hno hs ht hf with ⟨hnone, _⟩ | ⟨prevs, es, htree, _, hrun, hmin⟩
  · exact absurd ⟨es0, hw0⟩ hnone
  · exact ⟨walkCost es, _, hrun, ⟨es, htree.walk, rfl⟩, hmin⟩

theorem C1_cost_is_minimum_witness :
    ∃ c way, CalcDijkstra popMin 10 exampleGraph 0 3 = Run.ok ⟨c, some way, none⟩ ∧
      (∃ es, IsWalk exampleGraph 0 es 3 ∧ walkCost es = c) ∧
      ∀ fs, IsWalk exampleGraph 0 fs 3 → c ≤ walkCost fs :=
  C1_cost_is_minimum popMin popMin_spec exampleGraph 0 3 10 (by decide) (by decide)
    (noOverflow_of_bound exampleGraph 0 5 (by decide) (by decide) (by decide)) (by decide)
    ⟨[⟨1, 0, 2, 3⟩, ⟨3, 2, 3, 3⟩], by decide⟩ (by decide)

/-- C2 (as stated, refuted): on the spec's example graph `CalcDijkstra(A, D)`
returns cost 6 with the node sequence [D, C, A]: its first node is the target D,
not the start A, and it is not the sequence [A, C, D]. -/
theorem C2_counterexample :
    CalcDijkstra popMin 10 exampleGraph 0 3 = Run.ok ⟨6, some [3, 2, 0], none⟩ ∧
    ([3, 2, 0] : List Nat).head? ≠ some 0 ∧ ([3, 2, 0] : List Nat) ≠ [0, 2, 3] := by
  decide

/-- Every successful call of `CalcDijkstra` on a graph satisfying the CSR
invariants returns a sequence whose first node is the target and whose last node is
the start, whatever the edge costs are. -/
theorem CalcDijkstra_way_ends {pop : Pop} (hps : PopSpec pop) {g : GraphProd} {s t fuel : Nat}
    {r : DijkstraResult} (hwf : WF g) (hrun : CalcDijkstra pop fuel g s t = Run.ok r)
    (herr : r.err = none) :
    ∃ way, r.way = some way ∧ way.head? = some t ∧ way.getLast? = some s := by
  unfold CalcDijkstra at hrun
  cases hp : CalcDijkstraToMany pop fuel g s with
  | indexOutOfRange => simp [hp] at hrun
  | outOfFuel => simp [hp] at hrun
  | ok prevs =>
    simp only [hp] at hrun
    have hsh := sssp_shape hps hwf hp
    unfold reconstruct at hrun
    cases hte : prevs[t]? with
    | none => simp [hte] at hrun
    | some te =>
      simp only [hte] at hrun
      by_cases hc : te.Cost = MaxInt64
      · simp only [hc, if_true] at hrun
        rw [← Run.ok.inj hrun] at herr
        simp at herr
      · by_cases hl : te.End < prevs.length
        · simp only [hc, if_false, hl, if_true] at hrun
          cases hw : wayLoop prevs s fuel te [te.End] with
          | indexOutOfRange => simp [hw] at hrun
          | outOfFuel => simp [hw] at hrun
          | ok way =>
            simp only [hw] at hrun
            have hne : te ≠ initEdge s := by
              intro h
              rw [h] at hc
              exact hc rfl
            have hend : te.End = t := by
              rcases hsh.ent t te hte with h1 | ⟨h1, _⟩
              · exact absurd h1 hne
              · exact h1
            obtain ⟨h1, h2⟩ := wayLoop_ends hsh fuel te [te.End] way hw
              (by rw [hend]; exact hte) hne rfl (by simp)
            refine ⟨way, ?_, ?_, h1⟩
            · rw [← Run.ok.inj hrun]
            · rw [h2, hend]; rfl
        · simp [hc, hl] at hrun

/-- With enough fuel, on a graph satisfying the CSR invariants with non-negative
costs and no overflow, the cost of a successful call undercuts no walk. -/
theorem CalcDijkstra_min {pop : Pop} (hps : PopSpec pop) {g : GraphProd} {s t fuel : Nat}
    (hwf : WF g) (hn : NonNeg g) (hno : NoOverflow g s) (hs : s < g.Nodes.length)
    (ht : t < g.Nodes.length) (hf : g.Edges.length + g.Nodes.length + 2 ≤ fuel) {c : Int}
    {way : List Nat} (hrun : CalcDijkstra pop fuel g s t = Run.ok ⟨c, some way, none⟩) :
    ∀ fs, IsWalk g s fs t → c ≤ walkCost fs := by
  rcases CalcDijkstra_cases hps hwf hn hno hs ht hf with ⟨_, h⟩ | ⟨_, es, _, _, h, hmin⟩
  · rw [h] at hrun
    simp at hrun
  · rw [h] at hrun
    simp only [Run.ok.injEq, DijkstraResult.mk.injEq] at hrun
    rw [← hrun.1]
    exact hmin

/-- C2 (amended): for every successful call `CalcDijkstra(g, start, target)` on a
graph satisfying the CSR invariants, the returned node sequence is ordered from
target to start: its first node is target and its last node is start. On the spec's
example graph `CalcDijkstra(A, D)` returns cost 6 and the node sequence [D, C, A]. -/
theorem C2_way_runs_target_to_start (pop : Pop) (hps : PopSpec pop) (g : GraphProd)
    (s t fuel : Nat) (r : DijkstraResult)
    (hwf : WF g) (hrun : CalcDijkstra pop fuel g s t = Run.ok r) (herr : r.err = none) :
    (∃ way, r.way = some way ∧ way.head? = some t ∧ way.getLast? = some s) ∧
    (∀ f, 10 ≤ f →
      CalcDijkstra popMin f exampleGraph 0 3 = Run.ok ⟨6, some [3, 2, 0], none⟩) :=
  ⟨CalcDijkstra_way_ends hps hwf hrun herr, fun _ hf => CalcDijkstra_mono hf (by decide)⟩

theorem C2_way_runs_target_to_start_witness :
    (∃ way, (⟨6, some [3, 2, 0], none⟩ : DijkstraResult).way = some way ∧
      way.head? = some 3 ∧ way.getLast? = some 0) ∧
    (∀ f, 10 ≤ f → CalcDijkstra popMin f exampleGraph 0 3 = Run.ok ⟨6, some [3, 2, 0], none⟩) :=
  C2_way_runs_target_to_start popMin popMin_spec exampleGraph 0 3 10 ⟨6, some [3, 2, 0], none⟩ (by decide)
    (by decide) rfl

/-- C3 (as stated, refuted): on the road 0 → 1 → 2 with the non-negative edge
costs 2^62 and 2^62 - 1 a walk from 0 to 2 exists, and its cost sum, `MaxInt64`, does
not even wrap; yet `CalcDijkstra` returns the error "no way found" with cost
`MaxInt64` and a nil sequence, because a priority equal to `MaxInt64` is not below
the initial table cost and so is never pushed. -/
theorem C3_counterexample :
    WF sentinelGraph ∧ NonNeg sentinelGraph ∧ (0 : Nat) ≠ 2 ∧
    IsWalk sentinelGraph 0
      [⟨0, 0, 1, 4611686018427387904⟩, ⟨1, 1, 2, 4611686018427387903⟩] 2 ∧
    walkCost [⟨0, 0, 1, 4611686018427387904⟩, ⟨1, 1, 2, 4611686018427387903⟩] = MaxInt64 ∧
    ∀ fuel, 3 ≤ fuel →
      CalcDijkstra popMin fuel sentinelGraph 0 2 =
        Run.ok ⟨MaxInt64, none, some Err.noWayFound⟩ := by
  refine ⟨by decide, by decide, by decide, by decide, by decide, ?_⟩
  intro fuel hf
  exact CalcDijkstra_mono hf (by decide)

/-- C3 (amended): on a graph satisfying the CSR invariants, with non-negative edge
costs and path sums below the `int64` maximum, and for start ≠ target, `CalcDijkstra`
returns the error "no way found" with cost `MaxInt64` and a nil node sequence if and
only if no walk from start to target exists; in particular it returns that error
whenever no edge of the graph ends at the target. -/
theorem C3_no_way_iff_unreachable (pop : Pop) (hps : PopSpec pop) (g : GraphProd) (s t fuel : Nat) (hwf : WF g)
    (hn : NonNeg g) (hno : NoOverflow g s) (hs : s < g.Nodes.length)
    (ht : t < g.Nodes.length) (hst : s ≠ t)
    (hf : g.Edges.length + g.Nodes.length + 2 ≤ fuel) :
    (CalcDijkstra pop fuel g s t = Run.ok ⟨MaxInt64, none, some Err.noWayFound⟩ ↔
      ¬ ∃ es, IsWalk g s es t) ∧
    ((∀ e ∈ g.Edges, e.End ≠ t) →
      CalcDijkstra pop fuel g s t = Run.ok ⟨MaxInt64, none, some Err.noWayFound⟩) := by
  have hiff : CalcDijkstra pop fuel g s t = Run.ok ⟨MaxInt64, none, some Err.noWayFound⟩ ↔
      ¬ ∃ es, IsWalk g s es t := by
    rcases CalcDijkstra_cases hps hwf hn hno hs ht hf with ⟨hnone, hrun⟩ | ⟨prevs, es, htree, _, hrun, _⟩
    · exact ⟨fun _ => hnone, fun _ => hrun⟩
    · constructor
      · intro h
        rw [hrun] at h
        simp at h
      · intro h
        exact absurd ⟨es, htree.walk⟩ h
  refine ⟨hiff, ?_⟩
  intro hno_edge
  apply hiff.mpr
  rintro ⟨es, hw⟩
  obtain ⟨e, he, hend⟩ := IsWalk.last_edge hw hst
  exact hno_edge e he hend

theorem C3_no_way_iff_unreachable_witness :
    (CalcDijkstra popMin 10 exampleGraph 3 0 = Run.ok ⟨MaxInt64, none, some Err.noWayFound⟩ ↔
      ¬ ∃ es, IsWalk exampleGraph 3 es 0) ∧
    ((∀ e ∈ exampleGraph.Edges, e.End ≠ 0) →
      CalcDijkstra popMin 10 exampleGraph 3 0 = Run.ok ⟨MaxInt64, none, some Err.noWayFound⟩) :=
  C3_no_way_iff_unreachable popMin popMin_spec exampleGraph 3 0 10 (by decide) (by decide)
    (noOverflow_of_bound exampleGraph 3 5 (by decide) (by decide) (by decide)) (by decide)
    (by decide) (by decide) (by decide)

/-- C4: on a graph satisfying the CSR invariants, with non-negative,
non-overflowing edge costs, every successful call of `CalcDijkstra` returns a node
sequence (target first, start last) whose neighbouring nodes are each joined by an
edge of `g.Edges` leading from the node nearer the start to the node nearer the
target, and the costs of these edges, one per pair, sum to the returned cost. -/
theorem C4_way_edges_sum_to_cost (pop : Pop) (hps : PopSpec pop) (g : GraphProd) (s t fuel : Nat) (r : DijkstraResult)
    (hwf : WF g) (hn : NonNeg g) (hno : NoOverflow g s)
    (hrun : CalcDijkstra pop fuel g s t = Run.ok r) (herr : r.err = none) :
    ∃ way es, r.way = some way ∧ JoinedBy g way es ∧ walkCost es = r.cost := by
  have hs : s < g.Nodes.length := by
    cases hp : CalcDijkstraToMany pop fuel g s with
    | ok prevs => exact sssp_start_lt hps hp
    | indexOutOfRange => simp [CalcDijkstra, hp] at hrun
    | outOfFuel => simp [CalcDijkstra, hp] at hrun
  have hbig := CalcDijkstra_mono
    (Nat.le_max_left fuel (g.Edges.length + g.Nodes.length + 2)) hrun
  have hf := Nat.le_max_right fuel (g.Edges.length + g.Nodes.length + 2)
  have ht : t < g.Nodes.length := by
    by_contra hc
    obtain ⟨prevs, hsssp, hb, _⟩ := sssp_inv hps hwf hn hno hs
      (max fuel (g.Edges.length + g.Nodes.length + 2)) (by omega)
    have hnone : prevs[t]? = none := List.getElem?_eq_none (by rw [hb.len]; omega)
    simp [CalcDijkstra, hsssp, reconstruct, hnone] at hbig
  rcases CalcDijkstra_cases hps hwf hn hno hs ht hf with ⟨_, hrun2⟩ | ⟨prevs, es, htree, _, hrun2, _⟩
  · rw [hrun2] at hbig
    have := Run.ok.inj hbig
    subst this
    simp at herr
  · rw [hrun2] at hbig
    have := Run.ok.inj hbig
    subst this
    exact ⟨_, es.reverse, rfl, htree.joined, walkCost_reverse es⟩

theorem C4_way_edges_sum_to_cost_witness :
    ∃ way es, (⟨6, some [3, 2, 0], none⟩ : DijkstraResult).way = some way ∧
      JoinedBy exampleGraph way es ∧
      walkCost es = (⟨6, some [3, 2, 0], none⟩ : DijkstraResult).cost :=
  C4_way_edges_sum_to_cost popMin popMin_spec exampleGraph 0 3 10 ⟨6, some [3, 2, 0], none⟩
    (by decide) (by decide)
    (noOverflow_of_bound exampleGraph 0 5 (by decide) (by decide) (by decide)) (by decide) rfl

/-! ## The instances of the sort and of the path reconstruction -/

theorem swapAt_adjacent_perm {α : Type} : ∀ (xs : List α) (j : Nat),
    (swapAt xs (j + 1) j).Perm xs
  | [], j => by simp [swapAt]
  | [x], 0 => by simp [swapAt]
  | x :: y :: ys, 0 => by
    simp only [swapAt, List.getElem?_cons_succ, List.getElem?_cons_zero, List.set_cons_succ,
      List.set_cons_zero]
    exact List.Perm.swap x y ys
  | x :: xs, j + 1 => by
    have ih := swapAt_adjacent_perm xs j
    unfold swapAt at ih ⊢
    simp only [List.getElem?_cons_succ]
    cases h1 : xs[j + 1]? with
    | none => simp
    | some a =>
      cases h2 : xs[j]? with
      | none => simp
      | some b =>
        simp only [h1, h2] at ih
        simp only [List.set_cons_succ]
        exact List.Perm.cons x ih

theorem insertDown_perm {α : Type} (less : List α → Nat → Nat → Bool) :
    ∀ (j : Nat) (xs : List α), (insertDown less j xs).Perm xs
  | 0, xs => by simp [insertDown]
  | j + 1, xs => by
    simp only [insertDown]
    split
    · exact (insertDown_perm less j _).trans (swapAt_adjacent_perm xs j)
    · exact List.Perm.refl xs

theorem insertionLoop_perm {α : Type} (less : List α → Nat → Nat → Bool) :
    ∀ (cnt i : Nat) (xs : List α), (insertionLoop less i cnt xs).Perm xs
  | 0, _, xs => by simp [insertionLoop]
  | cnt + 1, i, xs => by
    simp only [insertionLoop]
    exact (insertionLoop_perm less cnt (i + 1) _).trans (insertDown_perm less i xs)

/-- Insertion sort only exchanges entries: whatever the comparator answers, the
sorted slice is a rearrangement of the slice it was given. -/
theorem insertionSort_spec {D : Type} : SortSpec (insertionSort : SortFn D) :=
  ⟨fun less xs => insertionLoop_perm less _ _ xs⟩

theorem findWayToGoal_spec : FindWaySpec findWayToGoal := by
  refine ⟨?_⟩
  intro s t g prevs c way _ h
  simp [findWayToGoal, h]

/-- On a table that records the walk `es` for the target, the reconstruction stops
once it has more tests than `es` has edges, and returns the nodes of the walk,
target first, with its cost. -/
theorem reconstruct_tree {g : GraphProd} {s t : Nat} {prevs : List Edge} {es : List Edge}
    (ht : Tree g s prevs t es) (hc : walkCost es ≠ MaxInt64) (htl : t < prevs.length)
    {f : Nat} (hf : es.length < f) :
    reconstruct f prevs s t =
      Run.ok ⟨walkCost es, some (t :: (es.map Edge.Start).reverse), none⟩ := by
  obtain ⟨pe, hpe, _, hend, hcost⟩ := ht.entry
  have hne : pe.Cost ≠ MaxInt64 := by rw [hcost]; exact hc
  have hway := wayLoop_tree ht f [pe.End] pe hpe hf
  have hendlt : pe.End < prevs.length := by rw [hend]; exact htl
  simp only [reconstruct, hpe, hne, if_false, hendlt, if_true, hway]
  simp [hend, hcost]

/-- What a path reconstruction meeting `FindWaySpec` returns for a committed target
on the table computed from its own start: the nodes of a walk from the start to the
target, target first, and the cost of that walk, which is the target's table cost. -/
theorem findWay_base {findWay : FindWay} (hfw : FindWaySpec findWay) {g : GraphProd}
    {p c : Nat} {prevs : List Edge} (hb : Base g p [] prevs)
    {e : Edge} (he : prevs[c]? = some e) (hne : e.Cost ≠ MaxInt64) :
    ∃ es, IsWalk g p es c ∧ walkCost es = e.Cost ∧
      (findWay p c g prevs).1 = ⟨c :: (es.map Edge.Start).reverse, e.Cost⟩ := by
  have hinit : e ≠ initEdge p := by
    intro hc
    rw [hc] at hne
    exact hne rfl
  obtain ⟨es, htree, hlen⟩ := hb.tree c e he hinit
  obtain ⟨pe, hpe, _, _, hcost⟩ := htree.entry
  rw [he] at hpe
  have : e = pe := Option.some.inj hpe
  subst this
  have hcl : c < prevs.length := by
    by_contra hc
    rw [List.getElem?_eq_none (by omega)] at he
    exact Option.noConfusion he
  have hrec := reconstruct_tree htree (by rw [← hcost]; exact hne) hcl
    (show es.length < prevs.length by rw [hb.len]; omega)
  have := hfw.chain p c g prevs _ _ hb.len hrec
  rw [hcost]
  exact ⟨es, htree.walk, rfl, this⟩

/-! ## Claims about `CalcStationDijkstraSnapshots` -/

theorem goalReachable_eq {prevs : List Edge} {t : Nat} {te : Edge} (R : Int)
    (hte : prevs[t]? = some te) :
    (goalReachable t prevs R = Run.ok true) = ¬ te.Cost > R := by
  by_cases h : te.Cost > R <;> simp [goalReachable, hte, h]

/-- The first pass of the router when the target's cost in the table of the start
is at most the range: the router returns the route the path reconstruction returns,
in start-to-target order, with that cost, and no visited station. This holds
whatever the edge costs are. -/
theorem router_direct {D : Type} [LinearOrder D] {pop : Pop} (hps : PopSpec pop)
    (sort : SortFn D) (findWay : FindWay) (g : GraphProd) (dist : Nat → D)
    (gasStations : List Nat) (s t fuel rounds : Nat) (rangeCm : Int) (config : Config)
    {prevs : List Edge} {te : Edge} {way : List Nat}
    (hp : CalcDijkstraToMany pop fuel g s = Run.ok prevs) (hte : prevs[t]? = some te)
    (hne : te.Cost ≠ MaxInt64) (hle : te.Cost ≤ rangeCm)
    (hway : (findWay s t g prevs).1 = ⟨way, te.Cost⟩) :
    CalcStationDijkstraSnapshots pop sort findWay fuel (rounds + 1) g dist gasStations s t rangeCm
        config =
      Run.ok ⟨some ⟨way.reverse, te.Cost⟩, some [], none⟩ := by
  have hrng := sssp_range hps hp te (mem_of_getElem? hte)
  have hgt : ¬ te.Cost > rangeCm := by omega
  have hwrap : wrap64 te.Cost = te.Cost := by
    have h1 := hrng.1
    have h2 := hrng.2
    unfold MaxInt64 at h2
    exact wrap64_eq h1 h2
  simp [CalcStationDijkstraSnapshots, stationLoop, hp, hte, hne, goalReachable_eq rangeCm hte,
    hgt, hway, hwrap]

/-- C6 (as stated, refuted): in `wrapGraph` all edge costs are non-negative and
the shortest path from 0 to 1 is the edge 0 → 1 of cost 5, within the range 10. The
router returns the route [0, 2, 3, 1] with `TotalCost = -2^63`: along 0 → 2 → 3 the
64-bit sum of 2^62 and 2^62 wraps to -2^63, which then beats the cost 5 at node 1. -/
theorem C6_counterexample :
    WF wrapGraph ∧ NonNeg wrapGraph ∧ IsWalk wrapGraph 0 [⟨0, 0, 1, 5⟩] 1 ∧
    walkCost [⟨0, 0, 1, 5⟩] = 5 ∧ (∀ fs, IsWalk wrapGraph 0 fs 1 → 5 ≤ walkCost fs) ∧
    CalcStationDijkstraSnapshots popMin insertionSort findWayToGoal 10 10 wrapGraph
        (fun _ => (0 : Nat)) [] 0 1 10 ⟨1, 1⟩ =
      Run.ok ⟨some ⟨[0, 2, 3, 1], -9223372036854775808⟩, some [], none⟩ := by
  refine ⟨by decide, by decide, by decide, by decide, ?_, by decide⟩
  intro fs hw
  have hnn : NonNeg wrapGraph := by decide
  cases fs with
  | nil => simp [IsWalk] at hw
  | cons e es =>
    obtain ⟨he, hs, hrest⟩ := hw
    have h1 : 0 ≤ walkCost es := walkCost_nonneg hnn hrest.mem
    have h2 : 5 ≤ e.Cost := by
      simp only [wrapGraph, List.mem_cons, List.mem_singleton, List.not_mem_nil,
        or_false] at he
      rcases he with rfl | rfl | rfl | rfl <;> simp at hs ⊢
    simp only [walkCost, List.map_cons, List.sum_cons] at h1 ⊢
    omega

/-- C6 (amended): on a graph satisfying the CSR invariants, with non-negative edge
costs whose path sums stay below the `int64` maximum, for every station set and
every configuration: if the shortest-path cost from start to target (the cost of a
walk `es` that no walk undercuts) is at most `rangeCm`, then `CalcDijkstra` returns
this cost with a node sequence `way`, and `CalcStationDijkstraSnapshots` returns
without error a route whose `TotalCost` is this cost and whose node sequence is
`way` in start-to-target order, together with an empty list of visited stations. -/
theorem C6_direct_route_when_in_range {D : Type} [LinearOrder D] (pop : Pop)
    (hps : PopSpec pop) (sort : SortFn D) (findWay : FindWay) (hfw : FindWaySpec findWay)
    (g : GraphProd) (dist : Nat → D) (gasStations : List Nat)
    (s t fuel rounds : Nat) (rangeCm : Int) (config : Config) (es : List Edge) (hwf : WF g)
    (hn : NonNeg g) (hno : NoOverflow g s) (hs : s < g.Nodes.length)
    (hwalk : IsWalk g s es t) (hmin : ∀ fs, IsWalk g s fs t → walkCost es ≤ walkCost fs)
    (hle : walkCost es ≤ rangeCm) (hf : g.Edges.length + g.Nodes.length + 2 ≤ fuel) :
    ∃ way, CalcDijkstra pop fuel g s t = Run.ok ⟨walkCost es, some way, none⟩ ∧
      way.head? = some t ∧ way.getLast? = some s ∧
      CalcStationDijkstraSnapshots pop sort findWay fuel (rounds + 1) g dist gasStations s t
          rangeCm config =
        Run.ok ⟨some ⟨way.reverse, walkCost es⟩, some [], none⟩ := by
  have ht : t < g.Nodes.length := IsWalk.target_lt hwf hwalk hs
  obtain ⟨prevs, hp, hb, hc⟩ := sssp_inv hps hwf hn hno hs fuel (by omega)
  obtain ⟨pt, hpt, hinit, hptle⟩ :=
    closed_walk hc es s t _ hb.start (initEdge_ne_startEdge s) hwalk
  obtain ⟨gs, htree, hlen⟩ := hb.tree t pt hpt hinit
  obtain ⟨pe, hpe, _, _, hcost⟩ := htree.entry
  rw [hpt] at hpe
  have : pt = pe := Option.some.inj hpe
  subst this
  have hstart : (startEdge s).Cost = 0 := rfl
  have hcw : walkCost gs = walkCost es := by
    have h1 := hmin gs htree.walk
    rw [hstart, hcost] at hptle
    omega
  have hlt : walkCost gs < MaxInt64 := hno gs t htree.walk (by omega)
  have htl : t < prevs.length := by rw [hb.len]; exact ht
  have hrec1 := reconstruct_tree htree (ne_of_lt hlt) htl (show gs.length < fuel by omega)
  have hrec2 := reconstruct_tree htree (ne_of_lt hlt) htl
    (show gs.length < prevs.length by rw [hb.len]; omega)
  have hrun : CalcDijkstra pop fuel g s t =
      Run.ok ⟨walkCost es, some (t :: (gs.map Edge.Start).reverse), none⟩ := by
    simp only [CalcDijkstra, hp, hrec1, hcw]
  obtain ⟨way, hway, hhead, hlast⟩ := CalcDijkstra_way_ends hps hwf hrun rfl
  have hw : way = t :: (gs.map Edge.Start).reverse := (Option.some.inj hway).symm
  have hfind := hfw.chain s t g prevs _ _ hb.len hrec2
  rw [← hcost] at hfind
  have hrouter := router_direct hps sort findWay g dist gasStations s t fuel rounds rangeCm
    config hp hpt (by rw [hcost]; exact ne_of_lt hlt) (by rw [hcost, hcw]; exact hle) hfind
  rw [hcost, hcw] at hrouter
  refine ⟨_, hrun, ?_, ?_, hrouter⟩
  · rw [← hw]; exact hhead
  · rw [← hw]; exact hlast

theorem C6_direct_route_when_in_range_witness :
    ∃ way, CalcDijkstra popMin 10 exampleGraph 0 3 =
        Run.ok ⟨walkCost [⟨1, 0, 2, 3⟩, ⟨3, 2, 3, 3⟩], some way, none⟩ ∧
      way.head? = some 3 ∧ way.getLast? = some 0 ∧
      CalcStationDijkstraSnapshots popMin insertionSort findWayToGoal 10 (0 + 1) exampleGraph
        (fun _ => (0 : Nat)) [1] 0 3 6 ⟨0, 1⟩ =
        Run.ok ⟨some ⟨way.reverse, walkCost [⟨1, 0, 2, 3⟩, ⟨3, 2, 3, 3⟩]⟩, some [], none⟩ :=
  C6_direct_route_when_in_range popMin popMin_spec insertionSort findWayToGoal findWayToGoal_spec
    exampleGraph (fun _ => (0 : Nat)) [1] 0 3 10 0
    6 ⟨0, 1⟩ [⟨1, 0, 2, 3⟩, ⟨3, 2, 3, 3⟩] (by decide) (by decide)
    (noOverflow_of_bound exampleGraph 0 5 (by decide) (by decide) (by decide)) (by decide)
    (by decide)
    (fun fs hw => by
      have h := CalcDijkstra_min popMin_spec (by decide) (by decide)
        (noOverflow_of_bound exampleGraph 0 5 (by decide) (by decide) (by decide)) (by decide)
        (by decide) (by decide)
        (show CalcDijkstra popMin 10 exampleGraph 0 3 = Run.ok ⟨6, some [3, 2, 0], none⟩
          by decide) fs hw
      simpa [walkCost] using h)
    (by decide) (by decide)

/-! ### Legs of the route -/

theorem LegsTo.add_leg {g : GraphProd} {R : Int} :
    ∀ {stations : List Nat} {a cur : Nat} {route : List Nat} {fs : List Edge} {c : Nat},
      LegsTo g R a stations cur route → IsWalk g cur fs c → walkCost fs ≤ R →
      LegsTo g R a (stations ++ [c]) c (route ++ fs.map Edge.Start)
  | [], a, cur, route, fs, c, h, hw, hc => by
    obtain ⟨h1, h2⟩ := h
    subst h1; subst h2
    exact ⟨fs, [], hw, hc, by simp, rfl, rfl⟩
  | d :: stations, a, cur, route, fs, c, h, hw, hc => by
    obtain ⟨gs, rest, h1, h2, h3, h4⟩ := h
    refine ⟨gs, rest ++ fs.map Edge.Start, h1, h2, ?_, LegsTo.add_leg h4 hw hc⟩
    rw [h3, List.append_assoc]

theorem LegsTo.finish {g : GraphProd} {R : Int} :
    ∀ {stations : List Nat} {a cur : Nat} {route : List Nat} {fs : List Edge} {t : Nat},
      LegsTo g R a stations cur route → IsWalk g cur fs t → walkCost fs ≤ R →
      Legs g R a stations t (route ++ (fs.map Edge.Start ++ [t]))
  | [], a, cur, route, fs, t, h, hw, hc => by
    obtain ⟨h1, h2⟩ := h
    subst h1; subst h2
    exact ⟨fs, hw, hc, by simp⟩
  | d :: stations, a, cur, route, fs, t, h, hw, hc => by
    obtain ⟨gs, rest, h1, h2, h3, h4⟩ := h
    refine ⟨gs, rest ++ (fs.map Edge.Start ++ [t]), h1, h2, ?_, LegsTo.finish h4 hw hc⟩
    rw [h3, List.append_assoc]

theorem sssp_base_of_ok {pop : Pop} (hps : PopSpec pop) {g : GraphProd} {p fuel : Nat} {prevs : List Edge} (hwf : WF g)
    (hn : NonNeg g) (hno : NoOverflow g p) (hp : p < g.Nodes.length)
    (h : CalcDijkstraToMany pop fuel g p = Run.ok prevs) : Base g p [] prevs := by
  obtain ⟨prevs1, hrun, hb, _⟩ := sssp_inv hps hwf hn hno hp (max fuel (g.Edges.length + 2))
    (Nat.le_max_right _ _)
  have h2 : CalcDijkstraToMany pop (max fuel (g.Edges.length + 2)) g p = Run.ok prevs :=
    dijkstraLoop_mono pop g fuel _ _ _ _ (Nat.le_max_left _ _) h
  rw [hrun] at h2
  rw [← Run.ok.inj h2]
  exact hb

theorem takeReachable_lt {D : Type} {wayCostEdges : List Edge} {rangeCm : Int}
    {distTable : List (IdDist D)} :
    ∀ (cnt i : Nat) (acc res : List Nat) (err : Option Err),
      takeReachable wayCostEdges rangeCm distTable i cnt acc = Run.ok (res, err) →
      (∀ x ∈ acc, ∃ e, wayCostEdges[x]? = some e ∧ e.Cost < rangeCm) →
      ∀ x ∈ res, ∃ e, wayCostEdges[x]? = some e ∧ e.Cost < rangeCm
  | 0, _, acc, res, err, h, hacc => by
    simp only [takeReachable, Run.ok.injEq, Prod.mk.injEq] at h
    rw [← h.1]; exact hacc
  | cnt + 1, i, acc, res, err, h, hacc => by
    cases hd : distTable[i]? with
    | none => simp [takeReachable, hd] at h
    | some x =>
      cases hx : wayCostEdges[x.id]? with
      | none => simp [takeReachable, hd, hx] at h
      | some e =>
        simp only [takeReachable, hd, hx] at h
        by_cases hlt : e.Cost < rangeCm
        · simp only [hlt, if_true] at h
          refine takeReachable_lt cnt (i + 1) _ res err h ?_
          intro y hy
          rcases List.mem_append.mp hy with hy | hy
          · exact hacc y hy
          · simp only [List.mem_singleton] at hy
            subst hy
            exact ⟨e, hx, hlt⟩
        · simp only [hlt, if_false, Run.ok.injEq, Prod.mk.injEq] at h
          rw [← h.1]; exact hacc

/-- Every id `getMinDistanceStations` returns has a table cost strictly below the
range, however the table was sorted. -/
theorem getMinDistanceStations_lt {D : Type} [LinearOrder D] {sort : SortFn D}
    {nodes : List Node}
    {dist : Nat → D} {wayCostEdges : List Edge} {stations : List Nat} {rangeCm count : Int}
    {res : List Nat} {err : Option Err}
    (h : getMinDistanceStations sort nodes dist wayCostEdges stations rangeCm count =
      Run.ok (res, err)) :
    ∀ x ∈ res, ∃ e, wayCostEdges[x]? = some e ∧ e.Cost < rangeCm := by
  unfold getMinDistanceStations at h
  split at h
  · exact takeReachable_lt _ _ _ _ _ h (fun x hx => by simp at hx)
  · exact Run.noConfusion h

theorem takeReachable_length {D : Type} {wayCostEdges : List Edge} {rangeCm : Int}
    {distTable : List (IdDist D)} :
    ∀ (cnt i : Nat) (acc res : List Nat) (err : Option Err),
      takeReachable wayCostEdges rangeCm distTable i cnt acc = Run.ok (res, err) →
      res.length ≤ acc.length + cnt
  | 0, _, acc, res, err, h => by
    simp only [takeReachable, Run.ok.injEq, Prod.mk.injEq] at h
    rw [← h.1]; omega
  | cnt + 1, i, acc, res, err, h => by
    cases hd : distTable[i]? with
    | none => simp [takeReachable, hd] at h
    | some x =>
      cases hx : wayCostEdges[x.id]? with
      | none => simp [takeReachable, hd, hx] at h
      | some e =>
        simp only [takeReachable, hd, hx] at h
        by_cases hlt : e.Cost < rangeCm
        · simp only [hlt, if_true] at h
          have := takeReachable_length cnt (i + 1) _ res err h
          simp only [List.length_append, List.length_singleton] at this
          omega
        · simp only [hlt, if_false, Run.ok.injEq, Prod.mk.injEq] at h
          rw [← h.1]; omega

/-- The selection never returns more ids than the count it is given. -/
theorem getMinDistanceStations_length {D : Type} [LinearOrder D] {sort : SortFn D}
    {nodes : List Node} {dist : Nat → D} {wayCostEdges : List Edge} {stations : List Nat}
    {rangeCm count : Int} {res : List Nat} {err : Option Err}
    (h : getMinDistanceStations sort nodes dist wayCostEdges stations rangeCm count =
      Run.ok (res, err)) : res.length ≤ count.toNat := by
  unfold getMinDistanceStations at h
  split at h
  · simpa using takeReachable_length _ _ _ _ _ h
  · exact Run.noConfusion h

/-- Visiting a batch of at most one candidate from the position whose table is used
keeps the invariant of the router. -/
theorem visitBatch_inv {findWay : FindWay} (hfw : FindWaySpec findWay) {g : GraphProd}
    {R : Int} (hR : R ≤ MaxInt64) {s p : Nat} {prevs : List Edge} (hb : Base g p [] prevs)
    {cands : List Nat} {route : NodeRoute} {sts : List Nat} {stack : List Snapshot}
    {res : Nat × NodeRoute × List Nat × List Snapshot} (hone : cands.length ≤ 1)
    (hc : ∀ c ∈ cands, ∃ e, prevs[c]? = some e ∧ e.Cost < R)
    (hinv : RouterInv g R s p route sts stack)
    (h : visitBatch findWay g prevs cands p route sts stack = Run.ok res) :
    RouterInv g R s res.1 res.2.1 res.2.2.1 res.2.2.2 := by
  cases cands with
  | nil =>
    simp only [visitBatch, Run.ok.injEq] at h
    rw [← h]; exact hinv
  | cons c rest =>
    have hrest : rest = [] := by
      cases rest with
      | nil => rfl
      | cons d ds => simp at hone
    subst hrest
    obtain ⟨e, he, hlt⟩ := hc c (List.mem_cons_self _ _)
    have hne : e.Cost ≠ MaxInt64 := by omega
    by_cases hcn : c < g.Nodes.length
    · obtain ⟨fs, hwalk, hcost, hroute⟩ := findWay_base hfw hb he hne
      simp only [visitBatch, hcn, if_true, hroute, Run.ok.injEq] at h
      have hdrop : ((c :: (fs.map Edge.Start).reverse).drop 1).reverse = fs.map Edge.Start := by
        simp
      have hlegs : LegsTo g R s (sts ++ [c]) c (route.Route ++ fs.map Edge.Start) :=
        LegsTo.add_leg hinv.2.1 hwalk (by omega)
      rw [← h]
      simp only [hdrop]
      refine ⟨hcn, hlegs, ?_⟩
      intro snap hsnap
      rcases List.mem_cons.mp hsnap with rfl | hsnap
      · exact ⟨hcn, hlegs⟩
      · exact hinv.2.2 snap hsnap
    · simp [visitBatch, hcn] at h

theorem stationLoop_legs {pop : Pop} (hps : PopSpec pop) {D : Type} [LinearOrder D]
    {sort : SortFn D} {findWay : FindWay} (hfw : FindWaySpec findWay) {g : GraphProd}
    (hwf : WF g) (hn : NonNeg g) (hno : ∀ p, NoOverflow g p) {R : Int} (hR : R ≤ MaxInt64)
    {s t fuel : Nat} {dist : Nat → D} {gasStations : List Nat} {config : Config}
    (hper : config.DijkstraMaxstationsPerStep ≤ 1) :
    ∀ (rounds ps : Nat) (route : NodeRoute) (sts : List Nat) (stack : List Snapshot)
      (counter : Int) (r : NodeRoute) (stations : List Nat),
      RouterInv g R s ps route sts stack →
      stationLoop pop sort findWay fuel g dist gasStations t R config rounds ps route sts stack
          counter =
        Run.ok ⟨some r, some stations, none⟩ →
      Legs g R s stations t r.Route
  | 0, _, _, _, _, _, _, _, _, h => by simp [stationLoop] at h
  | rounds + 1, ps, route, sts, stack, counter, r, stations, hinv, h => by
    simp only [stationLoop] at h
    cases hp : CalcDijkstraToMany pop fuel g ps with
    | indexOutOfRange => simp [hp] at h
    | outOfFuel => simp [hp] at h
    | ok prevs =>
      simp only [hp] at h
      have hb := sssp_base_of_ok hps hwf hn (hno ps) hinv.1 hp
      cases hte : prevs[t]? with
      | none => simp [hte] at h
      | some te =>
        simp only [hte] at h
        by_cases hmax : te.Cost = MaxInt64
        · simp [hmax] at h
        · simp only [hmax, if_false, goalReachable_eq R hte] at h
          by_cases hgt : te.Cost > R
          · have hgt2 : ¬ ¬ te.Cost > R := not_not.mpr hgt
            simp only [hgt2, if_false] at h
            by_cases hcnt : counter + 1 > config.DijkstraMaxStations
            · simp [hcnt] at h
            · simp only [hcnt, if_false] at h
              cases hsel : getMinDistanceStations sort g.Nodes dist prevs gasStations R
                  config.DijkstraMaxstationsPerStep with
              | indexOutOfRange => simp [hsel] at h
              | outOfFuel => simp [hsel] at h
              | ok sel =>
                obtain ⟨minStations, serr⟩ := sel
                simp only [hsel] at h
                have hlt := getMinDistanceStations_lt hsel
                have hone : minStations.length ≤ 1 := by
                  have := getMinDistanceStations_length hsel
                  omega
                by_cases hempty : minStations.length ≤ 0
                · simp only [hempty, if_true] at h
                  cases stack with
                  | nil => simp [stackPop] at h
                  | cons snap stack1 =>
                    simp only [stackPop] at h
                    obtain ⟨h1, h2⟩ := hinv.2.2 snap (List.mem_cons_self _ _)
                    exact stationLoop_legs hps hfw hwf hn hno hR hper rounds _ _ _ _ _ r stations
                      ⟨h1, h2, fun x hx => hinv.2.2 x (List.mem_cons_of_mem _ hx)⟩ h
                · simp only [hempty, if_false] at h
                  cases hvb : visitBatch findWay g prevs minStations ps route sts stack with
                  | indexOutOfRange => simp [hvb] at h
                  | outOfFuel => simp [hvb] at h
                  | ok res =>
                    obtain ⟨ps1, route1, sts1, stack1⟩ := res
                    simp only [hvb] at h
                    have hinv1 := visitBatch_inv hfw hR hb hone hlt hinv hvb
                    exact stationLoop_legs hps hfw hwf hn hno hR hper rounds _ _ _ _ _ r stations
                      hinv1 h
          · have hgt2 : ¬ te.Cost > R := hgt
            simp only [hgt2, not_false_eq_true, if_true] at h
            obtain ⟨fs, hwalk, hcost, hroute⟩ := findWay_base hfw hb hte hmax
            simp only [hroute, Run.ok.injEq, StationResult.mk.injEq, Option.some.injEq] at h
            rw [← h.2.1, ← h.1]
            have hrev : (t :: (fs.map Edge.Start).reverse).reverse = fs.map Edge.Start ++ [t] := by
              simp
            simp only [hrev]
            exact LegsTo.finish hinv.2.1 hwalk (by omega)

/-- C5 (as stated, refuted): on `overflowGraph`, whose two edges cost 2^62 each,
with range 100 the router returns successfully the route [0, 1, 2] with no station
visited, while every walk from the start 0 to the target 2 costs more than 100: the
64-bit sum of the two costs wraps to -2^63, which passes the range test. -/
theorem C5_counterexample :
    WF overflowGraph ∧ NonNeg overflowGraph ∧
    CalcStationDijkstraSnapshots popMin insertionSort findWayToGoal 10 10 overflowGraph
        (fun _ => (0 : Nat)) [] 0 2 100 ⟨1, 1⟩ =
      Run.ok ⟨some ⟨[0, 1, 2], -9223372036854775808⟩, some [], none⟩ ∧
    (∀ fs, IsWalk overflowGraph 0 fs 2 → walkCost fs > 100) ∧
    ¬ Legs overflowGraph 100 0 [] 2 [0, 1, 2] := by
  have hall : ∀ fs, IsWalk overflowGraph 0 fs 2 → walkCost fs > 100 := by
    intro fs hw
    have hnn : NonNeg overflowGraph := by decide
    cases fs with
    | nil => simp [IsWalk] at hw
    | cons e es =>
      obtain ⟨he, hs, hrest⟩ := hw
      have he1 : e = ⟨0, 0, 1, 4611686018427387904⟩ := by
        simp only [overflowGraph, List.mem_cons, List.mem_singleton, List.not_mem_nil,
          or_false] at he
        rcases he with rfl | rfl
        · rfl
        · simp at hs
      subst he1
      cases es with
      | nil => simp [IsWalk] at hrest
      | cons f fs =>
        obtain ⟨hf, hs2, hrest2⟩ := hrest
        have h0 : 0 ≤ f.Cost := hnn f hf
        have h1 : 0 ≤ walkCost fs := walkCost_nonneg hnn hrest2.mem
        simp only [walkCost, List.map_cons, List.sum_cons] at h1 ⊢
        omega
  refine ⟨by decide, by decide, by decide, hall, ?_⟩
  rintro ⟨fs, hw, hc, _⟩
  have := hall fs hw
  omega

/-- C5 (amended): on a graph satisfying the CSR invariants, with non-negative
edge costs whose path sums stay below the `int64` maximum, and with at most one
candidate per step (`DijkstraMaxstationsPerStep ≤ 1`), whenever
`CalcStationDijkstraSnapshots` returns successfully no uninterrupted leg of the
returned route exceeds the range: the route splits into the sub-path from start to
the first visited station, the sub-paths between consecutive visited stations and
the sub-path from the last visited station to target, each following edges of the
graph whose costs sum to at most `rangeCm`. This holds for every way `sort.Slice`
may order the table and for every `findWayToGoal` that is the path reconstruction of
`CalcDijkstra` where that reconstruction stops within node count steps. -/
theorem C5_legs_within_range (pop : Pop) (hps : PopSpec pop) {D : Type} [LinearOrder D]
    (sort : SortFn D) (findWay : FindWay) (hfw : FindWaySpec findWay) (g : GraphProd)
    (dist : Nat → D)
    (gasStations : List Nat) (s t fuel rounds : Nat) (rangeCm : Int) (config : Config)
    (r : NodeRoute) (stations : List Nat) (hwf : WF g) (hn : NonNeg g)
    (hno : ∀ p, NoOverflow g p) (hR : rangeCm ≤ MaxInt64)
    (hper : config.DijkstraMaxstationsPerStep ≤ 1)
    (hrun : CalcStationDijkstraSnapshots pop sort findWay fuel rounds g dist gasStations s t
      rangeCm config = Run.ok ⟨some r, some stations, none⟩) :
    Legs g rangeCm s stations t r.Route := by
  unfold CalcStationDijkstraSnapshots at hrun
  have hs : s < g.Nodes.length := by
    cases rounds with
    | zero => simp [stationLoop] at hrun
    | succ k =>
      simp only [stationLoop] at hrun
      cases hp : CalcDijkstraToMany pop fuel g s with
      | indexOutOfRange => simp [hp] at hrun
      | outOfFuel => simp [hp] at hrun
      | ok prevs => exact sssp_start_lt hps hp
  exact stationLoop_legs hps hfw hwf hn hno hR hper rounds s ⟨[], 0⟩ [] [] 0 r stations
    ⟨hs, ⟨rfl, rfl⟩, fun x hx => by simp at hx⟩ hrun

theorem C5_legs_within_range_witness :
    Legs chainGraph 7 0 [1, 2] 3 (⟨[0, 1, 2, 3], 11⟩ : NodeRoute).Route :=
  C5_legs_within_range popMin popMin_spec insertionSort findWayToGoal findWayToGoal_spec
    chainGraph chainDist [1, 2] 0 3 10 10 7 ⟨2, 1⟩ ⟨[0, 1, 2, 3], 11⟩ [1, 2]
    (by decide) (by decide)
    (fun p => noOverflow_of_bound chainGraph p 5 (by decide) (by decide) (by decide))
    (by decide) (by decide) (by decide)

/-- C7 (code at the failing input): in `detourGraph` the only station, node 1, is
within range 6 of the start and the target is within range of it. With the station
set {1}, `getMinDistanceStations` returns node 2, which is not in the station set,
and the router, sent to that dead end, returns "no way found" instead of the
two-leg route through the station. -/
theorem C7_selection_ignores_station_set :
    CalcDijkstraToMany popMin 10 detourGraph 0 = Run.ok detourTable ∧
    getMinDistanceStations insertionSort detourGraph.Nodes detourDist detourTable [1] 6 1 =
      Run.ok ([2], none) ∧
    2 ∉ [1] ∧
    CalcStationDijkstraSnapshots popMin insertionSort findWayToGoal 10 10 detourGraph detourDist
        [1] 0 3 6 ⟨5, 1⟩ =
      Run.ok ⟨none, none, some Err.noWayFound⟩ := by
  decide

/-- C8 (code at the failing input): on `chainGraph` with range 7, the station
ceiling `DijkstraMaxStations = 1` and `DijkstraMaxstationsPerStep = 2`, the router
returns successfully with the two visited stations 1 and 2. -/
theorem C8_two_stations_under_ceiling_one :
    CalcStationDijkstraSnapshots popMin insertionSort findWayToGoal 10 10 chainGraph chainDist
        [1, 2] 0 3 7 ⟨1, 2⟩ =
      Run.ok ⟨some ⟨[0, 1, 2, 3], 14⟩, some [1, 2], none⟩ ∧
    (([1, 2] : List Nat).length : Int) > (⟨1, 2⟩ : Config).DijkstraMaxStations := by
  decide

/-- C9 (code at the failing input): with the cost table of `pairGraph` from node
1, range 50 and count 2, two candidates (nodes 1 and 2) have a committed cost below
the range, node 2 being the nearer to the target; `getMinDistanceStations` returns
the single id 1 together with the error "no more reachable stations". -/
theorem C9_sort_reads_costs_by_position :
    CalcDijkstraToMany popMin 10 pairGraph 1 = Run.ok pairTable ∧
    costAt pairTable 1 < 50 ∧ costAt pairTable 2 < 50 ∧ pairDist 2 < pairDist 1 ∧
    getMinDistanceStations insertionSort pairGraph.Nodes pairDist pairTable [1, 2] 50 2 =
      Run.ok ([1], some Err.noMoreReachableStations) := by
  decide

/-! ## More claims about `CalcStationDijkstraSnapshots` -/

theorem chain_walk_cost : ∀ es, IsWalk chainGraph 0 es 3 → walkCost es = 11 := by
  intro es hw
  have hedges : ∀ e ∈ chainGraph.Edges,
      e = ⟨0, 0, 1, 3⟩ ∨ e = ⟨1, 1, 2, 3⟩ ∨ e = ⟨2, 2, 3, 5⟩ := by
    intro e he
    simpa [chainGraph] using he
  cases es with
  | nil => simp [IsWalk] at hw
  | cons e1 es =>
    obtain ⟨he1, hs1, hw⟩ := hw
    rcases hedges e1 he1 with rfl | rfl | rfl <;> simp at hs1
    cases es with
    | nil => simp [IsWalk] at hw
    | cons e2 es =>
      obtain ⟨he2, hs2, hw⟩ := hw
      rcases hedges e2 he2 with rfl | rfl | rfl <;> simp at hs2
      cases es with
      | nil => simp [IsWalk] at hw
      | cons e3 es =>
        obtain ⟨he3, hs3, hw⟩ := hw
        rcases hedges e3 he3 with rfl | rfl | rfl <;> simp at hs3
        cases es with
        | nil => simp [walkCost]
        | cons e4 es =>
          obtain ⟨he4, hs4, _⟩ := hw
          rcases hedges e4 he4 with rfl | rfl | rfl <;> simp at hs4

/-- C11 (code at the failing input): on `chainGraph` with range 7 and two candidates
per step the router returns successfully the route [0, 1, 2, 3] through the stations
1 and 2 with `TotalCost = 14`. The route traverses the edges 0 → 1, 1 → 2 and 2 → 3,
whose costs sum to 11, and every walk of the graph from 0 to 3 costs 11: for the
second candidate of the batch the leg 1 → 2 of cost 3 is appended, but the cost
added is the candidate's cost 6 in the table computed at node 0. -/
theorem C11_total_cost_overcounts :
    WF chainGraph ∧ NonNeg chainGraph ∧
    CalcStationDijkstraSnapshots popMin insertionSort findWayToGoal 10 10 chainGraph chainDist
        [1, 2] 0 3 7 ⟨5, 2⟩ =
      Run.ok ⟨some ⟨[0, 1, 2, 3], 14⟩, some [1, 2], none⟩ ∧
    IsWalk chainGraph 0 [⟨0, 0, 1, 3⟩, ⟨1, 1, 2, 3⟩, ⟨2, 2, 3, 5⟩] 3 ∧
    ([0, 1, 2, 3] : List Nat) =
      ([⟨0, 0, 1, 3⟩, ⟨1, 1, 2, 3⟩, ⟨2, 2, 3, 5⟩] : List Edge).map Edge.Start ++ [3] ∧
    walkCost [⟨0, 0, 1, 3⟩, ⟨1, 1, 2, 3⟩, ⟨2, 2, 3, 5⟩] = 11 ∧
    (∀ es, IsWalk chainGraph 0 es 3 → walkCost es = 11) ∧
    CalcDijkstraToMany popMin 10 chainGraph 0 =
      Run.ok [⟨-1, 0, 0, 0⟩, ⟨0, 0, 1, 3⟩, ⟨1, 1, 2, 6⟩, ⟨2, 2, 3, 11⟩] ∧
    findWayToGoal 1 2 chainGraph [⟨-1, 0, 0, 0⟩, ⟨0, 0, 1, 3⟩, ⟨1, 1, 2, 6⟩, ⟨2, 2, 3, 11⟩] =
      (⟨[2, 1], 6⟩, none) :=
  ⟨by decide, by decide, by decide, by decide, by decide, by decide, chain_walk_cost,
    by decide, by decide⟩

/-- C12 (code at the failing input): in `backtrackGraph` with range 7 exactly the
stations 1 and 2 are within range of the start 0 (costs 3 and 4); the target 3 is 8
away from the start and 10 away from station 1, but 4 away from station 2. With the
ceiling 2 and station 1 ranked first the router returns "no way found" after visiting
station 1 twice: from station 1 the candidate selected is station 1 itself, at cost
0, so the candidate list is never empty and no snapshot is ever restored. With
station 2 ranked first it returns the route [0, 2, 3]. -/
theorem C12_dead_end_first_finds_no_route :
    WF backtrackGraph ∧ NonNeg backtrackGraph ∧
    CalcDijkstraToMany popMin 10 backtrackGraph 0 =
      Run.ok [⟨-1, 0, 0, 0⟩, ⟨0, 0, 1, 3⟩, ⟨1, 0, 2, 4⟩, ⟨3, 2, 3, 8⟩] ∧
    CalcDijkstraToMany popMin 10 backtrackGraph 1 =
      Run.ok [⟨-1, 1, 1, MaxInt64⟩, ⟨-1, 1, 1, 0⟩, ⟨-1, 1, 1, MaxInt64⟩, ⟨2, 1, 3, 10⟩] ∧
    CalcDijkstraToMany popMin 10 backtrackGraph 2 =
      Run.ok [⟨-1, 2, 2, MaxInt64⟩, ⟨-1, 2, 2, MaxInt64⟩, ⟨-1, 2, 2, 0⟩, ⟨3, 2, 3, 4⟩] ∧
    getMinDistanceStations insertionSort backtrackGraph.Nodes chainDist
      [⟨-1, 1, 1, MaxInt64⟩, ⟨-1, 1, 1, 0⟩, ⟨-1, 1, 1, MaxInt64⟩, ⟨2, 1, 3, 10⟩] [1, 2] 7 1 =
      Run.ok ([1], none) ∧
    CalcStationDijkstraSnapshots popMin insertionSort findWayToGoal 10 10 backtrackGraph chainDist
        [1, 2] 0 3 7 ⟨2, 1⟩ =
      Run.ok ⟨none, some [1, 1], some Err.noWayFound⟩ ∧
    CalcStationDijkstraSnapshots popMin insertionSort findWayToGoal 10 10 backtrackGraph
        backtrackDist [1, 2] 0 3 7 ⟨2, 1⟩ =
      Run.ok ⟨some ⟨[0, 2, 3], 8⟩, some [2], none⟩ := by
  decide

/-! ## Snapshots and the backing arrays they share -/

theorem take_set_succ {l : List Nat} {n : Nat} (x : Nat) (h : n < l.length) :
    (l.set n x).take (n + 1) = l.take n ++ [x] := by
  induction l generalizing n with
  | nil => simp at h
  | cons a l ih =>
    cases n with
    | zero => simp
    | succ n =>
      simp only [List.set_cons_succ, List.take_succ_cons, List.cons_append, List.cons.injEq,
        true_and]
      exact ih (by simpa using h)

theorem take_set_le {l : List Nat} {n k : Nat} (x : Nat) (h : k ≤ n) :
    (l.set n x).take k = l.take k := by
  induction l generalizing n k with
  | nil => simp
  | cons a l ih =>
    cases k with
    | zero => simp
    | succ k =>
      cases n with
      | zero => omega
      | succ n =>
        simp only [List.set_cons_succ, List.take_succ_cons, List.cons.injEq, true_and]
        exact ih (by omega)

theorem getD_set_self {heap : Heap} {i : Nat} (a : List Nat) (h : i < heap.length) :
    (heap.set i a).getD i [] = a := by
  simp [List.getD_eq_getElem?_getD, List.getElem?_set_self h]

theorem getD_set_ne {heap : Heap} {i j : Nat} (a : List Nat) (h : i ≠ j) :
    (heap.set i a).getD j [] = heap.getD j [] := by
  simp [List.getD_eq_getElem?_getD, List.getElem?_set_ne h]

theorem getD_append_lt {heap : Heap} {j : Nat} (a : List Nat) (h : j < heap.length) :
    (heap ++ [a]).getD j [] = heap.getD j [] := by
  simp [List.getD_eq_getElem?_getD, List.getElem?_append_left h]

theorem getD_append_self (heap : Heap) (a : List Nat) :
    (heap ++ [a]).getD heap.length [] = a := by
  simp [List.getD_eq_getElem?_getD]

theorem readSlice_length {heap : Heap} {s : Slice} (h : SliceOK heap s) :
    (readSlice heap s).length = s.len := by
  unfold readSlice
  rw [List.length_take]
  by_cases hc : 0 < s.cap
  · have := (h.2 hc).2
    have := h.1
    omega
  · have := h.1
    omega

theorem goAppend_read (grow : Nat → Nat) {heap : Heap} {s : Slice} (x : Nat)
    (h : SliceOK heap s) :
    readSlice (goAppend grow heap s x).1 (goAppend grow heap s x).2 = readSlice heap s ++ [x] := by
  unfold goAppend
  by_cases hlt : s.len < s.cap
  · obtain ⟨h1, h2⟩ := h.2 (by omega)
    simp only [hlt, if_true, readSlice]
    rw [getD_set_self _ h1]
    exact take_set_succ x (by omega)
  · simp only [hlt, if_false]
    have hl := readSlice_length h
    have key : ∀ (A R : List Nat), (A ++ x :: R).take (A.length + 1) = A ++ [x] := by
      intro A R
      rw [List.take_append]
      simp
    have h3 := key (readSlice heap s)
      (List.replicate (max (grow s.cap) (s.len + 1) - (s.len + 1)) 0)
    rw [hl] at h3
    show ((heap ++ [_]).getD heap.length []).take (s.len + 1) = _
    rw [getD_append_self]
    exact h3

theorem goAppend_ok (grow : Nat → Nat) {heap : Heap} {s : Slice} (x : Nat)
    (h : SliceOK heap s) :
    SliceOK (goAppend grow heap s x).1 (goAppend grow heap s x).2 := by
  unfold goAppend
  by_cases hlt : s.len < s.cap
  · obtain ⟨h1, h2⟩ := h.2 (by omega)
    simp only [hlt, if_true]
    refine ⟨by simp only; omega, fun _ => ⟨by simpa using h1, ?_⟩⟩
    rw [getD_set_self _ h1]
    simpa using h2
  · simp only [hlt, if_false]
    refine ⟨by simp only; omega, fun _ => ⟨by simp, ?_⟩⟩
    rw [getD_append_self]
    have hl := readSlice_length h
    simp only [List.length_append, hl, List.length_cons, List.length_replicate]
    omega

theorem goAppend_frame (grow : Nat → Nat) {heap : Heap} {s t : Slice} (x : Nat)
    (hs : SliceOK heap s) (ht : SliceOK heap t) (hb : Below t s) :
    readSlice (goAppend grow heap s x).1 t = readSlice heap t ∧
    SliceOK (goAppend grow heap s x).1 t ∧ Below t (goAppend grow heap s x).2 := by
  unfold goAppend
  by_cases hlt : s.len < s.cap
  · obtain ⟨h1, h2⟩ := hs.2 (by omega)
    simp only [hlt, if_true]
    by_cases harr : s.arr = t.arr
    · have hle : t.len ≤ s.len := hb harr.symm
      refine ⟨?_, ⟨ht.1, fun hc => ⟨by simpa using (ht.2 hc).1, ?_⟩⟩, fun _ => by simp only; omega⟩
      · unfold readSlice
        rw [← harr, getD_set_self _ h1]
        exact take_set_le x hle
      · rw [← harr, getD_set_self _ h1, List.length_set]
        have h3 := (ht.2 hc).2
        rw [← harr] at h3
        exact h3
    · refine ⟨?_, ⟨ht.1, fun hc => ⟨by simpa using (ht.2 hc).1, ?_⟩⟩,
        fun h => absurd h.symm harr⟩
      · unfold readSlice
        rw [getD_set_ne _ harr]
      · rw [getD_set_ne _ harr]
        exact (ht.2 hc).2
  · simp only [hlt, if_false]
    by_cases hc : 0 < t.cap
    · obtain ⟨h1, h2⟩ := ht.2 hc
      refine ⟨?_, ⟨ht.1, fun _ => ⟨by simp; omega, ?_⟩⟩, fun h => ?_⟩
      · unfold readSlice
        rw [getD_append_lt _ h1]
      · rw [getD_append_lt _ h1]
        exact h2
      · simp only at h
        omega
    · have h0 : t.len = 0 := by
        have := ht.1
        omega
      refine ⟨?_, ⟨ht.1, fun h => absurd h hc⟩, fun _ => by simp only; omega⟩
      unfold readSlice
      simp [h0]

theorem appendAll_read (grow : Nat → Nat) : ∀ (xs : List Nat) (heap : Heap) (s : Slice),
    SliceOK heap s →
    readSlice (appendAll grow heap s xs).1 (appendAll grow heap s xs).2 = readSlice heap s ++ xs ∧
    SliceOK (appendAll grow heap s xs).1 (appendAll grow heap s xs).2
  | [], heap, s, h => by simp [appendAll, h]
  | x :: xs, heap, s, h => by
    obtain ⟨h1, h2⟩ := appendAll_read grow xs _ _ (goAppend_ok grow x h)
    simp only [appendAll]
    refine ⟨?_, h2⟩
    rw [h1, goAppend_read grow x h]
    simp

theorem appendAll_frame (grow : Nat → Nat) : ∀ (xs : List Nat) (heap : Heap) (s t : Slice),
    SliceOK heap s → SliceOK heap t → Below t s →
    readSlice (appendAll grow heap s xs).1 t = readSlice heap t ∧
    SliceOK (appendAll grow heap s xs).1 t ∧ Below t (appendAll grow heap s xs).2
  | [], heap, s, t, _, ht, hb => by simp [appendAll, ht, hb]
  | x :: xs, heap, s, t, hs, ht, hb => by
    obtain ⟨h1, h2, h3⟩ := goAppend_frame grow x hs ht hb
    obtain ⟨h4, h5, h6⟩ := appendAll_frame grow xs _ _ t (goAppend_ok grow x hs) h2 h3
    simp only [appendAll]
    exact ⟨by rw [h4, h1], h5, h6⟩

theorem StackInv.below {st : RouterM} (h : StackInv st) :
    ∀ e ∈ st.stack, Below e.snap.PartialRoute.Route st.route.Route ∧
      Below e.snap.Stations st.stations := by
  intro e he
  have := (List.pairwise_cons.mp h.chain).1 e.snap (List.mem_map_of_mem _ he)
  exact this

/-- Visiting a candidate (appending its leg and the station, pushing the snapshot)
keeps the invariant of the stack. -/
theorem StackInv.visit {st : RouterM} (h : StackInv st) (grow : Nat → Nat) (xs : List Nat)
    (node : Nat) (c k : Int) :
    StackInv ⟨(appendAll grow st.routeHeap st.route.Route xs).1,
      (goAppend grow st.stationHeap st.stations node).1, node,
      ⟨(appendAll grow st.routeHeap st.route.Route xs).2, c⟩,
      (goAppend grow st.stationHeap st.stations node).2,
      ⟨⟨node, ⟨(appendAll grow st.routeHeap st.route.Route xs).2, c⟩,
          (goAppend grow st.stationHeap st.stations node).2⟩,
        readSnapshot (appendAll grow st.routeHeap st.route.Route xs).1
          (goAppend grow st.stationHeap st.stations node).1
          ⟨node, ⟨(appendAll grow st.routeHeap st.route.Route xs).2, c⟩,
            (goAppend grow st.stationHeap st.stations node).2⟩⟩ :: st.stack, k⟩ := by
  have hr := (appendAll_read grow xs _ _ h.route).2
  have hs := goAppend_ok grow node h.stations
  have hold : ∀ e ∈ st.stack,
      (readSlice (appendAll grow st.routeHeap st.route.Route xs).1 e.snap.PartialRoute.Route =
        readSlice st.routeHeap e.snap.PartialRoute.Route ∧
       SliceOK (appendAll grow st.routeHeap st.route.Route xs).1 e.snap.PartialRoute.Route ∧
       Below e.snap.PartialRoute.Route (appendAll grow st.routeHeap st.route.Route xs).2) ∧
      (readSlice (goAppend grow st.stationHeap st.stations node).1 e.snap.Stations =
        readSlice st.stationHeap e.snap.Stations ∧
       SliceOK (goAppend grow st.stationHeap st.stations node).1 e.snap.Stations ∧
       Below e.snap.Stations (goAppend grow st.stationHeap st.stations node).2) := by
    intro e he
    obtain ⟨h1, h2, _⟩ := h.entry e he
    obtain ⟨h3, h4⟩ := h.below e he
    exact ⟨appendAll_frame grow xs _ _ _ h.route h1 h3, goAppend_frame grow node h.stations h2 h4⟩
  refine ⟨hr, hs, ?_, ?_⟩
  · intro e he
    rcases List.mem_cons.mp he with rfl | he
    · exact ⟨hr, hs, rfl⟩
    · obtain ⟨⟨a1, a2, _⟩, ⟨b1, b2, _⟩⟩ := hold e he
      refine ⟨a2, b2, ?_⟩
      rw [← (h.entry e he).2.2]
      simp only [readSnapshot, a1, b1]
  · have htail : List.Pairwise
        (fun a b : SnapshotM => Below b.PartialRoute.Route a.PartialRoute.Route ∧
          Below b.Stations a.Stations) (st.stack.map Pushed.snap) :=
      (List.pairwise_cons.mp h.chain).2
    have hhead : ∀ b ∈ st.stack.map Pushed.snap,
        Below b.PartialRoute.Route (appendAll grow st.routeHeap st.route.Route xs).2 ∧
        Below b.Stations (goAppend grow st.stationHeap st.stations node).2 := by
      intro b hb
      obtain ⟨e, he, rfl⟩ := List.mem_map.mp hb
      obtain ⟨⟨_, _, a3⟩, ⟨_, _, b3⟩⟩ := hold e he
      exact ⟨a3, b3⟩
    simp only [List.map_cons]
    refine List.pairwise_cons.mpr ⟨?_, List.pairwise_cons.mpr ⟨hhead, htail⟩⟩
    intro b hb
    rcases List.mem_cons.mp hb with rfl | hb
    · exact ⟨fun _ => le_refl _, fun _ => le_refl _⟩
    · exact hhead b hb

/-- Restoring the snapshot on top of the stack keeps the invariant of the stack. -/
theorem StackInv.restore {st : RouterM} (h : StackInv st) {top : Pushed} {stack1 : List Pushed}
    (hs : st.stack = top :: stack1) (k : Int) :
    StackInv ⟨st.routeHeap, st.stationHeap, top.snap.PartialStart, top.snap.PartialRoute,
      top.snap.Stations, stack1, k⟩ := by
  have htop := h.entry top (by rw [hs]; exact List.mem_cons_self _ _)
  refine ⟨htop.1, htop.2.1, ?_, ?_⟩
  · intro e he
    exact h.entry e (by rw [hs]; exact List.mem_cons_of_mem _ he)
  · have := (List.pairwise_cons.mp h.chain).2
    rw [hs] at this
    exact this

theorem visitBatchM_inv {grow : Nat → Nat} {findWay : FindWay} {g : GraphProd}
    {w : List Edge} :
    ∀ (cands : List Nat) (st st1 : RouterM), StackInv st →
      visitBatchM grow findWay g w cands st = Run.ok st1 →
      StackInv st1 ∧ st.stack.length + cands.length = st1.stack.length
  | [], st, st1, h, hrun => by
    simp only [visitBatchM, Run.ok.injEq] at hrun
    subst hrun
    exact ⟨h, rfl⟩
  | node :: rest, st, st1, h, hrun => by
    by_cases hn : node < g.Nodes.length
    · simp only [visitBatchM, hn, if_true] at hrun
      obtain ⟨h1, h2⟩ := visitBatchM_inv rest _ st1 (h.visit grow _ node _ st.counter) hrun
      refine ⟨h1, ?_⟩
      simp only [List.length_cons] at h2 ⊢
      omega
    · simp [visitBatchM, hn] at hrun

/-- One pass through the main loop keeps the invariant of the stack; the pass either
restores the snapshot on top of the stack, leaving the heaps as they are, or pushes
at least one snapshot. -/
theorem roundM_inv {D : Type} [LinearOrder D] {grow : Nat → Nat} {pop : Pop}
    {sort : SortFn D} {findWay : FindWay} {fuel : Nat}
    {g : GraphProd} {dist : Nat → D} {gasStations : List Nat} {targetID : Nat} {rangeCm : Int}
    {config : Config} {st st1 : RouterM} (h : StackInv st)
    (hrun : roundM grow pop sort findWay fuel g dist gasStations targetID rangeCm config st =
      Run.ok (Sum.inl st1)) :
    StackInv st1 ∧
    ((∃ top, st.stack = top :: st1.stack ∧ st1.routeHeap = st.routeHeap ∧
        st1.stationHeap = st.stationHeap ∧
        (⟨st1.partialStart, st1.route, st1.stations⟩ : SnapshotM) = top.snap) ∨
      st.stack.length < st1.stack.length) := by
  unfold roundM at hrun
  cases hp : CalcDijkstraToMany pop fuel g st.partialStart with
  | indexOutOfRange => simp [hp] at hrun
  | outOfFuel => simp [hp] at hrun
  | ok w =>
    simp only [hp] at hrun
    cases hte : w[targetID]? with
    | none => simp [hte] at hrun
    | some te =>
      simp only [hte] at hrun
      by_cases hmax : te.Cost = MaxInt64
      · simp [hmax] at hrun
      · simp only [hmax, if_false] at hrun
        by_cases hgoal : goalReachable targetID w rangeCm = Run.ok true
        · simp [hgoal] at hrun
        · simp only [hgoal, if_false] at hrun
          by_cases hcnt : st.counter + 1 > config.DijkstraMaxStations
          · simp [hcnt] at hrun
          · simp only [hcnt, if_false] at hrun
            cases hsel : getMinDistanceStations sort g.Nodes dist w gasStations rangeCm
                config.DijkstraMaxstationsPerStep with
            | indexOutOfRange => simp [hsel] at hrun
            | outOfFuel => simp [hsel] at hrun
            | ok sel =>
              obtain ⟨minStations, serr⟩ := sel
              simp only [hsel] at hrun
              by_cases hempty : minStations.length ≤ 0
              · simp only [hempty, if_true] at hrun
                cases hstack : st.stack with
                | nil => simp [hstack] at hrun
                | cons top stack1 =>
                  simp only [hstack, Run.ok.injEq, Sum.inl.injEq] at hrun
                  subst hrun
                  exact ⟨h.restore hstack _, Or.inl ⟨top, rfl, rfl, rfl, rfl⟩⟩
              · simp only [hempty, if_false] at hrun
                cases hvb : visitBatchM grow findWay g w minStations
                    ⟨st.routeHeap, st.stationHeap, st.partialStart, st.route, st.stations,
                      st.stack, st.counter + 1⟩ with
                | indexOutOfRange => simp [hvb] at hrun
                | outOfFuel => simp [hvb] at hrun
                | ok st2 =>
                  simp only [hvb, Run.ok.injEq, Sum.inl.injEq] at hrun
                  subst hrun
                  obtain ⟨h1, h2⟩ := visitBatchM_inv minStations
                    (⟨st.routeHeap, st.stationHeap, st.partialStart, st.route, st.stations,
                      st.stack, st.counter + 1⟩ : RouterM) st2
                    ⟨h.route, h.stations, h.entry, h.chain⟩ hvb
                  refine ⟨h1, Or.inr ?_⟩
                  simp only at h2
                  omega

theorem initM_inv (startID : Nat) : StackInv (initM startID) := by
  refine ⟨?_, ?_, ?_, ?_⟩
  · exact ⟨le_refl _, fun h => by simp [initM, makeSlice] at h⟩
  · exact ⟨le_refl _, fun h => by simp [initM, makeSlice] at h⟩
  · intro e he
    simp [initM] at he
  · simp [initM]

theorem reach_inv {D : Type} [LinearOrder D] {grow : Nat → Nat} {pop : Pop}
    {sort : SortFn D} {findWay : FindWay} {fuel : Nat}
    {g : GraphProd} {dist : Nat → D} {gasStations : List Nat} {startID targetID : Nat}
    {rangeCm : Int} {config : Config} {st : RouterM}
    (h : Reach grow pop sort findWay fuel g dist gasStations startID targetID rangeCm config st) :
    StackInv st := by
  induction h with
  | entry => exact initM_inv startID
  | pass _ hrun ih => exact (roundM_inv ih hrun).1

theorem visitBatchM_refines {grow : Nat → Nat} {findWay : FindWay} {g : GraphProd}
    {w : List Edge} :
    ∀ (cands : List Nat) (st : RouterM), StackInv st →
      match visitBatchM grow findWay g w cands st with
      | Run.ok st1 =>
        visitBatch findWay g w cands st.partialStart st.readRoute st.readStations
            (st.stack.map Pushed.seen) =
          Run.ok (st1.partialStart, st1.readRoute, st1.readStations, st1.stack.map Pushed.seen) ∧
        st1.counter = st.counter
      | Run.indexOutOfRange =>
        visitBatch findWay g w cands st.partialStart st.readRoute st.readStations
            (st.stack.map Pushed.seen) = Run.indexOutOfRange
      | Run.outOfFuel =>
        visitBatch findWay g w cands st.partialStart st.readRoute st.readStations
            (st.stack.map Pushed.seen) = Run.outOfFuel
  | [], st, _ => by simp [visitBatchM, visitBatch]
  | node :: rest, st, h => by
    by_cases hn : node < g.Nodes.length
    · simp only [visitBatchM, visitBatch, hn, if_true]
      generalize (findWay st.partialStart node g w).1 = pr
      have ih := @visitBatchM_refines grow findWay g w rest _
        (h.visit grow (pr.Route.drop 1).reverse node
          (wrap64 (st.route.TotalCost + pr.TotalCost)) st.counter)
      have hr := (appendAll_read grow (pr.Route.drop 1).reverse _ _ h.route).1
      have hs := goAppend_read grow node h.stations
      simp only [RouterM.readRoute, RouterM.readStations, hr, hs, readSnapshot, List.map_cons,
        stackPush] at ih ⊢
      exact ih
    · simp [visitBatchM, visitBatch, hn]

/-- The router on slices returns, from every state that satisfies the invariant of
the stack, what the router on lists returns from the state read through the heaps,
with the records of the pushes as its stack. -/
theorem stationLoopM_refines {D : Type} [LinearOrder D] (grow : Nat → Nat) (pop : Pop)
    (sort : SortFn D) (findWay : FindWay) (fuel : Nat) (g : GraphProd) (dist : Nat → D)
    (gasStations : List Nat) (targetID : Nat)
    (rangeCm : Int) (config : Config) :
    ∀ (rounds : Nat) (st : RouterM), StackInv st →
      stationLoopM grow pop sort findWay fuel g dist gasStations targetID rangeCm config rounds
          st =
        stationLoop pop sort findWay fuel g dist gasStations targetID rangeCm config rounds
          st.partialStart st.readRoute st.readStations (st.stack.map Pushed.seen) st.counter
  | 0, _, _ => by simp [stationLoopM, stationLoop]
  | rounds + 1, st, h => by
    simp only [stationLoopM, roundM, stationLoop]
    cases hp : CalcDijkstraToMany pop fuel g st.partialStart with
    | indexOutOfRange => rfl
    | outOfFuel => rfl
    | ok w =>
      simp only
      cases hte : w[targetID]? with
      | none => rfl
      | some te =>
        simp only
        by_cases hmax : te.Cost = MaxInt64
        · simp [hmax]
        · simp only [hmax, if_false]
          by_cases hgoal : goalReachable targetID w rangeCm = Run.ok true
          · simp only [hgoal, if_true]
            generalize (findWay st.partialStart targetID g w).1 = pr
            simp only [RouterM.readRoute, RouterM.readStations,
              (appendAll_read grow pr.Route.reverse _ _ h.route).1]
          · simp only [hgoal, if_false]
            by_cases hcnt : st.counter + 1 > config.DijkstraMaxStations
            · simp only [hcnt, if_true, RouterM.readStations]
            · simp only [hcnt, if_false]
              cases hsel : getMinDistanceStations sort g.Nodes dist w gasStations rangeCm
                  config.DijkstraMaxstationsPerStep with
              | indexOutOfRange => rfl
              | outOfFuel => rfl
              | ok sel =>
                obtain ⟨minStations, serr⟩ := sel
                simp only
                by_cases hempty : minStations.length ≤ 0
                · simp only [hempty, if_true]
                  cases hstack : st.stack with
                  | nil => simp [stackPop]
                  | cons top stack1 =>
                    simp only [List.map_cons, stackPop]
                    have ih := stationLoopM_refines grow pop sort findWay fuel g dist gasStations targetID
                      rangeCm config rounds _ (h.restore hstack (st.counter + 1))
                    have hseen := (h.entry top (by rw [hstack]; exact List.mem_cons_self _ _)).2.2
                    rw [ih, ← hseen]
                    rfl
                · simp only [hempty, if_false]
                  have hv := @visitBatchM_refines grow findWay g w minStations
                    (⟨st.routeHeap, st.stationHeap, st.partialStart, st.route, st.stations,
                      st.stack, st.counter + 1⟩ : RouterM)
                    ⟨h.route, h.stations, h.entry, h.chain⟩
                  cases hvb : visitBatchM grow findWay g w minStations
                      ⟨st.routeHeap, st.stationHeap, st.partialStart, st.route, st.stations,
                        st.stack, st.counter + 1⟩ with
                  | indexOutOfRange =>
                    rw [hvb] at hv
                    simp only [RouterM.readRoute, RouterM.readStations] at hv ⊢
                    rw [hv]
                  | outOfFuel =>
                    rw [hvb] at hv
                    simp only [RouterM.readRoute, RouterM.readStations] at hv ⊢
                    rw [hv]
                  | ok st2 =>
                    rw [hvb] at hv
                    obtain ⟨hv1, hv2⟩ := hv
                    have hinv := (visitBatchM_inv minStations _ st2
                      (⟨h.route, h.stations, h.entry, h.chain⟩ : StackInv ⟨st.routeHeap,
                        st.stationHeap, st.partialStart, st.route, st.stations, st.stack,
                        st.counter + 1⟩) hvb).1
                    have ih := stationLoopM_refines grow pop sort findWay fuel g dist gasStations targetID
                      rangeCm config rounds st2 hinv
                    simp only [RouterM.readRoute, RouterM.readStations] at hv1 ih ⊢
                    rw [hv1, ih, hv2]

/-- The router on slices, whose snapshots share backing arrays with the live route,
returns on every input what the router on lists returns. -/
theorem CalcStationDijkstraSnapshotsM_eq {D : Type} [LinearOrder D] (grow : Nat → Nat)
    (pop : Pop) (sort : SortFn D) (findWay : FindWay) (fuel rounds : Nat) (g : GraphProd)
    (dist : Nat → D) (gasStations : List Nat)
    (startID targetID : Nat) (rangeCm : Int) (config : Config) :
    CalcStationDijkstraSnapshotsM grow pop sort findWay fuel rounds g dist gasStations startID
        targetID rangeCm config =
      CalcStationDijkstraSnapshots pop sort findWay fuel rounds g dist gasStations startID targetID
        rangeCm config := by
  unfold CalcStationDijkstraSnapshotsM CalcStationDijkstraSnapshots
  rw [stationLoopM_refines grow pop sort findWay fuel g dist gasStations targetID rangeCm config
    rounds _ (initM_inv startID)]
  rfl

/-- C13: in every state the main loop of `CalcStationDijkstraSnapshots` passes
through, whatever the growth policy of `append`, whatever order `sort.Slice` leaves
the table in and whatever `findWayToGoal` returns, each snapshot on the stack, read
through the backing arrays as they stand, holds exactly the position, route node
sequence, route total cost and station list that were recorded when it was pushed,
although snapshots and the live route share backing arrays; and when a pass takes a
snapshot off the stack, the position, route and station list it restores are those
recorded when that snapshot was pushed. -/
theorem C13_restored_snapshot_reads_as_pushed {D : Type} [LinearOrder D] (grow : Nat → Nat)
    (pop : Pop) (sort : SortFn D) (findWay : FindWay) (fuel : Nat) (g : GraphProd)
    (dist : Nat → D) (gasStations : List Nat)
    (startID targetID : Nat) (rangeCm : Int) (config : Config) (st : RouterM)
    (hreach : Reach grow pop sort findWay fuel g dist gasStations startID targetID rangeCm config
      st) :
    (∀ e ∈ st.stack, readSnapshot st.routeHeap st.stationHeap e.snap = e.seen) ∧
    (∀ st1, roundM grow pop sort findWay fuel g dist gasStations targetID rangeCm config st =
        Run.ok (Sum.inl st1) → st1.stack.length < st.stack.length →
      ∃ top, st.stack = top :: st1.stack ∧
        readSnapshot st1.routeHeap st1.stationHeap ⟨st1.partialStart, st1.route, st1.stations⟩ =
          top.seen) := by
  have hinv := reach_inv hreach
  refine ⟨fun e he => (hinv.entry e he).2.2, ?_⟩
  intro st1 hrun hlt
  rcases (roundM_inv hinv hrun).2 with ⟨top, hstack, hrh, hsh, hlive⟩ | hgrow
  · refine ⟨top, hstack, ?_⟩
    rw [hrh, hsh, hlive]
    exact (hinv.entry top (by rw [hstack]; exact List.mem_cons_self _ _)).2.2
  · omega

theorem C13_restored_snapshot_reads_as_pushed_witness :
    (∀ e ∈ deadEndState4.stack,
      readSnapshot deadEndState4.routeHeap deadEndState4.stationHeap e.snap = e.seen) ∧
    roundM (fun c => 2 * c) popMin insertionSort findWayToGoal 10 deadEndGraph deadEndDist
      [3, 4] 5 5 ⟨5, 2⟩ deadEndState4 = Run.ok (Sum.inl deadEndState5) ∧
    deadEndState4.stack.length = 2 ∧ deadEndState5.stack.length = 1 ∧
    ∃ top, deadEndState4.stack = top :: deadEndState5.stack ∧
      readSnapshot deadEndState5.routeHeap deadEndState5.stationHeap
        ⟨deadEndState5.partialStart, deadEndState5.route, deadEndState5.stations⟩ = top.seen :=
  (fun h => ⟨h.1, by decide, by decide, by decide, h.2 deadEndState5 (by decide) (by decide)⟩)
    (C13_restored_snapshot_reads_as_pushed (fun c => 2 * c) popMin insertionSort findWayToGoal
      10 deadEndGraph deadEndDist [3, 4] 0 5 5 ⟨5, 2⟩ deadEndState4
      (Reach.pass (Reach.pass (Reach.pass (Reach.pass Reach.entry
        (show roundM (fun c => 2 * c) popMin insertionSort findWayToGoal 10 deadEndGraph
          deadEndDist [3, 4] 5 5 ⟨5, 2⟩ (initM 0) = Run.ok (Sum.inl deadEndState1) by decide))
        (show roundM (fun c => 2 * c) popMin insertionSort findWayToGoal 10 deadEndGraph
          deadEndDist [3, 4] 5 5 ⟨5, 2⟩ deadEndState1 = Run.ok (Sum.inl deadEndState2)
          by decide))
        (show roundM (fun c => 2 * c) popMin insertionSort findWayToGoal 10 deadEndGraph
          deadEndDist [3, 4] 5 5 ⟨5, 2⟩ deadEndState2 = Run.ok (Sum.inl deadEndState3)
          by decide))
        (show roundM (fun c => 2 * c) popMin insertionSort findWayToGoal 10 deadEndGraph
          deadEndDist [3, 4] 5 5 ⟨5, 2⟩ deadEndState3 = Run.ok (Sum.inl deadEndState4)
          by decide)))

/-! ## More claims about `CalcDijkstra` -/

/-- The log never changes the table: the loop with the log returns the table the
loop without it returns. -/
theorem dijkstraLoopLog_table (pop : Pop) (g : GraphProd) :
    ∀ (fuel : Nat) (pq : List Item) (prevs : List Edge) (log : LoopLog),
      match dijkstraLoopLog pop g fuel pq prevs log with
      | Run.ok r => dijkstraLoop pop g fuel pq prevs = Run.ok r.1
      | Run.indexOutOfRange => dijkstraLoop pop g fuel pq prevs = Run.indexOutOfRange
      | Run.outOfFuel => dijkstraLoop pop g fuel pq prevs = Run.outOfFuel
  | 0, _, _, _ => by simp [dijkstraLoopLog, dijkstraLoop]
  | fuel + 1, pq, prevs, log => by
    simp only [dijkstraLoopLog, dijkstraLoop]
    cases hpop : pop pq with
    | none => simp
    | some p =>
      obtain ⟨it, rest⟩ := p
      simp only
      cases hpe : prevs[it.Value.End]? with
      | none => simp
      | some pe =>
        simp only
        by_cases hge : it.Priority ≥ pe.Cost
        · simp only [hge, if_true]
          exact dijkstraLoopLog_table pop g fuel rest prevs log
        · simp only [hge, if_false]
          cases ho1 : g.Offset[it.Value.End]? with
          | none => simp
          | some b =>
            cases ho2 : g.Offset[it.Value.End + 1]? with
            | none => simp
            | some c =>
              simp only
              cases hr : relax g (prevs.set it.Value.End
                  ⟨it.Value.ID, it.Value.Start, it.Value.End, it.Priority⟩)
                  it.Priority b (c - b) rest with
              | ok pq1 =>
                simp only
                exact dijkstraLoopLog_table pop g fuel pq1 _ _
              | indexOutOfRange => simp
              | outOfFuel => simp

theorem loopLog_inv {pop : Pop} (hps : PopSpec pop) {g : GraphProd} {s : Nat} (hwf : WF g)
    (hn : NonNeg g) (hno : NoOverflow g s) :
    ∀ (fuel : Nat) (pq : List Item) (prevs : List Edge) (log : LoopLog), Base g s pq prevs →
      Closed g s pq prevs 0 g.Edges.length → pq.length + pending g s prevs < fuel →
      LogInv g s prevs log →
      ∃ prevs1 log1, dijkstraLoopLog pop g fuel pq prevs log = Run.ok (prevs1, log1) ∧
        Base g s [] prevs1 ∧ Closed g s [] prevs1 0 g.Edges.length ∧ LogInv g s prevs1 log1
  | 0, _, _, _, _, _, hf, _ => by omega
  | fuel + 1, pq, prevs, log, hb, hc, hf, hlog => by
    cases hpop : pop pq with
    | none =>
      have : pq = [] := (hps.none_iff _).mp hpop
      subst this
      exact ⟨prevs, log, by simp [dijkstraLoopLog, hpop], hb, hc, hlog⟩
    | some p =>
      obtain ⟨it, rest⟩ := p
      have hperm := hps.perm _ _ _ hpop
      have hlen : pq.length = rest.length + 1 := by
        rw [hperm.length_eq]; simp
      have hit : it ∈ pq := hperm.symm.subset (List.mem_cons_self _ _)
      obtain ⟨hval, pu, hpu, hpune, hprio⟩ := hb.item it hit
      have hvn : it.Value.End < g.Nodes.length := hwf.end_lt hval
      obtain ⟨pe, hpe⟩ := getElem?_of_lt hb.len hvn
      by_cases hinit : pe = initEdge s
      · subst hinit
        obtain ⟨_, _, hlt⟩ := hb.sum_bound hn hno hpu hpune hval rfl
        rw [← hprio] at hlt
        have hnot : ¬ (it.Priority ≥ (initEdge s).Cost) := by
          simp only [initEdge]; omega
        obtain ⟨hnv, hb1, hc1, hmax⟩ := commit_inv hps hwf hb hc hpop hpe
        have hself : (prevs.set it.Value.End
            ⟨it.Value.ID, it.Value.Start, it.Value.End, it.Priority⟩)[it.Value.End]? =
            some ⟨it.Value.ID, it.Value.Start, it.Value.End, it.Priority⟩ :=
          List.getElem?_set_self (by rw [hb.len]; exact hvn)
        have hmono := hwf.off_mono hvn
        obtain ⟨pq1, hr, hb2, hc2, hl⟩ := relax_inv hwf hn hno hvn hself hnv hmax
          (offAt g (it.Value.End + 1) - offAt g it.Value.End) (offAt g it.Value.End) rest
          (by omega) (le_refl _) hb1 hc1
        have hpend : pending g s (prevs.set it.Value.End
            ⟨it.Value.ID, it.Value.Start, it.Value.End, it.Priority⟩) +
            (offAt g (it.Value.End + 1) - offAt g it.Value.End) = pending g s prevs :=
          wsum_set _ hvn hb.len hpe hnv
        have hnew : it.Value.End ∉ log.commits.map Prod.fst := by
          intro hmem
          obtain ⟨vc, hvc, hfst⟩ := List.mem_map.mp hmem
          obtain ⟨e, he, hene, _⟩ := hlog.held vc hvc
          rw [hfst, hpe] at he
          exact hene (Option.some.inj he).symm
        have hlog1 : LogInv g s (prevs.set it.Value.End
            ⟨it.Value.ID, it.Value.Start, it.Value.End, it.Priority⟩)
            ⟨log.commits ++ [(it.Value.End, it.Priority)],
              log.pushes + (pq1.length - rest.length)⟩ := by
          refine ⟨?_, ?_, ?_⟩
          · simp only [List.map_append, List.map_cons, List.map_nil]
            rw [List.nodup_append]
            refine ⟨hlog.nodup, by simp, ?_⟩
            intro a ha hb
            simp only [List.mem_singleton] at hb
            subst hb
            exact hnew ha
          · intro vc hvc
            rcases List.mem_append.mp hvc with hvc | hvc
            · obtain ⟨e, he, hene, hcost⟩ := hlog.held vc hvc
              have hne : it.Value.End ≠ vc.1 := by
                intro heq
                exact hnew (List.mem_map.mpr ⟨vc, hvc, heq.symm⟩)
              exact ⟨e, by rw [List.getElem?_set_ne hne]; exact he, hene, hcost⟩
            · simp only [List.mem_singleton] at hvc
              subst hvc
              exact ⟨_, hself, hnv, rfl⟩
          · have := hlog.bound
            simp only
            omega
        obtain ⟨prevs2, log2, hrun, hb3, hc3, hlog3⟩ := loopLog_inv hps hwf hn hno fuel pq1 _ _
          hb2 (hc2.full hwf 0) (by omega) hlog1
        refine ⟨prevs2, log2, ?_, hb3, hc3, hlog3⟩
        simp only [dijkstraLoopLog, hpop, hpe, hnot, if_false, hwf.off_get (le_of_lt hvn),
          hwf.off_get (Nat.succ_le_of_lt hvn)]
        simp only at hr
        rw [hr]
        exact hrun
      · obtain ⟨hle, hb1, hc1⟩ := discard_inv hps hb hc hpop hpe hinit
        obtain ⟨prevs2, log2, hrun, hb3, hc3, hlog3⟩ :=
          loopLog_inv hps hwf hn hno fuel rest prevs log hb1 hc1 (by omega) hlog
        refine ⟨prevs2, log2, ?_, hb3, hc3, hlog3⟩
        have hge : it.Priority ≥ pe.Cost := hle
        simp only [dijkstraLoopLog, hpop, hpe, hge, if_true]
        exact hrun

/-- Under the CSR invariants, with non-negative costs and no overflow, the
single-source computation with the log returns; its table is the one the
computation without the log returns, and table and log satisfy the invariants. -/
theorem ssspLog_inv {pop : Pop} (hps : PopSpec pop) {g : GraphProd} {s : Nat} (hwf : WF g)
    (hn : NonNeg g) (hno : NoOverflow g s) (hs : s < g.Nodes.length) (fuel : Nat)
    (hf : g.Edges.length + 2 ≤ fuel) :
    ∃ prevs log, CalcDijkstraToManyLog pop fuel g s = Run.ok (prevs, log) ∧
      CalcDijkstraToMany pop fuel g s = Run.ok prevs ∧ Base g s [] prevs ∧
      Closed g s [] prevs 0 g.Edges.length ∧ LogInv g s prevs log := by
  obtain ⟨hb, hc, hmax⟩ := first_inv hwf hs
  have hself : ((List.replicate g.Nodes.length (initEdge s)).set s (startEdge s))[s]? =
      some (startEdge s) := List.getElem?_set_self (by simp; exact hs)
  have hmono := hwf.off_mono hs
  obtain ⟨pq1, hr, hb2, hc2, hl⟩ := relax_inv hwf hn hno hs hself (initEdge_ne_startEdge s) hmax
    (offAt g (s + 1) - offAt g s) (offAt g s) [] (by omega) (le_refl _) hb hc
  have hpend : pending g s ((List.replicate g.Nodes.length (initEdge s)).set s (startEdge s)) +
      (offAt g (s + 1) - offAt g s) = pending g s (List.replicate g.Nodes.length (initEdge s)) :=
    wsum_set _ hs (by simp) (by simp [List.getElem?_replicate, hs]) (initEdge_ne_startEdge s)
  have hall : pending g s (List.replicate g.Nodes.length (initEdge s)) = g.Edges.length := by
    unfold pending
    rw [wsum_replicate, hwf.degree_sum _ (le_refl _), hwf.2.2.1]
  obtain ⟨fuel1, rfl⟩ : ∃ k, fuel = k + 1 := ⟨fuel - 1, by omega⟩
  simp only [List.length_nil] at hl
  have hlog1 : LogInv g s ((List.replicate g.Nodes.length (initEdge s)).set s (startEdge s))
      ⟨[] ++ [(s, (0 : Int))], 1 + (pq1.length - ([] : List Item).length)⟩ := by
    refine ⟨by simp, ?_, ?_⟩
    · intro vc hvc
      simp only [List.nil_append, List.mem_singleton] at hvc
      subst hvc
      exact ⟨_, hself, initEdge_ne_startEdge s, rfl⟩
    · simp only [List.length_nil]
      omega
  obtain ⟨prevs2, log2, hrun, hb3, hc3, hlog3⟩ := loopLog_inv hps hwf hn hno fuel1 pq1 _ _ hb2
    (hc2.full hwf 0) (by omega) hlog1
  have hget : (List.replicate g.Nodes.length (initEdge s))[s]? = some (initEdge s) := by
    simp [List.getElem?_replicate, hs]
  have hnot : ¬ ((0 : Int) ≥ (initEdge s).Cost) := by simp [initEdge, MaxInt64]
  simp only [startEdge] at hr
  have hrunLog : CalcDijkstraToManyLog pop (fuel1 + 1) g s = Run.ok (prevs2, log2) := by
    simp only [CalcDijkstraToManyLog, dijkstraLoopLog, push, hps.single, startEdge, hget, hnot,
      if_false, hwf.off_get (le_of_lt hs), hwf.off_get (Nat.succ_le_of_lt hs)]
    rw [hr]
    exact hrun
  refine ⟨prevs2, log2, hrunLog, ?_, hb3, hc3, hlog3⟩
  have htab := dijkstraLoopLog_table pop g (fuel1 + 1) (push [] ⟨startEdge s, 0⟩)
    (List.replicate g.Nodes.length (initEdge s)) ⟨[], 1⟩
  unfold CalcDijkstraToManyLog at hrunLog
  rw [hrunLog] at htab
  exact htab

/-- C14 (as stated, refuted): the two edges of `overflowGraph` have the
non-negative `int64` cost 2^62. `CalcDijkstra` commits for node 2 the cost -2^63 and
returns it, with the node sequence [2, 1, 0], as the cost of the way from 0 to 2: the
cost is negative, while the edges of the returned path sum to 2^63. -/
theorem C14_counterexample :
    WF overflowGraph ∧ NonNeg overflowGraph ∧
    (∀ e ∈ overflowGraph.Edges, InInt64 e.Cost) ∧
    CalcDijkstraToManyLog popMin 10 overflowGraph 0 =
      Run.ok ([⟨-1, 0, 0, 0⟩, ⟨0, 0, 1, 4611686018427387904⟩, ⟨1, 1, 2, -9223372036854775808⟩],
        ⟨[(0, 0), (1, 4611686018427387904), (2, -9223372036854775808)], 3⟩) ∧
    CalcDijkstra popMin 10 overflowGraph 0 2 =
      Run.ok ⟨-9223372036854775808, some [2, 1, 0], none⟩ ∧
    JoinedBy overflowGraph [2, 1, 0]
      [⟨1, 1, 2, 4611686018427387904⟩, ⟨0, 0, 1, 4611686018427387904⟩] ∧
    walkCost [⟨1, 1, 2, 4611686018427387904⟩, ⟨0, 0, 1, 4611686018427387904⟩] =
      9223372036854775808 := by
  refine ⟨by decide, by decide, by unfold InInt64; decide, by decide, by decide, ?_, by decide⟩
  simp [JoinedBy, overflowGraph]

/-- C14 (amended): on a graph satisfying the CSR invariants whose edge costs are
non-negative and whose path sums stay below the `int64` maximum, every accumulated
cost `CalcDijkstra` commits to the table is non-negative and is the unbounded-integer
sum of the edge costs along the path the table records for that node, and on success
the cost returned is non-negative and is the unbounded-integer sum of the costs of
the edges joining the nodes of the returned sequence. -/
theorem C14_costs_are_true_sums (pop : Pop) (hps : PopSpec pop) (g : GraphProd) (s fuel : Nat)
    (hwf : WF g) (hn : NonNeg g) (hno : NoOverflow g s) (hs : s < g.Nodes.length)
    (hf : g.Edges.length + g.Nodes.length + 2 ≤ fuel) :
    ∃ prevs log, CalcDijkstraToManyLog pop fuel g s = Run.ok (prevs, log) ∧
      (∀ vc ∈ log.commits, 0 ≤ vc.2 ∧ ∃ es, Tree g s prevs vc.1 es ∧ walkCost es = vc.2) ∧
      (∀ t r, CalcDijkstra pop fuel g s t = Run.ok r → r.err = none →
        0 ≤ r.cost ∧ ∃ way es, r.way = some way ∧ JoinedBy g way es ∧ walkCost es = r.cost) := by
  obtain ⟨prevs, log, h1, h2, hb, _, hlog⟩ := ssspLog_inv hps hwf hn hno hs fuel (by omega)
  refine ⟨prevs, log, h1, ?_, ?_⟩
  · intro vc hvc
    obtain ⟨e, he, hene, hc⟩ := hlog.held vc hvc
    obtain ⟨es, htree, _⟩ := hb.tree vc.1 e he hene
    obtain ⟨pe, hpe, _, _, hcost⟩ := htree.entry
    rw [he] at hpe
    have hpe2 : e = pe := Option.some.inj hpe
    subst hpe2
    refine ⟨?_, es, htree, by rw [← hc, hcost]⟩
    rw [← hc, hcost]
    exact walkCost_nonneg hn htree.walk.mem
  · intro t r hrun herr
    have ht : t < g.Nodes.length := by
      by_contra hc
      have hnone : prevs[t]? = none := List.getElem?_eq_none (by rw [hb.len]; omega)
      simp [CalcDijkstra, h2, reconstruct, hnone] at hrun
    rcases CalcDijkstra_cases hps hwf hn hno hs ht hf with
      ⟨_, hrun2⟩ | ⟨prevs2, es, htree, _, hrun2, _⟩
    · rw [hrun2] at hrun
      have := Run.ok.inj hrun
      subst this
      simp at herr
    · rw [hrun2] at hrun
      have := Run.ok.inj hrun
      subst this
      exact ⟨walkCost_nonneg hn htree.walk.mem, _, es.reverse, rfl, htree.joined,
        walkCost_reverse es⟩

theorem C14_costs_are_true_sums_witness :
    ∃ prevs log, CalcDijkstraToManyLog popMin 10 exampleGraph 0 = Run.ok (prevs, log) ∧
      (∀ vc ∈ log.commits, 0 ≤ vc.2 ∧
        ∃ es, Tree exampleGraph 0 prevs vc.1 es ∧ walkCost es = vc.2) ∧
      (∀ t r, CalcDijkstra popMin 10 exampleGraph 0 t = Run.ok r → r.err = none →
        0 ≤ r.cost ∧
          ∃ way es, r.way = some way ∧ JoinedBy exampleGraph way es ∧ walkCost es = r.cost) :=
  C14_costs_are_true_sums popMin popMin_spec exampleGraph 0 10 (by decide) (by decide)
    (noOverflow_of_bound exampleGraph 0 5 (by decide) (by decide) (by decide)) (by decide)
    (by decide)

theorem Tree.unique {g : GraphProd} {s : Nat} {prevs : List Edge} {v : Nat} {es : List Edge}
    (h : Tree g s prevs v es) :
    ∀ {v2 : Nat} {es2 : List Edge}, Tree g s prevs v2 es2 → v = v2 → es = es2 := by
  induction h with
  | root h0 =>
    intro v2 es2 h2 hv
    cases h2 with
    | root _ => rfl
    | step e2 _ _ _ hne2 _ => exact absurd hv.symm hne2
  | step e ht he hs hne hp ih =>
    intro v2 es2 h2 hv
    cases h2 with
    | root _ => exact absurd hv hne
    | step e2 ht2 he2 hs2 hne2 hp2 =>
      rw [hv, hp2] at hp
      have hrec := Option.some.inj hp
      simp only [Edge.mk.injEq] at hrec
      obtain ⟨hid, hst, _, hcost⟩ := hrec
      have hes := ih ht2 (by rw [← hs, ← hs2, hst])
      subst hes
      have hc : e.Cost = e2.Cost := by omega
      have hee : e = e2 := by
        cases e; cases e2
        simp only [Edge.mk.injEq] at hid hst hv hc ⊢
        exact ⟨hid.symm, hst.symm, hv, hc⟩
      rw [hee]

theorem Tree.shorter {g : GraphProd} {s : Nat} {prevs : List Edge} {v : Nat} {es : List Edge}
    (h : Tree g s prevs v es) :
    ∀ w ∈ es.map Edge.Start, ∃ es1, Tree g s prevs w es1 ∧ es1.length < es.length := by
  induction h with
  | root _ => intro w hw; simp at hw
  | step e ht he hs hne hp ih =>
    intro w hw
    simp only [List.map_append, List.map_cons, List.map_nil, List.mem_append,
      List.mem_singleton] at hw
    rcases hw with hw | hw
    · obtain ⟨es1, h1, h2⟩ := ih w hw
      exact ⟨es1, h1, by simp; omega⟩
    · rw [hw, hs]
      exact ⟨_, ht, by simp⟩

/-- The nodes along the path the table records for a node are pairwise distinct. -/
theorem Tree.nodup {g : GraphProd} {s : Nat} {prevs : List Edge} {v : Nat} {es : List Edge}
    (h : Tree g s prevs v es) : (es.map Edge.Start ++ [v]).Nodup := by
  induction h with
  | root _ => simp
  | step e ht he hs hne hp ih =>
    have hfull : Tree g s prevs e.End (_ ++ [e]) := Tree.step e ht he hs hne hp
    simp only [List.map_append, List.map_cons, List.map_nil, hs]
    rw [List.nodup_append]
    refine ⟨ih, by simp, ?_⟩
    intro a ha hb
    simp only [List.mem_singleton] at hb
    subst hb
    rcases List.mem_append.mp ha with ha | ha
    · obtain ⟨es1, h1, h2⟩ := ht.shorter _ ha
      have := h1.unique hfull rfl
      rw [this] at h2
      simp at h2
    · simp only [List.mem_singleton] at ha
      have := ht.unique hfull ha.symm
      have hl := congrArg List.length this
      simp at hl

/-- C15: on a graph satisfying the CSR invariants, with non-negative,
non-overflowing edge costs and a target reachable from the start, `CalcDijkstra`
returns a node sequence without error, and the path-reconstruction loop run on the
table stops within node count tests of its condition, that is after at most
node count - 1 iterations: the returned sequence has no repeated node and at most
node count nodes. -/
theorem C15_reconstruction_stops (pop : Pop) (hps : PopSpec pop) (g : GraphProd)
    (s t fuel : Nat) (hwf : WF g) (hn : NonNeg g) (hno : NoOverflow g s)
    (hs : s < g.Nodes.length) (hreach : ∃ es, IsWalk g s es t)
    (hf : g.Edges.length + g.Nodes.length + 2 ≤ fuel) :
    ∃ c way prevs te, CalcDijkstra pop fuel g s t = Run.ok ⟨c, some way, none⟩ ∧
      CalcDijkstraToMany pop fuel g s = Run.ok prevs ∧ prevs[t]? = some te ∧
      wayLoop prevs s g.Nodes.length te [te.End] = Run.ok way ∧
      way.Nodup ∧ way.length ≤ g.Nodes.length := by
  obtain ⟨es0, hw0⟩ := hreach
  have ht : t < g.Nodes.length := IsWalk.target_lt hwf hw0 hs
  obtain ⟨prevs, hrun, hb, hc⟩ := sssp_inv hps hwf hn hno hs fuel (by omega)
  obtain ⟨pt, hpt⟩ := getElem?_of_lt hb.len ht
  obtain ⟨pt2, hpt2, hinit, _⟩ :=
    closed_walk hc es0 s t _ hb.start (initEdge_ne_startEdge s) hw0
  rw [hpt] at hpt2
  have : pt = pt2 := Option.some.inj hpt2
  subst this
  obtain ⟨es, htree, hlen⟩ := hb.tree t pt hpt hinit
  obtain ⟨pe, hpe, _, hend, hcost⟩ := htree.entry
  rw [hpt] at hpe
  have : pt = pe := Option.some.inj hpe
  subst this
  have hlt : walkCost es < MaxInt64 := hno es t htree.walk (by omega)
  have hne : pt.Cost ≠ MaxInt64 := by rw [hcost]; omega
  have hway := wayLoop_tree htree fuel [pt.End] pt hpt (by omega)
  have hway2 := wayLoop_tree htree g.Nodes.length [pt.End] pt hpt (by omega)
  have hendlt : pt.End < prevs.length := by rw [hend, hb.len]; exact ht
  refine ⟨pt.Cost, [pt.End] ++ (es.map Edge.Start).reverse, prevs, pt, ?_, hrun, hpt, hway2,
    ?_, ?_⟩
  · simp only [CalcDijkstra, hrun, reconstruct, hpt, hne, if_false, hendlt, if_true, hway]
  · have hnd := htree.nodup
    rw [← List.nodup_reverse] at hnd
    simpa [hend] using hnd
  · simp only [List.length_append, List.length_singleton, List.length_reverse, List.length_map]
    omega

theorem C15_reconstruction_stops_witness :
    ∃ c way prevs te, CalcDijkstra popMin 10 exampleGraph 0 3 = Run.ok ⟨c, some way, none⟩ ∧
      CalcDijkstraToMany popMin 10 exampleGraph 0 = Run.ok prevs ∧ prevs[3]? = some te ∧
      wayLoop prevs 0 exampleGraph.Nodes.length te [te.End] = Run.ok way ∧
      way.Nodup ∧ way.length ≤ exampleGraph.Nodes.length :=
  C15_reconstruction_stops popMin popMin_spec exampleGraph 0 3 10 (by decide) (by decide)
    (noOverflow_of_bound exampleGraph 0 5 (by decide) (by decide) (by decide)) (by decide)
    ⟨[⟨1, 0, 2, 3⟩, ⟨3, 2, 3, 3⟩], by decide⟩ (by decide)

theorem Tree.at_start {g : GraphProd} {s : Nat} {prevs : List Edge} {v : Nat} {es : List Edge}
    (h : Tree g s prevs v es) (hv : v = s) : es = [] := by
  cases h with
  | root _ => rfl
  | step e _ _ _ hne _ => exact absurd hv hne

/-- C16 (as stated, refuted): `cycleGraph` satisfies the CSR invariants and its two
edge costs are non-negative, yet `CalcDijkstra(g, 0, 0)` returns the cost -2^63 with
the node sequence [0]: along the cycle 0 → 1 → 0 the 64-bit sum of 2^62 and 2^62 wraps
to -2^63, which is below the cost 0 committed for the start, so the entry of the start
is written a second time. -/
theorem C16_counterexample :
    WF cycleGraph ∧ NonNeg cycleGraph ∧
    CalcDijkstra popMin 10 cycleGraph 0 0 =
      Run.ok ⟨-9223372036854775808, some [0], none⟩ ∧
    (-9223372036854775808 : Int) ≠ 0 ∧
    CalcDijkstraToManyLog popMin 10 cycleGraph 0 =
      Run.ok ([⟨1, 1, 0, -9223372036854775808⟩, ⟨0, 0, 1, -4611686018427387904⟩],
        ⟨[(0, 0), (1, 4611686018427387904), (0, -9223372036854775808),
          (1, -4611686018427387904)], 4⟩) := by
  decide

/-- C16 (amended): on a graph satisfying the CSR invariants, with non-negative edge
costs whose path sums stay below the `int64` maximum, `CalcDijkstra(g, s, s)` returns
for every node `s` no error, the cost 0 and the node sequence consisting of the single
node `s`, also when `s` lies on a cycle or has a zero-cost self-loop. -/
theorem C16_start_to_itself (pop : Pop) (hps : PopSpec pop) (g : GraphProd) (s fuel : Nat)
    (hwf : WF g) (hn : NonNeg g) (hno : NoOverflow g s) (hs : s < g.Nodes.length)
    (hf : g.Edges.length + g.Nodes.length + 2 ≤ fuel) :
    CalcDijkstra pop fuel g s s = Run.ok ⟨0, some [s], none⟩ := by
  rcases CalcDijkstra_cases hps hwf hn hno hs hs hf with
    ⟨hnone, _⟩ | ⟨prevs, es, htree, _, hrun, _⟩
  · exact absurd ⟨[], rfl⟩ hnone
  · have hes := htree.at_start rfl
    subst hes
    rw [hrun]
    simp [walkCost]

theorem C16_start_to_itself_witness :
    CalcDijkstra popMin 10 loopGraph 0 0 = Run.ok ⟨0, some [0], none⟩ :=
  C16_start_to_itself popMin popMin_spec loopGraph 0 10 (by decide) (by decide)
    (noOverflow_of_bound loopGraph 0 3 (by decide) (by decide) (by decide)) (by decide)
    (by decide)

/-- C17: on a graph satisfying the CSR invariants, with non-negative,
non-overflowing edge costs, the frontier loop of `CalcDijkstra` returns once it has
fuel for edge count + 2 tests of its condition; it writes the table entry of each
node at most once, so that a later frontier entry for a node already written is
discarded, and the cost written for a node is the cost the table holds for it at the
end; and at most 1 + edge count entries are pushed onto the frontier, the start edge
included. -/
theorem C17_each_node_committed_once (pop : Pop) (hps : PopSpec pop) (g : GraphProd)
    (s fuel : Nat) (hwf : WF g) (hn : NonNeg g) (hno : NoOverflow g s)
    (hs : s < g.Nodes.length) (hf : g.Edges.length + 2 ≤ fuel) :
    ∃ prevs log, CalcDijkstraToManyLog pop fuel g s = Run.ok (prevs, log) ∧
      CalcDijkstraToMany pop fuel g s = Run.ok prevs ∧
      (log.commits.map Prod.fst).Nodup ∧
      (∀ vc ∈ log.commits, ∃ e, prevs[vc.1]? = some e ∧ e.Cost = vc.2) ∧
      log.pushes ≤ 1 + g.Edges.length := by
  obtain ⟨prevs, log, h1, h2, _, _, hlog⟩ := ssspLog_inv hps hwf hn hno hs fuel hf
  refine ⟨prevs, log, h1, h2, hlog.nodup, ?_, ?_⟩
  · intro vc hvc
    obtain ⟨e, he, _, hc⟩ := hlog.held vc hvc
    exact ⟨e, he, hc⟩
  · have := hlog.bound
    omega

theorem C17_each_node_committed_once_witness :
    ∃ prevs log, CalcDijkstraToManyLog popMin 10 exampleGraph 0 = Run.ok (prevs, log) ∧
      CalcDijkstraToMany popMin 10 exampleGraph 0 = Run.ok prevs ∧
      (log.commits.map Prod.fst).Nodup ∧
      (∀ vc ∈ log.commits, ∃ e, prevs[vc.1]? = some e ∧ e.Cost = vc.2) ∧
      log.pushes ≤ 1 + exampleGraph.Edges.length :=
  C17_each_node_committed_once popMin popMin_spec exampleGraph 0 10 (by decide) (by decide)
    (noOverflow_of_bound exampleGraph 0 5 (by decide) (by decide) (by decide)) (by decide)
    (by decide)

/-! ## The station selection -/

/-- The selection loop on a table whose ids are positions of the cost table: it
returns the ids of a prefix of the table, and an error exactly when it stops before
`cnt` ids were taken. -/
theorem takeReachable_run {D : Type} (wayCostEdges : List Edge) (rangeCm : Int)
    {sorted : List (IdDist D)} (hid : ∀ x ∈ sorted, x.id < wayCostEdges.length) :
    ∀ (cnt i : Nat) (acc : List Nat), i + cnt ≤ sorted.length →
      ∃ k err, takeReachable wayCostEdges rangeCm sorted i cnt acc =
          Run.ok (acc ++ ((sorted.drop i).take k).map IdDist.id, err) ∧
        k ≤ cnt ∧ (err ≠ none ↔ k < cnt)
  | 0, i, acc, _ => ⟨0, none, by simp [takeReachable], le_refl _, by simp⟩
  | cnt + 1, i, acc, hi => by
    have hlt : i < sorted.length := by omega
    have hx : sorted[i]? = some sorted[i] := List.getElem?_eq_getElem hlt
    have hidx := hid sorted[i] (List.getElem_mem _)
    have he : wayCostEdges[sorted[i].id]? = some wayCostEdges[sorted[i].id] :=
      List.getElem?_eq_getElem hidx
    by_cases hc : wayCostEdges[sorted[i].id].Cost < rangeCm
    · obtain ⟨k, err, hrun, hk, herr⟩ :=
        takeReachable_run wayCostEdges rangeCm hid cnt (i + 1) (acc ++ [sorted[i].id]) (by omega)
      refine ⟨k + 1, err, ?_, by omega, by rw [herr]; omega⟩
      have hdrop : sorted.drop i = sorted[i] :: sorted.drop (i + 1) :=
        List.drop_eq_getElem_cons hlt
      simp only [takeReachable, hx, he, hc, if_true]
      rw [hrun, hdrop, List.take_succ_cons, List.map_cons]
      simp only [List.append_assoc, List.singleton_append]
    · refine ⟨0, some Err.noMoreReachableStations, ?_, by omega, by simp⟩
      simp [takeReachable, hx, he, hc]

/-- C18: for every cost table (with a node for each of its entries), range and
count between 0 and the number of table entries, and whatever permutation of the
table `sort.Slice` leaves, `getMinDistanceStations` returns; the
list it returns has at most `count` ids, no id twice, each with a committed cost
strictly below `rangeCm`; the error is non-nil exactly when fewer than `count` ids are
returned; and the list is empty when no entry has a cost below `rangeCm`. -/
theorem C18_selection_returns_reachable_ids {D : Type} [LinearOrder D] (sort : SortFn D)
    (hss : SortSpec sort) (nodes : List Node) (dist : Nat → D) (wayCostEdges : List Edge)
    (stations : List Nat) (rangeCm count : Int)
    (hlen : wayCostEdges.length ≤ nodes.length) (h0 : 0 ≤ count)
    (hc : count ≤ wayCostEdges.length) :
    ∃ res err, getMinDistanceStations sort nodes dist wayCostEdges stations rangeCm count =
        Run.ok (res, err) ∧
      (res.length : Int) ≤ count ∧ res.Nodup ∧
      (∀ x ∈ res, ∃ e, wayCostEdges[x]? = some e ∧ e.Cost < rangeCm) ∧
      (err ≠ none ↔ (res.length : Int) < count) ∧
      ((∀ e ∈ wayCostEdges, ¬ e.Cost < rangeCm) → res = []) := by
  have hperm := hss.perm (lessFn wayCostEdges rangeCm)
    ((List.range wayCostEdges.length).map (fun i => (⟨i, dist i⟩ : IdDist D)))
  have hsl : (sort (lessFn wayCostEdges rangeCm)
      ((List.range wayCostEdges.length).map (fun i => (⟨i, dist i⟩ : IdDist D)))).length =
      wayCostEdges.length := by
    rw [hperm.length_eq]; simp
  have hid : ∀ x ∈ sort (lessFn wayCostEdges rangeCm)
      ((List.range wayCostEdges.length).map (fun i => (⟨i, dist i⟩ : IdDist D))),
      x.id < wayCostEdges.length := by
    intro x hx
    obtain ⟨i, hi, rfl⟩ := List.mem_map.mp (hperm.subset hx)
    exact List.mem_range.mp hi
  have hnd : ((sort (lessFn wayCostEdges rangeCm)
      ((List.range wayCostEdges.length).map (fun i => (⟨i, dist i⟩ : IdDist D)))).map
      IdDist.id).Nodup := by
    refine (List.Perm.nodup_iff (hperm.map IdDist.id)).mpr ?_
    simp only [List.map_map]
    have : (IdDist.id ∘ fun i => (⟨i, dist i⟩ : IdDist D)) = id := rfl
    rw [this, List.map_id]
    exact List.nodup_range _
  have hcnt : (count.toNat : Int) = count := Int.toNat_of_nonneg h0
  obtain ⟨k, err, hrun, hk, herr⟩ := takeReachable_run wayCostEdges rangeCm hid count.toNat 0 []
    (by omega)
  have hres : getMinDistanceStations sort nodes dist wayCostEdges stations rangeCm count =
      Run.ok ((List.take k (sort (lessFn wayCostEdges rangeCm)
        ((List.range wayCostEdges.length).map (fun i => (⟨i, dist i⟩ : IdDist D))))).map
        IdDist.id, err) := by
    simp only [getMinDistanceStations, hlen, if_true, hrun]
    simp
  have hklen : (List.map IdDist.id (List.take k (sort (lessFn wayCostEdges rangeCm)
      ((List.range wayCostEdges.length).map (fun i => (⟨i, dist i⟩ : IdDist D)))))).length =
      k := by
    rw [List.length_map, List.length_take, hsl]
    omega
  have hlt := getMinDistanceStations_lt hres
  refine ⟨_, err, hres, by rw [hklen]; omega, ?_, hlt, ?_, ?_⟩
  · rw [List.map_take]
    exact hnd.sublist (List.take_sublist _ _)
  · rw [hklen, herr]
    omega
  · intro hall
    rw [List.eq_nil_iff_forall_not_mem]
    intro x hx
    obtain ⟨e, he, hcost⟩ := hlt x hx
    exact hall e (mem_of_getElem? he) hcost

theorem C18_selection_returns_reachable_ids_witness :
    ∃ res err, getMinDistanceStations insertionSort pairGraph.Nodes pairDist pairTable [1, 2] 50
          2 = Run.ok (res, err) ∧
      (res.length : Int) ≤ 2 ∧ res.Nodup ∧
      (∀ x ∈ res, ∃ e, pairTable[x]? = some e ∧ e.Cost < 50) ∧
      (err ≠ none ↔ (res.length : Int) < 2) ∧
      ((∀ e ∈ pairTable, ¬ e.Cost < 50) → res = []) :=
  C18_selection_returns_reachable_ids insertionSort insertionSort_spec pairGraph.Nodes pairDist
    pairTable [1, 2] 50 2 (by decide) (by decide) (by decide)

theorem costAt_eq {wayCostEdges : List Edge} {i : Nat} {e : Edge}
    (h : wayCostEdges[i]? = some e) : costAt wayCostEdges i = e.Cost := by
  simp [costAt, h]

/-- The invariant of the loop of `getMinDistanceStation`: either nothing was chosen
yet and none of the stations seen is within range, or the station chosen is one of
those seen, is within range, and is nearest to the target among those seen within
range. -/
theorem minStationLoop_inv {D : Type} [LinearOrder D] (nodes : List Node) (dist : Nat → D)
    (maxFloat : D) (wayCostEdges : List Edge) (rangeCm : Int) :
    ∀ (rest seen : List Nat) (ms : Int) (md : D),
      (∀ x ∈ rest, x < nodes.length ∧ x < wayCostEdges.length ∧ dist x < maxFloat) →
      ((ms = -1 ∧ md = maxFloat ∧ ∀ y ∈ seen, ¬ costAt wayCostEdges y < rangeCm) ∨
        ∃ x ∈ seen, ms = (x : Int) ∧ md = dist x ∧ costAt wayCostEdges x < rangeCm ∧
          ∀ y ∈ seen, costAt wayCostEdges y < rangeCm → dist x ≤ dist y) →
      ∃ ms1 md1, minStationLoop nodes dist wayCostEdges rangeCm rest ms md = Run.ok (ms1, md1) ∧
        ((ms1 = -1 ∧ ∀ y ∈ seen ++ rest, ¬ costAt wayCostEdges y < rangeCm) ∨
          ∃ x ∈ seen ++ rest, ms1 = (x : Int) ∧ costAt wayCostEdges x < rangeCm ∧
            ∀ y ∈ seen ++ rest, costAt wayCostEdges y < rangeCm → dist x ≤ dist y)
  | [], seen, ms, md, _, hinv => by
    refine ⟨ms, md, rfl, ?_⟩
    simp only [List.append_nil]
    rcases hinv with ⟨h1, _, h3⟩ | ⟨x, hx, h1, _, h3, h4⟩
    · exact Or.inl ⟨h1, h3⟩
    · exact Or.inr ⟨x, hx, h1, h3, h4⟩
  | a :: rest, seen, ms, md, hin, hinv => by
    obtain ⟨ha1, ha2, ha3⟩ := hin a (List.mem_cons_self _ _)
    have he : wayCostEdges[a]? = some wayCostEdges[a] := List.getElem?_eq_getElem ha2
    have hcost := costAt_eq he
    have hrest : ∀ x ∈ rest, x < nodes.length ∧ x < wayCostEdges.length ∧ dist x < maxFloat :=
      fun x hx => hin x (List.mem_cons_of_mem _ hx)
    have happ : seen ++ a :: rest = (seen ++ [a]) ++ rest := by simp
    simp only [minStationLoop, ha1, if_true, he]
    rw [happ]
    by_cases hc : wayCostEdges[a].Cost < rangeCm ∧ dist a < md
    · simp only [hc, and_self, if_true]
      refine minStationLoop_inv nodes dist maxFloat wayCostEdges rangeCm rest (seen ++ [a]) a
        (dist a) hrest (Or.inr ⟨a, by simp, rfl, rfl,
        by rw [hcost]; exact hc.1, ?_⟩)
      intro y hy hyc
      rcases List.mem_append.mp hy with hy | hy
      · rcases hinv with ⟨_, _, h3⟩ | ⟨x, _, _, h2, _, h4⟩
        · exact absurd hyc (h3 y hy)
        · have := h4 y hy hyc
          rw [h2] at hc
          exact le_trans (le_of_lt hc.2) this
      · simp only [List.mem_singleton] at hy
        rw [hy]
    · simp only [hc, if_false]
      refine minStationLoop_inv nodes dist maxFloat wayCostEdges rangeCm rest (seen ++ [a]) ms md
        hrest ?_
      rcases hinv with ⟨h1, h2, h3⟩ | ⟨x, hx, h1, h2, h3, h4⟩
      · left
        refine ⟨h1, h2, ?_⟩
        intro y hy
        rcases List.mem_append.mp hy with hy | hy
        · exact h3 y hy
        · simp only [List.mem_singleton] at hy
          rw [hy, hcost]
          intro hlt
          exact hc ⟨hlt, by rw [h2]; exact ha3⟩
      · right
        refine ⟨x, List.mem_append_left _ hx, h1, h2, h3, ?_⟩
        intro y hy hyc
        rcases List.mem_append.mp hy with hy | hy
        · exact h4 y hy hyc
        · simp only [List.mem_singleton] at hy
          rw [hy] at hyc ⊢
          rw [hcost] at hyc
          have : ¬ dist a < md := fun hlt => hc ⟨hyc, hlt⟩
          rw [h2] at this
          exact not_lt.mp this

/-- C19: for every station set whose ids are nodes with a table entry and whose
straight-line distances to the target lie below the float maximum, in whatever order
the set is iterated, `getMinDistanceStation` returns; it returns the id -1 with the
error "no good station found" if and only if no station of the set has a committed
cost strictly below `rangeCm`; otherwise it returns, without error, the id of a
station of the set whose committed cost is strictly below `rangeCm` and whose
distance to the target is least among all such stations. -/
theorem C19_nearest_station_in_range {D : Type} [LinearOrder D] (nodes : List Node)
    (dist : Nat → D) (maxFloat : D) (wayCostEdges : List Edge) (stations : List Nat)
    (rangeCm : Int)
    (hin : ∀ x ∈ stations, x < nodes.length ∧ x < wayCostEdges.length)
    (hd : ∀ x ∈ stations, dist x < maxFloat) :
    ∃ id err, getMinDistanceStation nodes dist maxFloat wayCostEdges stations rangeCm =
        Run.ok (id, err) ∧
      ((id = -1 ∧ err = some Err.noGoodStationFound) ↔
        ¬ ∃ x ∈ stations, costAt wayCostEdges x < rangeCm) ∧
      ((∃ x ∈ stations, costAt wayCostEdges x < rangeCm) →
        err = none ∧ ∃ x ∈ stations, id = (x : Int) ∧ costAt wayCostEdges x < rangeCm ∧
          ∀ y ∈ stations, costAt wayCostEdges y < rangeCm → dist x ≤ dist y) := by
  obtain ⟨ms, md, hrun, hres⟩ := minStationLoop_inv nodes dist maxFloat wayCostEdges rangeCm
    stations [] (-1) maxFloat
    (fun x hx => ⟨(hin x hx).1, (hin x hx).2, hd x hx⟩)
    (Or.inl ⟨rfl, rfl, fun y hy => by simp at hy⟩)
  simp only [List.nil_append] at hres
  rcases hres with ⟨h1, h2⟩ | ⟨x, hx, h1, h2, h3⟩
  · subst h1
    refine ⟨-1, some Err.noGoodStationFound, by simp [getMinDistanceStation, hrun], ?_, ?_⟩
    · simp only [and_self, true_iff, not_exists, not_and]
      exact h2
    · rintro ⟨y, hy, hyc⟩
      exact absurd hyc (h2 y hy)
  · have hne : ms ≠ -1 := by rw [h1]; omega
    refine ⟨ms, none, by simp [getMinDistanceStation, hrun, hne], ?_, ?_⟩
    · constructor
      · rintro ⟨_, h⟩
        simp at h
      · intro h
        exact absurd ⟨x, hx, h2⟩ h
    · intro _
      exact ⟨rfl, x, hx, h1, h2, h3⟩

theorem C19_nearest_station_in_range_witness :
    ∃ id err, getMinDistanceStation detourGraph.Nodes detourDist 1000 detourTable [2, 1] 6 =
        Run.ok (id, err) ∧
      ((id = -1 ∧ err = some Err.noGoodStationFound) ↔
        ¬ ∃ x ∈ ([2, 1] : List Nat), costAt detourTable x < 6) ∧
      ((∃ x ∈ ([2, 1] : List Nat), costAt detourTable x < 6) →
        err = none ∧ ∃ x ∈ ([2, 1] : List Nat), id = (x : Int) ∧ costAt detourTable x < 6 ∧
          ∀ y ∈ ([2, 1] : List Nat), costAt detourTable y < 6 →
            detourDist x ≤ detourDist y) :=
  C19_nearest_station_in_range detourGraph.Nodes detourDist 1000 detourTable [2, 1] 6
    (by decide) (by decide)

/-! ## No index out of range -/

theorem WF.csr {g : GraphProd} (h : WF g) : CSR g := ⟨h.1, h.2.1, h.2.2.1, h.2.2.2.1⟩

theorem WF.starts_valid {g : GraphProd} (h : WF g) : StartsValid g := by
  intro e he
  obtain ⟨i, hi, hget⟩ := List.getElem_of_mem he
  exact (h.edge_pos (by rw [List.getElem?_eq_getElem hi, hget])).1

theorem CSR.offset_get {g : GraphProd} (h : CSR g) {u : Nat} (hu : u ≤ g.Nodes.length) :
    g.Offset[u]? = some (offAt g u) := by
  have hl := h.1
  have hlt : u < g.Offset.length := by omega
  simp [offAt, List.getD, List.getElem?_eq_getElem hlt]

theorem CSR.offset_le_edges {g : GraphProd} (h : CSR g) :
    ∀ (k u : Nat), u + k = g.Nodes.length → offAt g u ≤ g.Edges.length
  | 0, u, hk => by
    have : u = g.Nodes.length := by omega
    rw [this, h.2.2.1]
  | k + 1, u, hk => by
    have h1 := h.2.2.2 u (List.mem_range.mpr (by omega))
    have h2 := CSR.offset_le_edges h k (u + 1) (by omega)
    omega

theorem relax_safe {g : GraphProd} (hends : EndsValid g) (hstarts : StartsValid g)
    {prevs : List Edge} (hlen : prevs.length = g.Nodes.length) {p : Int} :
    ∀ (cnt i : Nat) (pq : List Item), i + cnt ≤ g.Edges.length →
      (∀ it ∈ pq, it.Value.Start < g.Nodes.length ∧ it.Value.End < g.Nodes.length) →
      ∃ pq1, relax g prevs p i cnt pq = Run.ok pq1 ∧
        ∀ it ∈ pq1, it.Value.Start < g.Nodes.length ∧ it.Value.End < g.Nodes.length
  | 0, _, pq, _, hpq => ⟨pq, rfl, hpq⟩
  | cnt + 1, i, pq, hi, hpq => by
    have hlt : i < g.Edges.length := by omega
    have he : g.Edges[i]? = some g.Edges[i] := List.getElem?_eq_getElem hlt
    have hmem : g.Edges[i] ∈ g.Edges := List.getElem_mem _
    obtain ⟨pe, hpe⟩ := getElem?_of_lt hlen (hends _ hmem)
    simp only [relax, he, hpe]
    refine relax_safe hends hstarts hlen cnt (i + 1) _ (by omega) ?_
    intro it hit
    split at hit
    · rcases List.mem_cons.mp hit with rfl | hit
      · exact ⟨hstarts _ hmem, hends _ hmem⟩
      · exact hpq it hit
    · exact hpq it hit

/-- The frontier loop never indexes out of range, whatever the edge costs are and
whatever fuel it is given, and the table it returns is as safe as the one it
started from. -/
theorem loop_safe {pop : Pop} (hps : PopSpec pop) {g : GraphProd} (hcsr : CSR g)
    (hends : EndsValid g) (hstarts : StartsValid g) :
    ∀ (fuel : Nat) (pq : List Item) (prevs : List Edge), Safe g pq prevs →
      dijkstraLoop pop g fuel pq prevs = Run.outOfFuel ∨
      ∃ r, dijkstraLoop pop g fuel pq prevs = Run.ok r ∧ Safe g [] r
  | 0, _, _, _ => Or.inl rfl
  | fuel + 1, pq, prevs, hsafe => by
    cases hpop : pop pq with
    | none =>
      right
      exact ⟨prevs, by simp [dijkstraLoop, hpop],
        ⟨hsafe.len, hsafe.tab, fun it hit => by simp at hit⟩⟩
    | some p =>
      obtain ⟨it, rest⟩ := p
      have hperm := hps.perm _ _ _ hpop
      have hsub : ∀ x ∈ rest, x ∈ pq :=
        fun x hx => hperm.symm.subset (List.mem_cons_of_mem _ hx)
      have hit : it ∈ pq := hperm.symm.subset (List.mem_cons_self _ _)
      obtain ⟨hst, hen⟩ := hsafe.itm it hit
      obtain ⟨pe, hpe⟩ := getElem?_of_lt hsafe.len hen
      have hrest : ∀ x ∈ rest, x.Value.Start < g.Nodes.length ∧ x.Value.End < g.Nodes.length :=
        fun x hx => hsafe.itm x (hsub x hx)
      by_cases hge : it.Priority ≥ pe.Cost
      · simp only [dijkstraLoop, hpop, hpe, hge, if_true]
        exact loop_safe hps hcsr hends hstarts fuel rest prevs ⟨hsafe.len, hsafe.tab, hrest⟩
      · have hlen1 : (prevs.set it.Value.End
            ⟨it.Value.ID, it.Value.Start, it.Value.End, it.Priority⟩).length = g.Nodes.length := by
          rw [List.length_set]; exact hsafe.len
        have hmono := hcsr.2.2.2 it.Value.End (List.mem_range.mpr hen)
        have hle := hcsr.offset_le_edges (g.Nodes.length - (it.Value.End + 1)) (it.Value.End + 1)
          (by omega)
        obtain ⟨pq1, hr, hpq1⟩ := @relax_safe g hends hstarts _ hlen1 it.Priority
          (offAt g (it.Value.End + 1) - offAt g it.Value.End) (offAt g it.Value.End) rest
          (by omega) hrest
        simp only [dijkstraLoop, hpop, hpe, hge, if_false, hcsr.offset_get (le_of_lt hen),
          hcsr.offset_get (Nat.succ_le_of_lt hen), hr]
        refine loop_safe hps hcsr hends hstarts fuel pq1 _ ⟨hlen1, ?_, hpq1⟩
        intro e he
        rcases List.mem_or_eq_of_mem_set he with he | rfl
        · exact hsafe.tab e he
        · exact ⟨hst, hen⟩

theorem wayLoop_safe {prevs : List Edge} {n : Nat} (hlen : prevs.length = n)
    (htab : ∀ e ∈ prevs, e.Start < n) (s : Nat) :
    ∀ (fuel : Nat) (e : Edge) (acc : List Nat), e.Start < n →
      wayLoop prevs s fuel e acc ≠ Run.indexOutOfRange
  | 0, _, _, _ => by simp [wayLoop]
  | fuel + 1, e, acc, he => by
    by_cases hend : e.End = s
    · simp [wayLoop, hend]
    · obtain ⟨e1, he1⟩ := getElem?_of_lt hlen he
      simp only [wayLoop, hend, if_false, he1]
      exact wayLoop_safe hlen htab s fuel e1 _ (htab e1 (mem_of_getElem? he1))

/-- On a graph whose offset table has node count + 1 entries, is non-decreasing,
starts at 0 and ends at the edge count, and whose edges all start and end at a valid
node id, `CalcDijkstra` never indexes out of range, whatever the edge costs are and
however long it runs. -/
theorem CalcDijkstra_in_bounds {pop : Pop} (hps : PopSpec pop) {g : GraphProd}
    (s t fuel : Nat) (hcsr : CSR g) (hends : EndsValid g) (hstarts : StartsValid g)
    (hs : s < g.Nodes.length) (ht : t < g.Nodes.length) :
    CalcDijkstra pop fuel g s t ≠ Run.indexOutOfRange := by
  have hsafe : Safe g (push [] ⟨startEdge s, 0⟩) (List.replicate g.Nodes.length (initEdge s)) := by
    refine ⟨by simp, ?_, ?_⟩
    · intro e he
      rw [List.eq_of_mem_replicate he]
      exact ⟨hs, hs⟩
    · intro it hit
      simp only [push, List.mem_singleton] at hit
      subst hit
      exact ⟨hs, hs⟩
  unfold CalcDijkstra CalcDijkstraToMany
  rcases loop_safe hps hcsr hends hstarts fuel _ _ hsafe with h | ⟨r, h, hr⟩
  · rw [h]
    simp
  · rw [h]
    obtain ⟨te, hte⟩ := getElem?_of_lt hr.len ht
    have hmem := hr.tab te (mem_of_getElem? hte)
    simp only [reconstruct, hte]
    by_cases hc : te.Cost = MaxInt64
    · simp [hc]
    · have hl : te.End < r.length := by rw [hr.len]; exact hmem.2
      simp only [hc, if_false, hl, if_true]
      have hw := wayLoop_safe hr.len (fun e he => (hr.tab e he).1) s fuel te [te.End] hmem.1
      cases hrun : wayLoop r s fuel te [te.End] with
      | ok way => simp
      | indexOutOfRange => exact absurd hrun hw
      | outOfFuel => simp

/-- C20: on every graph that satisfies the CSR invariants (the offset table has node
count + 1 entries, is non-decreasing, starts at 0 and ends at the edge count, the
edges in the slice of a node start at that node) and whose edges all end at a valid
node id, for every start and target with valid node ids and whatever the edge costs
are, `CalcDijkstra` never indexes `prevs`, `g.Offset`, `g.Edges` or `g.Nodes` out of
range, however long it runs. -/
theorem C20_no_index_out_of_range (pop : Pop) (hps : PopSpec pop) (g : GraphProd)
    (s t fuel : Nat) (hwf : WF g) (hs : s < g.Nodes.length) (ht : t < g.Nodes.length) :
    CalcDijkstra pop fuel g s t ≠ Run.indexOutOfRange :=
  CalcDijkstra_in_bounds hps s t fuel hwf.csr (fun _ he => hwf.end_lt he) hwf.starts_valid hs ht

theorem C20_no_index_out_of_range_witness :
    CalcDijkstra popMin 10 exampleGraph 0 3 ≠ Run.indexOutOfRange :=
  C20_no_index_out_of_range popMin popMin_spec exampleGraph 0 3 10 (by decide) (by decide)
    (by decide)
/-! ## Termination of the router -/

theorem sum_map_set_lt {α : Type} (f : α → Nat) :
    ∀ (l : List α) (i : Nat) (a b : α), l[i]? = some a → f b < f a →
      ((l.set i b).map f).sum < (l.map f).sum
  | [], i, a, b, h, _ => by simp at h
  | x :: xs, 0, a, b, h, hlt => by
    simp only [List.getElem?_cons_zero, Option.some.injEq] at h
    subst h
    simp only [List.set_cons_zero, List.map_cons, List.sum_cons]
    omega
  | x :: xs, i + 1, a, b, h, hlt => by
    simp only [List.getElem?_cons_succ] at h
    have ih := sum_map_set_lt f xs i a b h hlt
    simp only [List.set_cons_succ, List.map_cons, List.sum_cons]
    omega

/-- Writing a lower cost into the table lowers its potential. -/
theorem costPotential_set {prevs : List Edge} {i : Nat} {pe e : Edge}
    (hpe : prevs[i]? = some pe) (hr : InInt64 e.Cost) (hlt : e.Cost < pe.Cost) :
    costPotential (prevs.set i e) < costPotential prevs := by
  refine sum_map_set_lt _ prevs i pe e hpe ?_
  unfold InInt64 at hr
  omega

theorem costPotential_init (n s : Nat) :
    costPotential (List.replicate n (initEdge s)) = n * 18446744073709551615 := by
  simp [costPotential, initEdge, MaxInt64]

/-- The relaxation loop pushes at most one entry per iteration. -/
theorem relax_length {g : GraphProd} {prevs : List Edge} {p : Int} :
    ∀ (cnt i : Nat) (pq pq1 : List Item), relax g prevs p i cnt pq = Run.ok pq1 →
      pq1.length ≤ pq.length + cnt
  | 0, _, pq, pq1, h => by
    simp only [relax] at h
    rw [← Run.ok.inj h]; omega
  | cnt + 1, i, pq, pq1, h => by
    cases he : g.Edges[i]? with
    | none => simp [relax, he] at h
    | some e =>
      cases hpe : prevs[e.End]? with
      | none => simp [relax, he, hpe] at h
      | some pe =>
        simp only [relax, he, hpe] at h
        have ih := relax_length cnt (i + 1) _ pq1 h
        split at ih
        · simp only [push, List.length_cons] at ih
          omega
        · omega

/-- The frontier loop returns, whatever the edge costs are, once its fuel exceeds the
length of the frontier plus (edge count + 1) times the potential of the table: a
pass that writes the table lowers the potential and pushes at most edge count
entries, every other pass shortens the frontier. -/
theorem loop_total {pop : Pop} (hps : PopSpec pop) {g : GraphProd} (hcsr : CSR g)
    (hends : EndsValid g) (hstarts : StartsValid g) :
    ∀ (fuel : Nat) (pq : List Item) (prevs : List Edge), Safe g pq prevs →
      (∀ e ∈ prevs, InInt64 e.Cost) → (∀ it ∈ pq, InInt64 it.Priority) →
      pq.length + (g.Edges.length + 1) * costPotential prevs < fuel →
      ∃ r, dijkstraLoop pop g fuel pq prevs = Run.ok r ∧ Safe g [] r
  | 0, _, _, _, _, _, hm => by omega
  | fuel + 1, pq, prevs, hsafe, hpr, hpq, hm => by
    cases hpop : pop pq with
    | none =>
      exact ⟨prevs, by simp [dijkstraLoop, hpop],
        ⟨hsafe.len, hsafe.tab, fun it hit => by simp at hit⟩⟩
    | some p =>
      obtain ⟨it, rest⟩ := p
      have hperm := hps.perm _ _ _ hpop
      have hlen : pq.length = rest.length + 1 := by rw [hperm.length_eq]; simp
      have hsub : ∀ x ∈ rest, x ∈ pq :=
        fun x hx => hperm.symm.subset (List.mem_cons_of_mem _ hx)
      have hit : it ∈ pq := hperm.symm.subset (List.mem_cons_self _ _)
      obtain ⟨hst, hen⟩ := hsafe.itm it hit
      obtain ⟨pe, hpe⟩ := getElem?_of_lt hsafe.len hen
      have hrest : ∀ x ∈ rest, x.Value.Start < g.Nodes.length ∧ x.Value.End < g.Nodes.length :=
        fun x hx => hsafe.itm x (hsub x hx)
      have hrange : ∀ x ∈ rest, InInt64 x.Priority := fun x hx => hpq x (hsub x hx)
      by_cases hge : it.Priority ≥ pe.Cost
      · simp only [dijkstraLoop, hpop, hpe, hge, if_true]
        exact loop_total hps hcsr hends hstarts fuel rest prevs ⟨hsafe.len, hsafe.tab, hrest⟩
          hpr hrange (by omega)
      · have hlen1 : (prevs.set it.Value.End
            ⟨it.Value.ID, it.Value.Start, it.Value.End, it.Priority⟩).length = g.Nodes.length := by
          rw [List.length_set]; exact hsafe.len
        have hmono := hcsr.2.2.2 it.Value.End (List.mem_range.mpr hen)
        have hle := hcsr.offset_le_edges (g.Nodes.length - (it.Value.End + 1)) (it.Value.End + 1)
          (by omega)
        obtain ⟨pq1, hr, hpq1⟩ := @relax_safe g hends hstarts _ hlen1 it.Priority
          (offAt g (it.Value.End + 1) - offAt g it.Value.End) (offAt g it.Value.End) rest
          (by omega) hrest
        have hl1 := relax_length _ _ _ _ hr
        have hpot : costPotential (prevs.set it.Value.End
            ⟨it.Value.ID, it.Value.Start, it.Value.End, it.Priority⟩) < costPotential prevs :=
          costPotential_set hpe (hpq it hit) (by simp only [ge_iff_le, not_le] at hge; exact hge)
        have hmul := Nat.mul_le_mul_left (g.Edges.length + 1) (Nat.succ_le_of_lt hpot)
        rw [Nat.mul_succ] at hmul
        simp only [dijkstraLoop, hpop, hpe, hge, if_false, hcsr.offset_get (le_of_lt hen),
          hcsr.offset_get (Nat.succ_le_of_lt hen), hr]
        refine loop_total hps hcsr hends hstarts fuel pq1 _ ⟨hlen1, ?_, hpq1⟩ ?_
          (relax_range _ _ _ _ hr hrange) (by omega)
        · intro e he
          rcases List.mem_or_eq_of_mem_set he with he | rfl
          · exact hsafe.tab e he
          · exact ⟨hst, hen⟩
        · intro e he
          rcases List.mem_or_eq_of_mem_set he with he | rfl
          · exact hpr e he
          · exact hpq it hit

/-- `CalcDijkstraToMany` returns a table with one entry per node, whatever the edge
costs are, when given `ssspFuel g` passes or more. -/
theorem sssp_total {pop : Pop} (hps : PopSpec pop) {g : GraphProd} (hwf : WF g) {s fuel : Nat}
    (hs : s < g.Nodes.length) (hf : ssspFuel g ≤ fuel) :
    ∃ prevs, CalcDijkstraToMany pop fuel g s = Run.ok prevs ∧
      prevs.length = g.Nodes.length := by
  have hsafe : Safe g (push [] ⟨startEdge s, 0⟩) (List.replicate g.Nodes.length (initEdge s)) := by
    refine ⟨by simp, ?_, ?_⟩
    · intro e he
      rw [List.eq_of_mem_replicate he]
      exact ⟨hs, hs⟩
    · intro it hit
      simp only [push, List.mem_singleton] at hit
      subst hit
      exact ⟨hs, hs⟩
  obtain ⟨r, hr, hsr⟩ := loop_total hps hwf.csr (fun _ he => hwf.end_lt he) hwf.starts_valid
    fuel _ _ hsafe
    (by
      intro e he
      rw [List.eq_of_mem_replicate he]
      simp [InInt64, initEdge, MaxInt64])
    (by
      intro it hit
      simp only [push, List.mem_singleton] at hit
      subst hit
      simp [InInt64, MaxInt64])
    (by
      rw [costPotential_init]
      unfold ssspFuel at hf
      simp only [push, List.length_singleton]
      omega)
  exact ⟨r, hr, hsr.len⟩

/-- The selection loop returns when some entry at or after its position is out of
range: it stops there at the latest. -/
theorem takeReachable_total {D : Type} {wayCostEdges : List Edge} {rangeCm : Int}
    {sorted : List (IdDist D)} (hid : ∀ x ∈ sorted, x.id < wayCostEdges.length) :
    ∀ (cnt i : Nat) (acc : List Nat),
      (∃ j x e, i ≤ j ∧ sorted[j]? = some x ∧ wayCostEdges[x.id]? = some e ∧
        ¬ e.Cost < rangeCm) →
      ∃ res err, takeReachable wayCostEdges rangeCm sorted i cnt acc = Run.ok (res, err)
  | 0, _, acc, _ => ⟨acc, none, rfl⟩
  | cnt + 1, i, acc, hstop => by
    obtain ⟨j, x, e, hij, hx, he, hcost⟩ := hstop
    have hj : j < sorted.length := by
      by_contra hc
      rw [List.getElem?_eq_none (by omega)] at hx
      exact Option.noConfusion hx
    have hlt : i < sorted.length := by omega
    have hxi : sorted[i]? = some sorted[i] := List.getElem?_eq_getElem hlt
    have hidx := hid sorted[i] (List.getElem_mem _)
    have hei : wayCostEdges[sorted[i].id]? = some wayCostEdges[sorted[i].id] :=
      List.getElem?_eq_getElem hidx
    by_cases hc : wayCostEdges[sorted[i].id].Cost < rangeCm
    · simp only [takeReachable, hxi, hei, hc, if_true]
      refine takeReachable_total hid cnt (i + 1) _ ⟨j, x, e, ?_, hx, he, hcost⟩
      by_contra hne
      have hji : j = i := by omega
      subst hji
      rw [hxi] at hx
      have hxe : sorted[j] = x := Option.some.inj hx
      subst hxe
      rw [hei] at he
      have hee : wayCostEdges[sorted[j].id] = e := Option.some.inj he
      rw [← hee] at hcost
      exact hcost hc
    · exact ⟨acc, some Err.noMoreReachableStations, by simp [takeReachable, hxi, hei, hc]⟩

/-- The selection returns, for every count, when the table has an entry that is out
of range, as the target's is when the selection is called. -/
theorem getMinDistanceStations_total {D : Type} [LinearOrder D] {sort : SortFn D}
    (hss : SortSpec sort) {nodes : List Node} (dist : Nat → D) {wayCostEdges : List Edge}
    (stations : List Nat) {rangeCm : Int} (count : Int)
    (hlen : wayCostEdges.length ≤ nodes.length) {t : Nat} {te : Edge}
    (hte : wayCostEdges[t]? = some te) (hcost : ¬ te.Cost < rangeCm) :
    ∃ res err, getMinDistanceStations sort nodes dist wayCostEdges stations rangeCm count =
      Run.ok (res, err) := by
  have hperm := hss.perm (lessFn wayCostEdges rangeCm)
    ((List.range wayCostEdges.length).map (fun i => (⟨i, dist i⟩ : IdDist D)))
  have hid : ∀ x ∈ sort (lessFn wayCostEdges rangeCm)
      ((List.range wayCostEdges.length).map (fun i => (⟨i, dist i⟩ : IdDist D))),
      x.id < wayCostEdges.length := by
    intro x hx
    obtain ⟨i, hi, rfl⟩ := List.mem_map.mp (hperm.subset hx)
    exact List.mem_range.mp hi
  have ht : t < wayCostEdges.length := by
    by_contra hc
    rw [List.getElem?_eq_none (by omega)] at hte
    exact Option.noConfusion hte
  have hmem : (⟨t, dist t⟩ : IdDist D) ∈ sort (lessFn wayCostEdges rangeCm)
      ((List.range wayCostEdges.length).map (fun i => (⟨i, dist i⟩ : IdDist D))) :=
    hperm.symm.subset (List.mem_map.mpr ⟨t, List.mem_range.mpr ht, rfl⟩)
  obtain ⟨j, hj, hget⟩ := List.getElem_of_mem hmem
  simp only [getMinDistanceStations, hlen, if_true]
  exact takeReachable_total hid count.toNat 0 []
    ⟨j, ⟨t, dist t⟩, te, Nat.zero_le _, by rw [List.getElem?_eq_getElem hj, hget], hte, hcost⟩

/-- The loop over the candidates returns when every candidate is a node of the
graph; the position it ends at and the positions it pushes are candidates. -/
theorem visitBatch_total (findWay : FindWay) (g : GraphProd) (w : List Edge) :
    ∀ (cands : List Nat) (p : Nat) (route : NodeRoute) (sts : List Nat) (stack : List Snapshot),
      (∀ c ∈ cands, c < g.Nodes.length) → p < g.Nodes.length →
      (∀ snap ∈ stack, snap.PartialStart < g.Nodes.length) →
      ∃ res, visitBatch findWay g w cands p route sts stack = Run.ok res ∧
        res.1 < g.Nodes.length ∧ ∀ snap ∈ res.2.2.2, snap.PartialStart < g.Nodes.length
  | [], p, route, sts, stack, _, hp, hstack => ⟨_, rfl, hp, hstack⟩
  | c :: rest, p, route, sts, stack, hc, hp, hstack => by
    have hcn : c < g.Nodes.length := hc c (List.mem_cons_self _ _)
    simp only [visitBatch, hcn, if_true]
    refine visitBatch_total findWay g w rest c _ _ _
      (fun d hd => hc d (List.mem_cons_of_mem _ hd)) hcn ?_
    intro snap hsnap
    rcases List.mem_cons.mp hsnap with rfl | hsnap
    · exact hcn
    · exact hstack snap hsnap

/-- The main loop returns within `DijkstraMaxStations - counter + 1` passes. -/
theorem stationLoop_total {pop : Pop} (hps : PopSpec pop) {D : Type} [LinearOrder D]
    {sort : SortFn D} (hss : SortSpec sort) (findWay : FindWay) {g : GraphProd} (hwf : WF g)
    (dist : Nat → D) (gasStations : List Nat) {t fuel : Nat} (ht : t < g.Nodes.length)
    (hf : ssspFuel g ≤ fuel) (rangeCm : Int) (config : Config) :
    ∀ (rounds p : Nat) (route : NodeRoute) (sts : List Nat) (stack : List Snapshot)
      (counter : Int), p < g.Nodes.length →
      (∀ snap ∈ stack, snap.PartialStart < g.Nodes.length) →
      (config.DijkstraMaxStations - counter).toNat < rounds →
      ∃ r, stationLoop pop sort findWay fuel g dist gasStations t rangeCm config rounds p route
        sts stack counter = Run.ok r
  | 0, _, _, _, _, _, _, _, hr => by omega
  | rounds + 1, p, route, sts, stack, counter, hp, hstack, hr => by
    obtain ⟨prevs, hrun, hlen⟩ := sssp_total hps hwf hp hf
    obtain ⟨te, hte⟩ := getElem?_of_lt hlen ht
    simp only [stationLoop, hrun, hte]
    by_cases hmax : te.Cost = MaxInt64
    · simp only [hmax, if_true]
      exact ⟨_, rfl⟩
    · simp only [hmax, if_false, goalReachable_eq rangeCm hte]
      by_cases hgt : te.Cost > rangeCm
      · have hgt2 : ¬ ¬ te.Cost > rangeCm := not_not.mpr hgt
        simp only [hgt2, if_false]
        by_cases hcnt : counter + 1 > config.DijkstraMaxStations
        · simp only [hcnt, if_true]
          exact ⟨_, rfl⟩
        · simp only [hcnt, if_false]
          obtain ⟨res, err, hsel⟩ := getMinDistanceStations_total hss dist gasStations
            config.DijkstraMaxstationsPerStep (by rw [hlen]) hte
            (show ¬ te.Cost < rangeCm by omega)
          simp only [hsel]
          have hlt := getMinDistanceStations_lt hsel
          by_cases hempty : res.length ≤ 0
          · simp only [hempty, if_true]
            cases stack with
            | nil =>
              simp only [stackPop]
              exact ⟨_, rfl⟩
            | cons snap stack1 =>
              simp only [stackPop]
              exact stationLoop_total hps hss findWay hwf dist gasStations ht hf rangeCm config
                rounds _ _ _ _ _ (hstack snap (List.mem_cons_self _ _))
                (fun x hx => hstack x (List.mem_cons_of_mem _ hx)) (by omega)
          · simp only [hempty, if_false]
            obtain ⟨vb, hvb, hv1, hv2⟩ := visitBatch_total findWay g prevs res p route sts stack
              (fun c hc => by
                obtain ⟨e, he, _⟩ := hlt c hc
                by_contra hcn
                rw [List.getElem?_eq_none (by omega)] at he
                exact Option.noConfusion he)
              hp hstack
            obtain ⟨p1, route1, sts1, stack1⟩ := vb
            simp only [hvb]
            exact stationLoop_total hps hss findWay hwf dist gasStations ht hf rangeCm config
              rounds _ _ _ _ _ hv1 hv2 (by omega)
      · have hgt2 : ¬ te.Cost > rangeCm := hgt
        simp only [hgt2, not_false_eq_true, if_true]
        exact ⟨_, rfl⟩

/-- C10: on every graph that satisfies the CSR invariants, whatever the edge costs
are (non-negative or not), for every valid start and target, every range, every
ceiling `DijkstraMaxStations ≥ 0` and every value of `DijkstraMaxstationsPerStep`,
whatever permutation `sort.Slice` leaves and whatever `findWayToGoal` returns,
`CalcStationDijkstraSnapshots` returns a route or an error when its main loop is
allowed `DijkstraMaxStations + 1` passes, each of which runs one single-source
computation that is allowed `ssspFuel g` passes of the frontier loop. -/
theorem C10_router_returns_within_ceiling {D : Type} [LinearOrder D] (pop : Pop)
    (hps : PopSpec pop) (sort : SortFn D) (hss : SortSpec sort) (findWay : FindWay)
    (g : GraphProd) (dist : Nat → D) (gasStations : List Nat) (s t fuel rounds : Nat)
    (rangeCm : Int) (config : Config) (hwf : WF g) (hs : s < g.Nodes.length)
    (ht : t < g.Nodes.length) (h0 : 0 ≤ config.DijkstraMaxStations)
    (hf : ssspFuel g ≤ fuel) (hr : (config.DijkstraMaxStations + 1).toNat ≤ rounds) :
    ∃ r, CalcStationDijkstraSnapshots pop sort findWay fuel rounds g dist gasStations s t rangeCm
      config = Run.ok r := by
  unfold CalcStationDijkstraSnapshots
  exact stationLoop_total hps hss findWay hwf dist gasStations ht hf rangeCm config rounds s _
    _ _ 0 hs (fun x hx => by simp at hx) (by omega)

theorem C10_router_returns_within_ceiling_witness :
    ∃ r, CalcStationDijkstraSnapshots popMin insertionSort findWayToGoal (ssspFuel chainGraph) 2
      chainGraph chainDist [1, 2] 0 3 7 ⟨1, 2⟩ = Run.ok r :=
  C10_router_returns_within_ceiling popMin popMin_spec insertionSort insertionSort_spec
    findWayToGoal chainGraph chainDist [1, 2] 0 3 (ssspFuel chainGraph) 2 7 ⟨1, 2⟩ (by decide)
    (by decide) (by decide) (by decide) (le_refl _) (by decide)
end Dijkstra
